import Mathlib

/-!
Address-space management of the xv6 teaching kernel (`kernel/vm.c`)

A shallow embedding of the page-table engine (`walk`, `walkaddr`, `mappages`,
`uvmunmap`, `uvmalloc`, `uvmcopy`), of the copy layer (`copyout`, `copyin`,
`copyinstr`) and of the VMA manager (`mmap`, `munmap`, `mtrap`, `mcopy`,
`_mfree`) of `src/mp2/xv6/kernel/vm.c`, followed by theorems about them.

Conventions of the embedding.

* Machine integers are natural numbers; every C operation that can wrap is
  written with an explicit `% 2^64` (`u64`) or `% 2^32` (`u32`).
* Pointers are natural numbers, `0` being the null pointer, except
  `struct vmarea *`, which is an index into `vma_cache` (`none` is null).
* Kernel state is passed explicitly (`State`); a call either returns, hits
  `panic(...)`, or exhausts the loop budget it was given (`Outcome`).
* Physical memory is a map from addresses to values: a page-table entry is
  the 64-bit word held at the address of the entry, data is held cell by cell.
  Page-table pages live in it, so `walk` follows the same words the hardware
  would; the theorems about copies take page-table pages and data to lie
  apart.
-/

namespace Vm

/-! ## Machine arithmetic -/

/-- Truncation to `uint64`. -/
def u64 (x : Nat) : Nat := x % 2 ^ 64

/-- Truncation to `uint` (32 bits). -/
def u32 (x : Nat) : Nat := x % 2 ^ 32

/-- Unsigned 64-bit subtraction `a - b`. -/
def sub64 (a b : Nat) : Nat := (a % 2 ^ 64 + (2 ^ 64 - b % 2 ^ 64)) % 2 ^ 64

/-- Conversion of a 64-bit value to `int` followed by the conversion back to
`uint64` that C applies when the `int` meets a `uint64` operand (sign
extension of the low 32 bits). -/
def sext32 (x : Nat) : Nat :=
  if x % 2 ^ 32 < 2 ^ 31 then x % 2 ^ 32 else x % 2 ^ 32 + (2 ^ 64 - 2 ^ 32)

/-- Conversion of an `int` argument to `uint64` (two's complement). -/
def ofInt64 (x : Int) : Nat := (x % (2 : Int) ^ 64).toNat

/-- The value `-1` returned through a `uint64`. -/
def neg1 : Nat := 2 ^ 64 - 1

/-! ## Constants and macros of `riscv.h`

`riscv.h` is not part of `src/`; the values below are the ones fixed by the
RISC-V Sv39 format that the comment above `walk` describes (12 bits of byte
offset, three 9-bit indices, 512 64-bit entries per page-table page). -/

/-- Modelled from the spec: `PGSIZE` of the absent `riscv.h`; the comment above
`walk` gives 12 bits of byte offset within a page. -/
def PGSIZE : Nat := 4096

/-- Modelled from the spec: valid bit of a page-table entry (`riscv.h` absent). -/
def PTE_V : Nat := 1
/-- Modelled from the spec: readable bit (`riscv.h` absent). -/
def PTE_R : Nat := 2
/-- Modelled from the spec: writable bit (`riscv.h` absent). -/
def PTE_W : Nat := 4
/-- Modelled from the spec: executable bit (`riscv.h` absent). -/
def PTE_X : Nat := 8
/-- Modelled from the spec: user-accessible bit (`riscv.h` absent). -/
def PTE_U : Nat := 16
/-- Modelled from the spec: dirty bit (`riscv.h` absent). -/
def PTE_D : Nat := 128

/-- Modelled from the spec: `PGROUNDDOWN(a)`, `a & ~(PGSIZE-1)` (`riscv.h` absent). -/
def PGROUNDDOWN (a : Nat) : Nat := a - a % PGSIZE

/-- Modelled from the spec: `PGROUNDUP(sz)` on a `uint64`,
`(sz + PGSIZE - 1) & ~(PGSIZE-1)` with the sum taken modulo `2^64`. -/
def PGROUNDUP (sz : Nat) : Nat := PGROUNDDOWN (u64 (sz + PGSIZE - 1))

/-- Modelled from the spec: `PGROUNDUP(sz)` on a `uint` (the sum wraps at
`2^32`, as `PGSIZE` is an `int` constant). -/
def PGROUNDUP32 (sz : Nat) : Nat := PGROUNDDOWN (u32 (sz + PGSIZE - 1))

/-- Modelled from the spec: `PX(level, va)`, the 9-bit index of `va` at `level`. -/
def PX (level va : Nat) : Nat := (va >>> (12 + 9 * level)) &&& 0x1FF

/-- Modelled from the spec: `PA2PTE(pa)`, `(pa >> 12) << 10`. -/
def PA2PTE (pa : Nat) : Nat := u64 ((pa >>> 12) <<< 10)

/-- Modelled from the spec: `PTE2PA(pte)`, `(pte >> 10) << 12`. -/
def PTE2PA (pte : Nat) : Nat := u64 ((pte >>> 10) <<< 12)

/-- Modelled from the spec: `PTE_FLAGS(pte)`, the low ten bits. -/
def PTE_FLAGS (pte : Nat) : Nat := pte &&& 0x3FF

/-- Constants of `memlayout.h`, `param.h` and `fcntl.h`, which are not part of
`src/`: they are parameters of the embedding. -/
structure Layout where
  /-- Bottom of the mappable window. -/
  MMAP : Nat
  /-- Top of the mappable window. -/
  TRAPFRAME : Nat
  /-- One beyond the highest virtual address `walk` accepts. -/
  MAXVA : Nat
  /-- Number of slots of `vma_cache`. -/
  NVMAREA : Nat
  PROT_READ : Nat
  PROT_WRITE : Nat
  PROT_EXEC : Nat
  MAP_SHARED : Nat
deriving DecidableEq, Repr

/-! ## State -/

/-- The type `struct vmarea` (declared in the absent `proc.h`): the fields
`vm.c` uses. `file` is a `struct file *` (0 is null), `pgoff` holds a 64-bit
value, `next` is a pointer into `vma_cache`. -/
structure vmarea where
  start : Nat
  end_ : Nat
  page_prot : Nat
  flags : Nat
  pgoff : Nat
  file : Nat
  next : Option Nat
deriving DecidableEq, Repr

/-- The file position of the address `x` of a region, as `mtrap` computes it:
`a->pgoff + addr - a->start` in 64-bit arithmetic (vm.c 783). -/
def vmarea.filePos (v : vmarea) (x : Nat) : Nat := sub64 (u64 (v.pgoff + x)) v.start

/-- Calls into the file layer (`file.c`, external to `vm.c`), in program order. -/
inductive FileOp where
  | dup (f : Nat)
  | close (f : Nat)
  | lseek (f : Nat) (pos : Nat)
  | read (f : Nat) (addr : Nat) (n : Nat)
  | write (f : Nat) (addr : Nat) (n : Nat)
deriving DecidableEq, Repr

/-- The part of `struct proc` that `vm.c` uses. -/
structure proc where
  pagetable : Nat
  mmap : Option Nat
deriving DecidableEq, Repr

/-- Kernel state seen by `vm.c`. `p` is `myproc()`; `mem` is physical memory;
`kmem` is the free list of the frame allocator; `readable` and `writable` are
the flags of each `struct file`; `log` records the calls made into the file
layer. -/
structure State where
  vma_cache : Nat → vmarea
  vma_head : Option Nat
  p : proc
  mem : Nat → Nat
  kmem : List Nat
  readable : Nat → Bool
  writable : Nat → Bool
  log : List FileOp

/-- How a call ends: it returns a value, it reaches `panic`, or the loop
budget ran out before either. -/
inductive Outcome (α : Type) where
  | ret (v : α) (s : State)
  | panic (msg : String) (s : State)
  | timeout

/-- Store into one field-carrying slot of `vma_cache`. -/
def State.setVma (s : State) (i : Nat) (f : vmarea → vmarea) : State :=
  { s with vma_cache := Function.update s.vma_cache i (f (s.vma_cache i)) }

/-- Store of one 64-bit word. -/
def State.store (s : State) (a v : Nat) : State :=
  { s with mem := Function.update s.mem a v }

/-- The effect of `memset(p, 0, PGSIZE)`. -/
def State.zeroPage (s : State) (p : Nat) : State :=
  { s with mem := fun x => if p ≤ x ∧ x < p + PGSIZE then 0 else s.mem x }

/-- Append a file-layer call to the log. -/
def State.emit (s : State) (e : FileOp) : State :=
  { s with log := s.log ++ [e] }

/-! ## Frame allocator (external collaborator) -/

/-- Modelled from the spec: `kalloc()` of the absent `kalloc.c`,
"allocate() -> frame | none": pops the free list, 0 when it is empty. -/
def kalloc (s : State) : Nat × State :=
  match s.kmem with
  | [] => (0, s)
  | f :: r => (f, { s with kmem := r })

/-- Modelled from the spec: `kfree(pa)` of the absent `kalloc.c`,
"free(frame)": pushes the frame onto the free list. -/
def kfree (s : State) (pa : Nat) : State :=
  { s with kmem := pa :: s.kmem }

/-- Modelled from the spec: `filedup(f)` of the absent `file.c`,
"dup(file) -> file (increments reference)". -/
def filedup (s : State) (f : Nat) : Nat × State := (f, s.emit (FileOp.dup f))

/-! ## Page-table engine -/

/-- One iteration of the `for` loop of `walk` (vm.c 107-117) at `level`:
the next-level table, or `none` when `walk` executes `return 0`. -/
def walk_level (s : State) (pagetable va : Nat) (alloc : Bool) (level : Nat) :
    Option Nat × State :=
  let pte := pagetable + 8 * PX level va
  if s.mem pte &&& PTE_V ≠ 0 then
    (some (PTE2PA (s.mem pte)), s)
  else if alloc = false then
    (none, s)
  else
    let (pg, s1) := kalloc s
    if pg = 0 then (none, s1)
    else
      let s2 := s1.zeroPage pg
      (some pg, s2.store pte (PA2PTE pg ||| PTE_V))

/-- The function `walk` (vm.c 101-119): address of the leaf entry of `va`,
0 when an intermediate table is missing and cannot be made. -/
def walk (L : Layout) (s : State) (pagetable va : Nat) (alloc : Bool) : Outcome Nat :=
  if va ≥ L.MAXVA then Outcome.panic "walk" s
  else
    match walk_level s pagetable va alloc 2 with
    | (none, s1) => Outcome.ret 0 s1
    | (some t1, s1) =>
        match walk_level s1 t1 va alloc 1 with
        | (none, s2) => Outcome.ret 0 s2
        | (some t0, s2) => Outcome.ret (t0 + 8 * PX 0 va) s2

/-- The function `walkaddr` (vm.c 124-142). -/
def walkaddr (L : Layout) (s : State) (pagetable va : Nat) : Outcome Nat :=
  if va ≥ L.MAXVA then Outcome.ret 0 s
  else
    match walk L s pagetable va false with
    | Outcome.ret pte s1 =>
        if pte = 0 then Outcome.ret 0 s1
        else if s1.mem pte &&& PTE_V = 0 then Outcome.ret 0 s1
        else if s1.mem pte &&& PTE_U = 0 then Outcome.ret 0 s1
        else Outcome.ret (PTE2PA (s1.mem pte)) s1
    | o => o

/-- The loop of `mappages` (vm.c 166-176); returns the `int` result. -/
def mappages_loop (L : Layout) (pagetable last perm : Nat) :
    Nat → State → Nat → Nat → Outcome Int
  | 0, _, _, _ => Outcome.timeout
  | fuel + 1, s, a, pa =>
      match walk L s pagetable a true with
      | Outcome.ret pte s1 =>
          if pte = 0 then Outcome.ret (-1) s1
          else if s1.mem pte &&& PTE_V ≠ 0 then Outcome.panic "remap" s1
          else
            let s2 := s1.store pte (PA2PTE pa ||| perm ||| PTE_V)
            if a = last then Outcome.ret 0 s2
            else mappages_loop L pagetable last perm fuel s2 (u64 (a + PGSIZE)) (u64 (pa + PGSIZE))
      | Outcome.panic m s1 => Outcome.panic m s1
      | Outcome.timeout => Outcome.timeout

/-- The function `mappages` (vm.c 158-178). -/
def mappages (L : Layout) (fuel : Nat) (s : State) (pagetable va size pa perm : Nat) :
    Outcome Int :=
  mappages_loop L pagetable (PGROUNDDOWN (sub64 (u64 (va + size)) 1)) perm fuel s
    (PGROUNDDOWN va) pa

/-- The loop of `uvmunmap` (vm.c 192-204). -/
def uvmunmap_loop (L : Layout) (pagetable stop : Nat) (do_free : Bool) :
    Nat → State → Nat → Outcome Unit
  | 0, _, _ => Outcome.timeout
  | fuel + 1, s, a =>
      if a < stop then
        match walk L s pagetable a false with
        | Outcome.ret pte s1 =>
            if pte = 0 then Outcome.panic "uvmunmap: walk" s1
            else if s1.mem pte &&& PTE_V = 0 then Outcome.panic "uvmunmap: not mapped" s1
            else if PTE_FLAGS (s1.mem pte) = PTE_V then Outcome.panic "uvmunmap: not a leaf" s1
            else
              let s2 := if do_free then kfree s1 (PTE2PA (s1.mem pte)) else s1
              uvmunmap_loop L pagetable stop do_free fuel (s2.store pte 0) (u64 (a + PGSIZE))
        | Outcome.panic m s1 => Outcome.panic m s1
        | Outcome.timeout => Outcome.timeout
      else Outcome.ret () s

/-- The function `uvmunmap` (vm.c 183-205). -/
def uvmunmap (L : Layout) (fuel : Nat) (s : State) (pagetable va npages : Nat)
    (do_free : Bool) : Outcome Unit :=
  if va % PGSIZE ≠ 0 then Outcome.panic "uvmunmap: not aligned" s
  else uvmunmap_loop L pagetable (u64 (va + u64 (npages * PGSIZE))) do_free fuel s va

/-- The function `uvmdealloc` (vm.c 271-283); `npages` goes through an `int`. -/
def uvmdealloc (L : Layout) (fuel : Nat) (s : State) (pagetable oldsz newsz : Nat) :
    Outcome Nat :=
  if newsz ≥ oldsz then Outcome.ret oldsz s
  else if PGROUNDUP newsz < PGROUNDUP oldsz then
    let npages := sext32 (sub64 (PGROUNDUP oldsz) (PGROUNDUP newsz) / PGSIZE)
    match uvmunmap L fuel s pagetable (PGROUNDUP newsz) npages true with
    | Outcome.ret _ s1 => Outcome.ret newsz s1
    | Outcome.panic m s1 => Outcome.panic m s1
    | Outcome.timeout => Outcome.timeout
  else Outcome.ret newsz s

/-- The loop of `uvmalloc` (vm.c 251-263); `oldsz` is already rounded up. -/
def uvmalloc_loop (L : Layout) (pagetable oldsz newsz perm : Nat) :
    Nat → State → Nat → Outcome Nat
  | 0, _, _ => Outcome.timeout
  | fuel + 1, s, a =>
      if a < newsz then
        let (mem, s1) := kalloc s
        if mem = 0 then
          match uvmdealloc L fuel s1 pagetable a oldsz with
          | Outcome.ret _ s2 => Outcome.ret 0 s2
          | Outcome.panic m s2 => Outcome.panic m s2
          | Outcome.timeout => Outcome.timeout
        else
          let s2 := s1.zeroPage mem
          match mappages L fuel s2 pagetable a PGSIZE mem perm with
          | Outcome.ret r s3 =>
              if r ≠ 0 then
                match uvmdealloc L fuel (kfree s3 mem) pagetable a oldsz with
                | Outcome.ret _ s4 => Outcome.ret 0 s4
                | Outcome.panic m s4 => Outcome.panic m s4
                | Outcome.timeout => Outcome.timeout
              else uvmalloc_loop L pagetable oldsz newsz perm fuel s3 (u64 (a + PGSIZE))
          | Outcome.panic m s3 => Outcome.panic m s3
          | Outcome.timeout => Outcome.timeout
      else Outcome.ret newsz s

/-- The function `uvmalloc` (vm.c 238-265). -/
def uvmalloc (L : Layout) (fuel : Nat) (s : State) (pagetable oldsz newsz perm : Nat) :
    Outcome Nat :=
  if newsz < oldsz then Outcome.ret oldsz s
  else
    let perm := if perm = 0 then PTE_W ||| PTE_X ||| PTE_R ||| PTE_U else perm
    let oldsz := PGROUNDUP oldsz
    uvmalloc_loop L pagetable oldsz newsz perm fuel s oldsz

/-! ## VMA pool and VMA manager -/

/-- The pool loop of `kvminit` (vm.c 74-77): slot `i` is pushed onto the free
list for `i = 0 .. n-1`. The kernel page table built on line 72 is outside the
modelled state. -/
def kvminit_loop : Nat → State → State
  | 0, s => s
  | n + 1, s =>
      let s1 := kvminit_loop n s
      { (s1.setVma n (fun v => { v with next := s1.vma_head })) with vma_head := some n }

/-- The function `kvminit` (vm.c 69-78), pool part. -/
def kvminit (L : Layout) (s : State) : State := kvminit_loop L.NVMAREA s

/-- Where the search of `mmap` ends: at the allocation code with the
neighbours `a`, `b` and the address `addr`, at `return -1`, at `goto _again`,
or out of budget. -/
inductive Gap where
  | found (a b : Option Nat) (addr : Nat)
  | nospace
  | again
  | timeout
deriving DecidableEq, Repr

/-- The `for` loop of `mmap` (vm.c 519-546), entered with the current `a` and
the last value given to `b`. -/
def mmap_scan (L : Layout) (c : Nat → vmarea) (length : Nat) (first : Bool) (addr : Nat) :
    Nat → Option Nat → Option Nat → Gap
  | 0, _, _ => Gap.timeout
  | _ + 1, none, b => Gap.found none b addr
  | fuel + 1, some a, _ =>
      match (c a).next with
      | none =>
          if first = false then
            if (c a).end_ ≤ addr then Gap.found (some a) none addr
            else Gap.again
          else
            if u64 ((c a).end_ + length) ≤ L.TRAPFRAME then Gap.found (some a) none (c a).end_
            else Gap.nospace
      | some b =>
          if first = false then
            if (c a).end_ ≤ addr then
              if u64 (addr + length) ≤ (c b).start then Gap.found (some a) (some b) addr
              else mmap_scan L c length first addr fuel (some b) (some b)
            else Gap.again
          else
            if u64 ((c a).end_ + length) ≤ (c b).start then
              Gap.found (some a) (some b) (c a).end_
            else mmap_scan L c length first addr fuel (some b) (some b)

/-- The code of `mmap` from the label `_again` to the end of the search
(vm.c 512-547). -/
def mmap_again (L : Layout) (s : State) (fuel length : Nat) (first : Bool) (addr : Nat) : Gap :=
  match s.p.mmap with
  | none => Gap.found none none addr
  | some h =>
      if u64 (addr + length) ≤ (s.vma_cache h).start then Gap.found none (some h) addr
      else mmap_scan L s.vma_cache length first addr fuel (some h) none

/-- The search of `mmap` (vm.c 507-547): a `goto _again` restarts it once,
as a first-fit search from `MMAP`. -/
def mmap_find (L : Layout) (s : State) (fuel length addr : Nat) : Gap :=
  let first : Bool := decide (addr < L.MMAP ∨ u64 (addr + length) > L.TRAPFRAME)
  let addr := if first then L.MMAP else addr
  match mmap_again L s fuel length first addr with
  | Gap.again => mmap_again L s fuel length true L.MMAP
  | g => g

/-- The permission bits `mmap` derives from `prot` (vm.c 566-572). -/
def mmap_prot (L : Layout) (prot : Nat) : Nat :=
  let p0 := PTE_U
  let p1 := if prot &&& L.PROT_READ ≠ 0 then p0 ||| PTE_R else p0
  let p2 := if prot &&& L.PROT_WRITE ≠ 0 then p1 ||| PTE_W else p1
  if prot &&& L.PROT_EXEC ≠ 0 then p2 ||| PTE_X else p2

/-- The function `mmap` (vm.c 493-582). `prot` and `flags` are the bit patterns
of the `int` arguments, `f` is the `struct file *` (0 is null), `offset` the
`int` offset. -/
def mmap (L : Layout) (fuel : Nat) (s : State) (addr length prot flags f : Nat)
    (offset : Int) : Outcome Nat :=
  if offset % (PGSIZE : Int) ≠ 0 then Outcome.panic "mmap: not aligned" s
  else
    let addr := PGROUNDUP addr
    let length := PGROUNDUP32 length
    match mmap_find L s fuel length addr with
    | Gap.timeout => Outcome.timeout
    | Gap.again => Outcome.timeout
    | Gap.nospace => Outcome.ret neg1 s
    | Gap.found a b addr =>
        match s.vma_head with
        | none => Outcome.ret neg1 s
        | some c =>
            let s1 := { s with vma_head := (s.vma_cache c).next }
            let s2 := match a with
              | some a => s1.setVma a (fun v => { v with next := some c })
              | none => { s1 with p := { s1.p with mmap := some c } }
            let s3 := s2.setVma c (fun v =>
              { v with start := addr, end_ := u64 (addr + length), next := b,
                       page_prot := mmap_prot L prot, flags := flags,
                       pgoff := ofInt64 offset })
            let s4 := if f ≠ 0 then
                let (g, s') := filedup s3 f
                s'.setVma c (fun v => { v with file := g })
              else s3.setVma c (fun v => { v with file := 0 })
            Outcome.ret (s4.vma_cache c).start s4

/-- The body of the loop of `_mfree` for one page (vm.c 808-827): `offset` is
the local `int offset` in its 64-bit form. -/
def _mfree_page (L : Layout) (s : State) (a : Nat) (start offset : Nat) (do_free : Bool)
    (addr : Nat) : Outcome Unit :=
  match walk L s s.p.pagetable addr false with
  | Outcome.ret pte s1 =>
      if pte = 0 then Outcome.panic "_mfree: walk" s1
      else if s1.mem pte &&& PTE_V = 0 then Outcome.ret () s1
      else if PTE_FLAGS (s1.mem pte) = PTE_V then Outcome.panic "_mfree: not a leaf" s1
      else
        let v := s1.vma_cache a
        let s2 :=
          if v.flags &&& L.MAP_SHARED ≠ 0 ∧ v.file ≠ 0 ∧ s1.writable v.file = true
              ∧ s1.mem pte &&& PTE_D ≠ 0 then
            let s' := s1.emit (FileOp.lseek v.file (sub64 (u64 (offset + addr)) start))
            let s'' := s'.emit (FileOp.write v.file addr PGSIZE)
            s''.store pte (s''.mem pte &&& (2 ^ 64 - 1 - PTE_D))
          else s1
        let s3 := if do_free then (kfree s2 (PTE2PA (s2.mem pte))).store pte 0 else s2
        Outcome.ret () s3
  | Outcome.panic m s1 => Outcome.panic m s1
  | Outcome.timeout => Outcome.timeout

/-- The loop of `_mfree` (vm.c 807-828). -/
def _mfree_loop (L : Layout) (a : Nat) (start offset : Nat) (do_free : Bool) (stop : Nat) :
    Nat → State → Nat → Outcome Unit
  | 0, _, _ => Outcome.timeout
  | fuel + 1, s, addr =>
      if addr < stop then
        match _mfree_page L s a start offset do_free addr with
        | Outcome.ret _ s1 =>
            _mfree_loop L a start offset do_free stop fuel s1 (u64 (addr + PGSIZE))
        | Outcome.panic m s1 => Outcome.panic m s1
        | Outcome.timeout => Outcome.timeout
      else Outcome.ret () s

/-- The function `_mfree` (vm.c 795-829) applied to the slot `a` of the current
process. -/
def _mfree (L : Layout) (fuel : Nat) (s : State) (a : Nat) (start stop : Nat)
    (do_free : Bool) : Outcome Unit :=
  if start % PGSIZE ≠ 0 ∨ stop % PGSIZE ≠ 0 then Outcome.panic "_mfree: not aligned" s
  else
    let v := s.vma_cache a
    let offset := sext32 (sub64 (u64 (v.pgoff + start)) v.start)
    _mfree_loop L a start offset do_free stop fuel s start

/-- The case "entire area" of `munmap` after `_mfree` (vm.c 603-617): close
the file, unlink `a` (through `b`, or through `p->mmap` when `b` is null) and
push it onto the pool. -/
def munmap_unlink (s1 : State) (a : Nat) (b : Option Nat) : State :=
  let s2 := if (s1.vma_cache a).file ≠ 0 then
      (s1.emit (FileOp.close (s1.vma_cache a).file)).setVma a (fun w => { w with file := 0 })
    else s1
  let s3 := match b with
    | none => { s2 with p := { s2.p with mmap := (s2.vma_cache a).next } }
    | some b => s2.setVma b (fun w => { w with next := (s2.vma_cache a).next })
  let s4 := s3.setVma a (fun w => { w with next := s3.vma_head })
  { s4 with vma_head := some a }

/-- The case "middle area" of `munmap` after `_mfree`, with the pool head `c`
(vm.c 627-645): pop `c`, make it the right remainder, shrink `a`, link `c`
behind `a`. The stores are made one at a time, in program order. -/
def munmap_split (s1 : State) (a c addr eddr : Nat) : State :=
  let s2 := { s1 with vma_head := (s1.vma_cache c).next }
  let t1 := s2.setVma c (fun w => { w with start := eddr })
  let t2 := t1.setVma c (fun w => { w with end_ := (t1.vma_cache a).end_ })
  let t3 := t2.setVma c (fun w => { w with page_prot := (t2.vma_cache a).page_prot })
  let t4 := t3.setVma c (fun w => { w with flags := (t3.vma_cache a).flags })
  let s3 := t4.setVma c (fun w =>
    { w with pgoff := sub64 (u64 ((t4.vma_cache a).pgoff + eddr)) (t4.vma_cache a).start })
  let s4 := if (s3.vma_cache a).file ≠ 0 then
      let (g, s') := filedup s3 (s3.vma_cache a).file
      s'.setVma c (fun w => { w with file := g })
    else s3.setVma c (fun w => { w with file := 0 })
  let s5 := s4.setVma a (fun w => { w with end_ := addr })
  let s6 := s5.setVma c (fun w => { w with next := (s5.vma_cache a).next })
  s6.setVma a (fun w => { w with next := some c })

/-- The case "front area" of `munmap` after `_mfree` (vm.c 650-652). -/
def munmap_front (s1 : State) (a eddr : Nat) : State :=
  let s2 := s1.setVma a (fun w => { w with pgoff := u64 (w.pgoff + sub64 eddr w.start) })
  s2.setVma a (fun w => { w with start := eddr })

/-- The case "tail area" of `munmap` after `_mfree` (vm.c 657-658). -/
def munmap_tail (s1 : State) (a addr : Nat) : State :=
  s1.setVma a (fun w => { w with end_ := addr })

/-- The loop of `munmap` (vm.c 596-662), entered with the current `a` and `b`. -/
def munmap_loop (L : Layout) (addr eddr : Nat) :
    Nat → State → Option Nat → Option Nat → Outcome Nat
  | 0, _, _, _ => Outcome.timeout
  | _ + 1, s, none, _ => Outcome.ret 0 s
  | fuel + 1, s, some a, b =>
      let v := s.vma_cache a
      if eddr ≤ v.start ∨ addr ≥ v.end_ then
        munmap_loop L addr eddr fuel s v.next b
      else if addr ≤ v.start ∧ eddr ≥ v.end_ then
        match _mfree L fuel s a v.start v.end_ true with
        | Outcome.ret _ s1 =>
            let s5 := munmap_unlink s1 a b
            munmap_loop L addr eddr fuel s5 (s5.vma_cache a).next (some a)
        | Outcome.panic m s1 => Outcome.panic m s1
        | Outcome.timeout => Outcome.timeout
      else if addr > v.start ∧ eddr < v.end_ then
        match _mfree L fuel s a addr eddr true with
        | Outcome.ret _ s1 =>
            match s1.vma_head with
            | none => Outcome.ret neg1 s1
            | some c =>
                let s7 := munmap_split s1 a c addr eddr
                munmap_loop L addr eddr fuel s7 (s7.vma_cache a).next (some a)
        | Outcome.panic m s1 => Outcome.panic m s1
        | Outcome.timeout => Outcome.timeout
      else if addr ≤ v.start ∧ eddr < v.end_ then
        match _mfree L fuel s a v.start eddr true with
        | Outcome.ret _ s1 =>
            let s3 := munmap_front s1 a eddr
            munmap_loop L addr eddr fuel s3 (s3.vma_cache a).next (some a)
        | Outcome.panic m s1 => Outcome.panic m s1
        | Outcome.timeout => Outcome.timeout
      else
        match _mfree L fuel s a addr v.end_ true with
        | Outcome.ret _ s1 =>
            let s2 := munmap_tail s1 a addr
            munmap_loop L addr eddr fuel s2 (s2.vma_cache a).next (some a)
        | Outcome.panic m s1 => Outcome.panic m s1
        | Outcome.timeout => Outcome.timeout

/-- The function `munmap` (vm.c 584-665). The assignment
`length = PGROUNDUP(length)` on line 594 is dead: `eddr` was computed on line
589 and `length` is not read again. -/
def munmap (L : Layout) (fuel : Nat) (s : State) (addr length : Nat) : Outcome Nat :=
  let eddr := u64 (addr + length)
  if addr % PGSIZE ≠ 0 then Outcome.panic "munmap: not aligned" s
  else munmap_loop L addr eddr fuel s s.p.mmap none

/-- The loop of `mtrap` (vm.c 773-790); `r` is the value `fileread` returns
when it is called. -/
def mtrap_loop (L : Layout) (r : Int) (addr : Nat) :
    Nat → State → Option Nat → Outcome Int
  | 0, _, _ => Outcome.timeout
  | _ + 1, s, none => Outcome.ret (-1) s
  | fuel + 1, s, some a =>
      let v := s.vma_cache a
      if addr < v.start ∨ addr ≥ v.end_ then mtrap_loop L r addr fuel s v.next
      else
        match uvmalloc L fuel s s.p.pagetable addr (u64 (addr + PGSIZE)) v.page_prot with
        | Outcome.ret sz s1 =>
            if sz = 0 then Outcome.ret (-1) s1
            else
              let w := s1.vma_cache a
              if w.file ≠ 0 ∧ s1.readable w.file = true then
                let s2 := s1.emit (FileOp.lseek w.file (w.filePos addr))
                let s3 := s2.emit (FileOp.read w.file addr PGSIZE)
                if r < 0 then Outcome.ret (-1) s3 else Outcome.ret 0 s3
              else Outcome.ret 0 s1
        | Outcome.panic m s1 => Outcome.panic m s1
        | Outcome.timeout => Outcome.timeout

/-- The function `mtrap` (vm.c 764-793). -/
def mtrap (L : Layout) (fuel : Nat) (s : State) (r : Int) (addr : Nat) : Outcome Int :=
  mtrap_loop L r (PGROUNDDOWN addr) fuel s s.p.mmap

/-! ## Duplication of an address space and the copy layer -/

/-- The effect of `memmove(dst, src, n)` on physical memory: the `n` cells
from `dst` on receive what the cells from `src` on held before the call. -/
def State.memmove (s : State) (dst src n : Nat) : State :=
  { s with mem := fun x => if dst ≤ x ∧ x < dst + n then s.mem (src + (x - dst)) else s.mem x }

/-- The code of `uvmcopy` after the label `err` (vm.c 357-359). -/
def uvmcopy_err (L : Layout) (fuel : Nat) (s : State) (new start i : Nat) : Outcome Int :=
  match uvmunmap L fuel s new start (i / PGSIZE) true with
  | Outcome.ret _ s1 => Outcome.ret (-1) s1
  | Outcome.panic m s1 => Outcome.panic m s1
  | Outcome.timeout => Outcome.timeout

/-- The loop of `uvmcopy` (vm.c 332-354), followed by `return 0`. -/
def uvmcopy_loop (L : Layout) (old new start stop : Nat) (sparse : Bool) :
    Nat → State → Nat → Outcome Int
  | 0, _, _ => Outcome.timeout
  | fuel + 1, s, i =>
      if i < stop then
        match walk L s old i false with
        | Outcome.ret pte s1 =>
            if pte = 0 then
              if sparse = false then Outcome.panic "uvmcopy: pte should exist" s1
              else uvmcopy_loop L old new start stop sparse fuel s1 (u64 (i + PGSIZE))
            else if s1.mem pte &&& PTE_V = 0 then
              if sparse = false then Outcome.panic "uvmcopy: page not present" s1
              else uvmcopy_loop L old new start stop sparse fuel s1 (u64 (i + PGSIZE))
            else
              let pa := PTE2PA (s1.mem pte)
              let flags := u32 (PTE_FLAGS (s1.mem pte))
              let (mem, s2) := kalloc s1
              if mem = 0 then uvmcopy_err L fuel s2 new start i
              else
                let s3 := s2.memmove mem pa PGSIZE
                match mappages L fuel s3 new i PGSIZE mem flags with
                | Outcome.ret r s4 =>
                    if r ≠ 0 then uvmcopy_err L fuel (kfree s4 mem) new start i
                    else uvmcopy_loop L old new start stop sparse fuel s4 (u64 (i + PGSIZE))
                | Outcome.panic m s4 => Outcome.panic m s4
                | Outcome.timeout => Outcome.timeout
        | Outcome.panic m s1 => Outcome.panic m s1
        | Outcome.timeout => Outcome.timeout
      else Outcome.ret 0 s

/-- The function `uvmcopy` (vm.c 321-360). -/
def uvmcopy (L : Layout) (fuel : Nat) (s : State) (old new start stop : Nat) (sparse : Bool) :
    Outcome Int :=
  if start % PGSIZE ≠ 0 then Outcome.panic "uvmcopy: not aligned" s
  else uvmcopy_loop L old new start stop sparse fuel s start

/-- The code of `mcopy` after the label `_fail` (vm.c 751-761): the slot `c`
(null when the pool was empty) is linked behind `b`, or made the head of the
list of `np`, and terminates the list. -/
def mcopy_fail (s : State) (np : proc) (b c : Option Nat) : Outcome (Int × proc) :=
  let np1 := match b with
    | none => { np with mmap := c }
    | some _ => np
  let s1 := match b with
    | none => s
    | some b => s.setVma b (fun w => { w with next := c })
  let s2 := match c with
    | none => s1
    | some c => s1.setVma c (fun w => { w with next := none })
  Outcome.ret (-1, np1) s2

/-- The slot `c` receives the fields of the slot `a` (vm.c 724-732), one store
at a time. -/
def mcopy_fields (s : State) (a c : Nat) : State :=
  let t1 := s.setVma c (fun w => { w with start := (s.vma_cache a).start })
  let t2 := t1.setVma c (fun w => { w with end_ := (t1.vma_cache a).end_ })
  let t3 := t2.setVma c (fun w => { w with page_prot := (t2.vma_cache a).page_prot })
  let t4 := t3.setVma c (fun w => { w with flags := (t3.vma_cache a).flags })
  let t5 := t4.setVma c (fun w => { w with pgoff := (t4.vma_cache a).pgoff })
  if (t5.vma_cache a).file ≠ 0 then
    let (g, s') := filedup t5 (t5.vma_cache a).file
    s'.setVma c (fun w => { w with file := g })
  else t5.setVma c (fun w => { w with file := 0 })

/-- The loop of `mcopy` (vm.c 715-749), entered with the current `a` and `b`;
`np` is the `struct proc` of the child, returned with the result. -/
def mcopy_loop (L : Layout) : Nat → State → proc → Option Nat → Option Nat →
    Outcome (Int × proc)
  | 0, _, _, _, _ => Outcome.timeout
  | _ + 1, s, np, none, b =>
      match b with
      | none => Outcome.ret (0, np) s
      | some b => Outcome.ret (0, np) (s.setVma b (fun w => { w with next := none }))
  | fuel + 1, s, np, some a, b =>
      match s.vma_head with
      | none => mcopy_fail s np b none
      | some c =>
          let s1 := { s with vma_head := (s.vma_cache c).next }
          let s2 := mcopy_fields s1 a c
          match uvmcopy L fuel s2 s2.p.pagetable np.pagetable (s2.vma_cache c).start
              (s2.vma_cache c).end_ true with
          | Outcome.ret r s3 =>
              if r ≠ 0 then mcopy_fail s3 np b (some c)
              else
                match b with
                | none =>
                    mcopy_loop L fuel s3 { np with mmap := some c } (s3.vma_cache a).next (some c)
                | some b =>
                    let s4 := s3.setVma b (fun w => { w with next := some c })
                    mcopy_loop L fuel s4 np (s4.vma_cache a).next (some c)
          | Outcome.panic m s3 => Outcome.panic m s3
          | Outcome.timeout => Outcome.timeout

/-- The function `mcopy` (vm.c 709-762): `myproc()` is the parent, `np` the
child. -/
def mcopy (L : Layout) (fuel : Nat) (s : State) (np : proc) : Outcome (Int × proc) :=
  mcopy_loop L fuel s np s.p.mmap none

/-- The loop of `copyout` (vm.c 383-396), followed by `return 0`. -/
def copyout_loop (L : Layout) (pagetable : Nat) : Nat → State → Nat → Nat → Nat → Outcome Int
  | 0, _, _, _, _ => Outcome.timeout
  | fuel + 1, s, dstva, src, len =>
      if len > 0 then
        let va0 := PGROUNDDOWN dstva
        match walkaddr L s pagetable va0 with
        | Outcome.ret pa0 s1 =>
            if pa0 = 0 then Outcome.ret (-1) s1
            else
              let n := sub64 PGSIZE (sub64 dstva va0)
              let n := if n > len then len else n
              let s2 := s1.memmove (u64 (pa0 + sub64 dstva va0)) src n
              copyout_loop L pagetable fuel s2 (u64 (va0 + PGSIZE)) (u64 (src + n)) (sub64 len n)
        | Outcome.panic m s1 => Outcome.panic m s1
        | Outcome.timeout => Outcome.timeout
      else Outcome.ret 0 s

/-- The function `copyout` (vm.c 378-398); `src` is the address of the kernel
buffer. -/
def copyout (L : Layout) (fuel : Nat) (s : State) (pagetable dstva src len : Nat) : Outcome Int :=
  copyout_loop L pagetable fuel s dstva src len

/-- The loop of `copyin` (vm.c 408-421), followed by `return 0`. -/
def copyin_loop (L : Layout) (pagetable : Nat) : Nat → State → Nat → Nat → Nat → Outcome Int
  | 0, _, _, _, _ => Outcome.timeout
  | fuel + 1, s, dst, srcva, len =>
      if len > 0 then
        let va0 := PGROUNDDOWN srcva
        match walkaddr L s pagetable va0 with
        | Outcome.ret pa0 s1 =>
            if pa0 = 0 then Outcome.ret (-1) s1
            else
              let n := sub64 PGSIZE (sub64 srcva va0)
              let n := if n > len then len else n
              let s2 := s1.memmove dst (u64 (pa0 + sub64 srcva va0)) n
              copyin_loop L pagetable fuel s2 (u64 (dst + n)) (u64 (va0 + PGSIZE)) (sub64 len n)
        | Outcome.panic m s1 => Outcome.panic m s1
        | Outcome.timeout => Outcome.timeout
      else Outcome.ret 0 s

/-- The function `copyin` (vm.c 403-423); `dst` is the address of the kernel
buffer. -/
def copyin (L : Layout) (fuel : Nat) (s : State) (pagetable dst srcva len : Nat) : Outcome Int :=
  copyin_loop L pagetable fuel s dst srcva len

/-- The `char` held at the address `x`: data is held cell by cell, and a
`char` is the low byte of its cell. -/
def byteAt (m : Nat → Nat) (x : Nat) : Nat := m x % 256

/-- Store of one `char`. -/
def State.storeByte (s : State) (a v : Nat) : State :=
  { s with mem := Function.update s.mem a v }

/-- The inner loop of `copyinstr` (vm.c 445-458), entered with `n`, the source
pointer `p`, `dst` and `max`: the state it leaves, `got_null`, and the values
of `max` and `dst` behind it. -/
def copyinstr_bytes : Nat → State → Nat → Nat → Nat → State × Bool × Nat × Nat
  | 0, s, _, dst, max => (s, false, max, dst)
  | n + 1, s, p, dst, max =>
      if byteAt s.mem p = 0 then (s.storeByte dst 0, true, max, dst)
      else
        copyinstr_bytes n (s.storeByte dst (byteAt s.mem p)) (u64 (p + 1)) (u64 (dst + 1))
          (sub64 max 1)

/-- The outer loop of `copyinstr` (vm.c 437-461), followed by the `return`
statements: the loop is left with `got_null` set (result 0), or with `max`
exhausted (result -1). -/
def copyinstr_loop (L : Layout) (pagetable : Nat) :
    Nat → State → Nat → Nat → Nat → Outcome Int
  | 0, _, _, _, _ => Outcome.timeout
  | fuel + 1, s, dst, srcva, max =>
      if max > 0 then
        let va0 := PGROUNDDOWN srcva
        match walkaddr L s pagetable va0 with
        | Outcome.ret pa0 s1 =>
            if pa0 = 0 then Outcome.ret (-1) s1
            else
              let n := sub64 PGSIZE (sub64 srcva va0)
              let n := if n > max then max else n
              match copyinstr_bytes n s1 (u64 (pa0 + sub64 srcva va0)) dst max with
              | (s2, true, _, _) => Outcome.ret 0 s2
              | (s2, false, max', dst') =>
                  copyinstr_loop L pagetable fuel s2 dst' (u64 (va0 + PGSIZE)) max'
        | Outcome.panic m s1 => Outcome.panic m s1
        | Outcome.timeout => Outcome.timeout
      else Outcome.ret (-1) s

/-- The function `copyinstr` (vm.c 429-466); `dst` is the address of the
kernel buffer. -/
def copyinstr (L : Layout) (fuel : Nat) (s : State) (pagetable dst srcva max : Nat) :
    Outcome Int :=
  copyinstr_loop L pagetable fuel s dst srcva max

/-! ## Observations on states -/

/-- The linked list that starts at `h` visits exactly the slots `l`, in order,
and ends with a null pointer. -/
def Chain (c : Nat → vmarea) : Option Nat → List Nat → Prop
  | h, [] => h = none
  | h, i :: l => h = some i ∧ Chain c (c i).next l

instance Chain.dec (c : Nat → vmarea) : ∀ h l, Decidable (Chain c h l)
  | h, [] => inferInstanceAs (Decidable (h = none))
  | _, i :: l => @instDecidableAnd _ _ _ (Chain.dec c (c i).next l)

/-- Following `next` from `h` visits exactly the slots `l`, in order, and
arrives at the pointer `t`. -/
def Seg (c : Nat → vmarea) : Option Nat → List Nat → Option Nat → Prop
  | h, [], t => h = t
  | h, i :: l, t => h = some i ∧ Seg c (c i).next l t

/-- The state `t` has the VMA pool, the VMA list and the file flags of `s`
(the page table, the frame allocator and the log may differ). -/
def SameVma (s t : State) : Prop :=
  t.vma_cache = s.vma_cache ∧ t.vma_head = s.vma_head ∧ t.p = s.p ∧
  t.readable = s.readable ∧ t.writable = s.writable

/-- The state `t` has the VMA pool, the VMA list, the file flags and the
file-layer log of `s`: only physical memory and the free list of frames may
differ. -/
def SameVmaLog (s t : State) : Prop := SameVma s t ∧ t.log = s.log

/-- The level-1 table that entry `i` of the root table points to, when that
entry is valid. -/
def tab1 (m : Nat → Nat) (root i : Nat) : Option Nat :=
  if m (root + 8 * i) &&& PTE_V ≠ 0 then some (PTE2PA (m (root + 8 * i))) else none

/-- The level-0 table reached through entry `i` of the root table and entry
`j` of the level-1 table, when both entries are valid. -/
def tab0 (m : Nat → Nat) (root i j : Nat) : Option Nat :=
  match tab1 m root i with
  | none => none
  | some t1 => if m (t1 + 8 * j) &&& PTE_V ≠ 0 then some (PTE2PA (m (t1 + 8 * j))) else none

/-- The valid leaf entry selected by the indices `i`, `j`, `k`, if the tables
on the way exist and the entry has `PTE_V`. -/
def entryIdx (m : Nat → Nat) (root i j k : Nat) : Option Nat :=
  match tab0 m root i j with
  | none => none
  | some t0 =>
      if t0 + 8 * k = 0 then none
      else if m (t0 + 8 * k) &&& PTE_V = 0 then none
      else some (m (t0 + 8 * k))

/-- The valid leaf entry that translates `va`, read through `walk` without
allocation: `none` when `walk` finds no entry or the entry lacks `PTE_V`. -/
def translation (L : Layout) (s : State) (va : Nat) : Option Nat :=
  match walk L s s.p.pagetable va false with
  | Outcome.ret pte s1 =>
      if pte = 0 then none
      else if s1.mem pte &&& PTE_V = 0 then none
      else some (s1.mem pte)
  | _ => none

/-- Two pages do not overlap. -/
def sepPage (p q : Nat) : Prop := p + PGSIZE ≤ q ∨ q + PGSIZE ≤ p

instance sepPage.dec (p q : Nat) : Decidable (sepPage p q) :=
  inferInstanceAs (Decidable (p + PGSIZE ≤ q ∨ q + PGSIZE ≤ p))

/-- The page table rooted at `root` is a tree: the root page, the level-1
tables and the level-0 tables it reaches are pairwise non-overlapping pages,
and no level-0 table sits at address 0. -/
structure PtTree (m : Nat → Nat) (root : Nat) : Prop where
  root_tab1 : ∀ i t, i < 512 → tab1 m root i = some t → sepPage root t
  root_tab0 : ∀ i j t, i < 512 → j < 512 → tab0 m root i j = some t → sepPage root t
  tab1_tab1 : ∀ i i' t t', i < 512 → i' < 512 → tab1 m root i = some t →
    tab1 m root i' = some t' → i ≠ i' → sepPage t t'
  tab1_tab0 : ∀ i i' j' t t', i < 512 → i' < 512 → j' < 512 → tab1 m root i = some t →
    tab0 m root i' j' = some t' → sepPage t t'
  tab0_tab0 : ∀ i j i' j' t t', i < 512 → j < 512 → i' < 512 → j' < 512 →
    tab0 m root i j = some t → tab0 m root i' j' = some t' → (i ≠ i' ∨ j ≠ j') → sepPage t t'
  tab0_ne : ∀ i j t, i < 512 → j < 512 → tab0 m root i j = some t → t ≠ 0

/-- The frames on the allocator's free list are distinct, non-null,
page-aligned physical pages below `2^56`, and none of them is a page of the
page table rooted at `root`. -/
structure FramesFree (m : Nat → Nat) (root : Nat) (free : List Nat) : Prop where
  free_root : ∀ f ∈ free, sepPage f root
  free_tab1 : ∀ f ∈ free, ∀ i t, i < 512 → tab1 m root i = some t → sepPage f t
  free_tab0 : ∀ f ∈ free, ∀ i j t, i < 512 → j < 512 → tab0 m root i j = some t → sepPage f t
  free_sep : free.Pairwise sepPage
  free_ok : ∀ f ∈ free, f ≠ 0 ∧ f % PGSIZE = 0 ∧ f < 2 ^ 56

/-- The addresses `start, start + PGSIZE, ...` below `stop` (both page-aligned):
the pages the loop of `_mfree` goes through. -/
def pagesOf (start stop : Nat) : List Nat :=
  (List.range ((stop - start) / PGSIZE)).map (fun k => start + k * PGSIZE)

/-- The condition of the claim for writing a page back: the page `x` is mapped
(has a valid leaf entry), the region of slot `a` is shared and has a backing
file that is writable, and the entry has the dirty bit. -/
def writesBack (L : Layout) (s : State) (a x : Nat) : Bool :=
  match translation L s x with
  | none => false
  | some e =>
      decide ((s.vma_cache a).flags &&& L.MAP_SHARED ≠ 0 ∧ (s.vma_cache a).file ≠ 0 ∧
        s.writable (s.vma_cache a).file = true ∧ e &&& PTE_D ≠ 0)

/-- The file-layer calls the claim expects for the page `x` of the region of
slot `a`: a seek to `pgoff + (x - start)` and a write of one page, when the
page is to be written back. -/
def writeOps (L : Layout) (s : State) (a x : Nat) : List FileOp :=
  if writesBack L s a x = true then
    [FileOp.lseek (s.vma_cache a).file ((s.vma_cache a).pgoff + (x - (s.vma_cache a).start)),
     FileOp.write (s.vma_cache a).file x PGSIZE]
  else []

/-- The valid leaf entry of the page `x` the claim expects after `_mfree`:
none when the frame is freed, else the old entry, with the dirty bit cleared
when the page was written back. -/
def entryAfter (L : Layout) (s : State) (a : Nat) (do_free : Bool) (x : Nat) : Option Nat :=
  match translation L s x with
  | none => none
  | some e =>
      if do_free = true then none
      else if writesBack L s a x = true then some (e &&& (2 ^ 64 - 1 - PTE_D))
      else some e

/-- The number of frames `mtrap` takes to map the page of `va`: one for the
page itself and one for each missing page-table page on the way. -/
def framesNeeded (m : Nat → Nat) (root va : Nat) : Nat :=
  match tab1 m root (PX 2 va) with
  | none => 3
  | some _ =>
      match tab0 m root (PX 2 va) (PX 1 va) with
      | none => 2
      | some _ => 1

/-- The slots reached from `h` by following `next`, at most `n` of them. -/
def chainOf (c : Nat → vmarea) : Nat → Option Nat → List Nat
  | 0, _ => []
  | _ + 1, none => []
  | n + 1, some i => i :: chainOf c n (c i).next

/-- The regions `(start, end)` of the VMA list of the current process, in list
order (at most `n` of them). -/
def State.regions (s : State) (n : Nat) : List (Nat × Nat) :=
  (chainOf s.vma_cache n s.p.mmap).map (fun i => ((s.vma_cache i).start, (s.vma_cache i).end_))

/-- Run `f` on the state a call returned. -/
def Outcome.andThen {α β : Type} (o : Outcome α) (f : α → State → Outcome β) : Outcome β :=
  match o with
  | Outcome.ret v s => f v s
  | Outcome.panic m s => Outcome.panic m s
  | Outcome.timeout => Outcome.timeout

/-- The state a call returned in, if it returned. -/
def Outcome.state? {α : Type} : Outcome α → Option State
  | Outcome.ret _ s => some s
  | _ => none

/-- The value a call returned, if it returned. -/
def Outcome.value? {α : Type} : Outcome α → Option α
  | Outcome.ret v _ => some v
  | _ => none

/-- The message of the `panic` a call ended in, if it did. -/
def Outcome.panic? {α : Type} : Outcome α → Option String
  | Outcome.panic m _ => some m
  | _ => none

/-- The state a call returned in; the argument `d` when it did not return. -/
def Outcome.stateD {α : Type} (o : Outcome α) (d : State) : State :=
  (o.state?).getD d

/-- Two half-open ranges `[s1, e1)` and `[s2, e2)` have an address in common:
both are non-empty and each starts below the end of the other (see
`meets_iff_common_address`). -/
def Meets (s1 e1 s2 e2 : Nat) : Prop := s1 < e1 ∧ s2 < e2 ∧ s1 < e2 ∧ s2 < e1

instance Meets.dec (s1 e1 s2 e2 : Nat) : Decidable (Meets s1 e1 s2 e2) :=
  inferInstanceAs (Decidable (s1 < e1 ∧ s2 < e2 ∧ s1 < e2 ∧ s2 < e1))

/-- The valid leaf entry of the page of `va` in the page table rooted at
`root`, read from the memory `m`: what `walk` without allocation finds for an
address below `MAXVA` (see `leafAt_walk`), `none` when a table on the way is
missing or the entry lacks `PTE_V`. -/
def leafAt (L : Layout) (m : Nat → Nat) (root va : Nat) : Option Nat :=
  if va ≥ L.MAXVA then none else entryIdx m root (PX 2 va) (PX 1 va) (PX 0 va)

/-- The frames the valid leaf entries of the pages `pages` point to. -/
def framesOf (L : Layout) (m : Nat → Nat) (root : Nat) (pages : List Nat) : List Nat :=
  pages.filterMap (fun x => (leafAt L m root x).map PTE2PA)

/-- The physical address `walkaddr` returns for `va` in the page table rooted
at `root`, read from the memory `m` (see `walkaddr_userPa`): 0 when the page
has no valid leaf entry or the entry lacks `PTE_U`. -/
def userPa (L : Layout) (m : Nat → Nat) (root va : Nat) : Nat :=
  match leafAt L m root va with
  | none => 0
  | some e => if e &&& PTE_U = 0 then 0 else PTE2PA e

/-- The physical address of the byte at the user address `va`:
`walkaddr(page of va) + offset of va`. -/
def userCell (L : Layout) (m : Nat → Nat) (root va : Nat) : Nat :=
  userPa L m root (PGROUNDDOWN va) + va % PGSIZE

/-- The address `x` lies in a page of the page table rooted at `root`: the
root page, a level-1 table or a level-0 table. -/
def InPt (m : Nat → Nat) (root x : Nat) : Prop :=
  (root ≤ x ∧ x < root + PGSIZE) ∨
  (∃ i t, i < 512 ∧ tab1 m root i = some t ∧ t ≤ x ∧ x < t + PGSIZE) ∨
  (∃ i j t, i < 512 ∧ j < 512 ∧ tab0 m root i j = some t ∧ t ≤ x ∧ x < t + PGSIZE)

/-- The byte at the user address `va` lies on a page for which `walkaddr`
returns an address other than 0. -/
def Translated (L : Layout) (m : Nat → Nat) (root va : Nat) : Prop :=
  userPa L m root (PGROUNDDOWN va) ≠ 0

/-- The slot `v` carries the region of `w`: the fields `mcopy` copies agree
(`next` is the link of the list and is not compared). -/
def Copies (v w : vmarea) : Prop :=
  v.start = w.start ∧ v.end_ = w.end_ ∧ v.page_prot = w.page_prot ∧ v.flags = w.flags ∧
  v.pgoff = w.pgoff ∧ v.file = w.file

/-- The calls `filedup(a->file)` that `mcopy` makes for the slots `l`, in
order: one for each slot whose `file` is not null. -/
def dupsOf (c : Nat → vmarea) : List Nat → List FileOp
  | [] => []
  | a :: l => (if (c a).file ≠ 0 then [FileOp.dup (c a).file] else []) ++ dupsOf c l

/-- The pool after the store `b->next = t` that `mcopy` guards with `if(b)`:
nothing is stored when `b` is null. -/
def linkNext (c : Nat → vmarea) (b t : Option Nat) : Nat → vmarea :=
  match b with
  | none => c
  | some b => Function.update c b { c b with next := t }

/-- The head of the list of the child once `t` is linked behind `b`:
`np->mmap = t` when `b` is null. -/
def linkHead (h b t : Option Nat) : Option Nat :=
  match b with
  | none => t
  | some _ => h

/-- The string at the user address `srcva` ends at index `k`, within `max`
bytes: the byte at `srcva + k` is 0, the bytes before it are not, and the
pages of `srcva .. srcva + k` all have a user translation. -/
def TerminatorAt (L : Layout) (m : Nat → Nat) (root srcva max k : Nat) : Prop :=
  k < max ∧ byteAt m (userCell L m root (srcva + k)) = 0 ∧
  (∀ j, j < k → byteAt m (userCell L m root (srcva + j)) ≠ 0) ∧
  (∀ j, j ≤ k → Translated L m root (srcva + j))

/-! ## A concrete machine

The headers that fix the layout are not in `src/`; the concrete runs below use
the Sv39 values of xv6 (`MAXVA = 2^38`, `TRAPFRAME = MAXVA - 2*PGSIZE`), a
mappable window that starts at `2^36`, a pool of four slots and the POSIX
values of the `PROT_*` and `MAP_SHARED` bits. -/

/-- A concrete layout. -/
def demo : Layout := ⟨2 ^ 36, 2 ^ 38 - 2 * 4096, 2 ^ 38, 4, 1, 2, 4, 1⟩

/-- A layout whose mappable window is two pages wide. -/
def narrow : Layout := ⟨2 ^ 36, 2 ^ 36 + 8192, 2 ^ 38, 4, 1, 2, 4, 1⟩

/-- A zero-filled `struct vmarea` (the pool is a global array). -/
def zeroVma : vmarea := ⟨0, 0, 0, 0, 0, 0, none⟩

/-- The state after `kvminit`, with an empty process whose root page table
(at `0x80000000`) has no valid entry, and four free frames. -/
def boot : State :=
  kvminit demo ⟨fun _ => zeroVma, none, ⟨0x80000000, none⟩, fun _ => 0,
    [0x80001000, 0x80002000, 0x80003000, 0x80004000], fun _ => true, fun _ => true, []⟩

/-- The state `boot` after two one-page anonymous mappings, `A` at `MMAP` and
`B` at `MMAP + 4096`, both touched once (so both have a frame and the
intermediate page-table pages exist). -/
def twoMapped : Outcome Int :=
  (mmap demo 8 boot 0 4096 3 0 0 0).andThen fun _ s1 =>
  (mmap demo 8 s1 0 4096 3 0 0 0).andThen fun _ s2 =>
  (mtrap demo 8 s2 0 (2 ^ 36)).andThen fun _ s3 =>
  mtrap demo 8 s3 0 (2 ^ 36 + 4096)

/-- The state `twoMapped` returns in. -/
def twoMappedState : State := twoMapped.stateD boot

/-- The state `boot` after a one-page mapping at `MMAP` and a one-page mapping
placed by hint at `MMAP + 8192`: a one-page gap lies between them. -/
def gappedState : State :=
  ((mmap demo 8 boot 0 4096 3 0 0 0).andThen fun _ s1 =>
    mmap demo 8 s1 (2 ^ 36 + 8192) 4096 3 0 0 0).stateD boot

/-- The state `boot` after four one-page mappings: the pool of four slots is
exhausted. -/
def fullPoolState : State :=
  ((mmap demo 8 boot 0 4096 3 0 0 0).andThen fun _ s1 =>
   (mmap demo 8 s1 0 4096 3 0 0 0).andThen fun _ s2 =>
   (mmap demo 8 s2 0 4096 3 0 0 0).andThen fun _ s3 =>
    mmap demo 8 s3 0 4096 3 0 0 0).stateD boot

/-- The state `boot` after one anonymous one-page mapping at `MMAP`. -/
def oneMappedState : State := (mmap demo 8 boot 0 4096 3 0 0 0).stateD boot

/-- The state `boot` with every file unreadable, after a one-page mapping at
`MMAP` backed by the file 7. -/
def unreadableMappedState : State :=
  (mmap demo 8 { boot with readable := fun _ => false } 0 4096 3 0 7 0).stateD boot

/-- The state `boot` after one anonymous three-page mapping at `MMAP` whose
middle page has been touched. -/
def threePageState : State :=
  ((mmap demo 8 boot 0 12288 3 0 0 0).andThen fun _ s1 =>
    mtrap demo 8 s1 0 (2 ^ 36 + 4096)).stateD boot

/-- A page table for `dirtyState`: the root at `0x80000000` leads through the
tables at `0x80002000` and `0x80003000` to one leaf entry, for the page at
`MMAP = 2^36`, which maps the frame `0x80001000` readable, writable and dirty. -/
def dirtyMem : Nat → Nat := fun x =>
  if x = 0x80000000 + 8 * 64 then PA2PTE 0x80002000 ||| PTE_V
  else if x = 0x80002000 then PA2PTE 0x80003000 ||| PTE_V
  else if x = 0x80003000 then
    PA2PTE 0x80001000 ||| (PTE_U ||| PTE_R ||| PTE_W ||| PTE_D) ||| PTE_V
  else 0

/-- A state with one shared two-page region at `MMAP`, backed by the writable
file 7, whose first page is mapped and dirty and whose second page is not
mapped. -/
def dirtyState : State :=
  ⟨fun i => if i = 3 then ⟨2 ^ 36, 2 ^ 36 + 8192, PTE_U ||| PTE_R ||| PTE_W, 1, 0, 7, none⟩
            else zeroVma,
   some 2, ⟨0x80000000, some 3⟩, dirtyMem, [0x80004000], fun _ => true, fun _ => true, []⟩

/-- The `struct proc` of a child in `fork`: an empty VMA list and a root page
table at `0x90000000` that has no valid entry. -/
def childProc : proc := ⟨0x90000000, none⟩

/-- The state `twoMappedState` with three frames on the free list of the
frame allocator. -/
def threeFramesState : State :=
  { twoMappedState with kmem := [0x80005000, 0x80006000, 0x80007000] }

/-- The state `twoMappedState` with four frames on the free list of the
frame allocator. -/
def fourFramesState : State :=
  { twoMappedState with kmem := [0x80005000, 0x80006000, 0x80007000, 0x80008000] }

/-- The state `boot` after three one-page anonymous mappings, none of them
touched: three slots are on the list of the process, one slot is free, and the
page table is empty. -/
def threeRegionsState : State :=
  ((mmap demo 8 boot 0 4096 3 0 0 0).andThen fun _ s1 =>
    (mmap demo 8 s1 0 4096 3 0 0 0).andThen fun _ s2 =>
    mmap demo 8 s2 0 4096 3 0 0 0).stateD boot

/-- The state `boot` after a one-page mapping `A` at `MMAP` and a two-page
mapping `B` at `MMAP + 4096`; only the page of `A` has been touched. -/
def oneThenTwoState : State :=
  ((mmap demo 8 boot 0 4096 3 0 0 0).andThen fun _ s1 =>
    (mmap demo 8 s1 0 8192 3 0 0 0).andThen fun _ s2 =>
    mtrap demo 8 s2 0 (2 ^ 36)).stateD boot

/-- The state `boot` after one two-page mapping at `MMAP`, no page touched:
the page table is empty. -/
def twoPagesUntouchedState : State := (mmap demo 8 boot 0 8192 3 0 0 0).stateD boot

/-- The memory `dirtyMem` with the string "hi" at offset 5 of the frame
`0x80001000`: the bytes 104, 105 and, as everywhere else in the frame, 0. -/
def stringMem : Nat → Nat := fun x =>
  if x = 0x80001005 then 104 else if x = 0x80001006 then 105 else dirtyMem x

/-- The state `dirtyState` with the memory `stringMem`: the string "hi" is at
the user address `MMAP + 5`. -/
def stringState : State := { dirtyState with mem := stringMem }

/-- The state `boot` after `mmap(0, 8192, PROT_READ | PROT_WRITE, MAP_SHARED,
f, 0x7ffff000)` of the file 7, which returns `MMAP`, and a fault on the second
page: the fault reads the page from the file position `2^31`. -/
def highOffsetFaulted : State :=
  ((mmap demo 8 boot 0 8192 3 1 7 0x7ffff000).andThen fun _ s1 =>
    mtrap demo 8 s1 0 (2 ^ 36 + 4096)).stateD boot

/-- The state `highOffsetFaulted` after the process has written to the second
page: the leaf entry of `MMAP + 4096`, at `0x80003008`, has its dirty bit
set. -/
def highOffsetState : State :=
  highOffsetFaulted.store 0x80003008 (highOffsetFaulted.mem 0x80003008 ||| PTE_D)

/-! ## Theorems -/

/-! ### Fault outside every region -/

theorem mtrap_loop_skips (L : Layout) (r : Int) (addr : Nat) (s : State) :
    ∀ (l : List Nat) (fuel : Nat) (h : Option Nat),
      Chain s.vma_cache h l → l.length < fuel →
      (∀ i ∈ l, ¬ ((s.vma_cache i).start ≤ addr ∧ addr < (s.vma_cache i).end_)) →
      mtrap_loop L r addr fuel s h = Outcome.ret (-1) s := by
  intro l
  induction l with
  | nil =>
      intro fuel h hc hf _
      cases fuel with
      | zero => simp at hf
      | succ n =>
          simp only [Chain] at hc
          subst hc
          simp [mtrap_loop]
  | cons i l ih =>
      intro fuel h hc hf hout
      cases fuel with
      | zero => simp at hf
      | succ n =>
          obtain ⟨rfl, hc'⟩ := hc
          have hi := hout i (List.mem_cons_self _ _)
          have hskip : addr < (s.vma_cache i).start ∨ addr ≥ (s.vma_cache i).end_ := by omega
          simp only [mtrap_loop, hskip, if_true]
          exact ih n _ hc' (by simp at hf; omega) (fun j hj => hout j (List.mem_cons_of_mem _ hj))

/-- C9: if the page of the fault address lies in no region of the VMA list of
the current process, `mtrap` returns -1 in the state it was called in: no
frame is taken, no page-table word is written, and the VMA list and the pool
are as before. The list is a null-terminated list `l` and the loop budget
covers it. -/
theorem mtrap_outside_every_region (L : Layout) (s : State) (r : Int) (addr fuel : Nat)
    (l : List Nat) (hl : Chain s.vma_cache s.p.mmap l) (hfuel : l.length < fuel)
    (hout : ∀ i ∈ l, ¬ ((s.vma_cache i).start ≤ PGROUNDDOWN addr
                        ∧ PGROUNDDOWN addr < (s.vma_cache i).end_)) :
    mtrap L fuel s r addr = Outcome.ret (-1) s :=
  mtrap_loop_skips L r (PGROUNDDOWN addr) s l fuel s.p.mmap hl hfuel hout

/-- C9 at a concrete input: a fault at address 5 with `A` and `B` mapped at
`MMAP` and `MMAP + 4096`. -/
theorem mtrap_outside_every_region_witness :
    mtrap demo 8 twoMappedState 0 5 = Outcome.ret (-1) twoMappedState :=
  mtrap_outside_every_region demo twoMappedState 0 5 8 [3, 2] (by decide) (by decide)
    (by decide)

/-! ### The search of `mmap` -/

theorem mmap_scan_terminates (L : Layout) (c : Nat → vmarea) (len : Nat) (first : Bool)
    (addr : Nat) :
    ∀ (l : List Nat) (fuel : Nat) (h b : Option Nat),
      Chain c h l → l.length < fuel → mmap_scan L c len first addr fuel h b ≠ Gap.timeout := by
  intro l
  induction l with
  | nil =>
      intro fuel h b hc hf
      cases fuel with
      | zero => simp at hf
      | succ n =>
          simp only [Chain] at hc
          subst hc
          simp [mmap_scan]
  | cons i l ih =>
      intro fuel h b hc hf
      cases fuel with
      | zero => simp at hf
      | succ n =>
          obtain ⟨rfl, hc'⟩ := hc
          have hn : l.length < n := by simp at hf; omega
          have ih' := ih n (c i).next
          unfold mmap_scan
          cases hnx : (c i).next with
          | none => simp only []; split_ifs <;> simp
          | some j =>
              rw [hnx] at ih' hc'
              simp only []
              split_ifs <;> first | exact ih' _ hc' hn | simp

theorem mmap_scan_first_not_again (L : Layout) (c : Nat → vmarea) (len addr : Nat) :
    ∀ (fuel : Nat) (h b : Option Nat), mmap_scan L c len true addr fuel h b ≠ Gap.again := by
  intro fuel
  induction fuel with
  | zero => intro h b; simp [mmap_scan]
  | succ n ih =>
      intro h b
      cases h with
      | none => simp [mmap_scan]
      | some a =>
          unfold mmap_scan
          cases hnx : (c a).next with
          | none => simp only []; split_ifs <;> first | contradiction | simp
          | some j => simp only []; split_ifs <;> first | exact ih _ _ | contradiction | simp

/-- Every address the scan can choose is the address it was given or the end
of a region of the list. -/
theorem mmap_scan_found_addr (L : Layout) (c : Nat → vmarea) (len : Nat) (first : Bool)
    (addr : Nat) :
    ∀ (l : List Nat) (fuel : Nat) (h b : Option Nat) (x y : Option Nat) (r : Nat),
      Chain c h l → mmap_scan L c len first addr fuel h b = Gap.found x y r →
      r = addr ∨ ∃ i ∈ l, r = (c i).end_ := by
  intro l
  induction l with
  | nil =>
      intro fuel h b x y r hc hs
      simp only [Chain] at hc
      subst hc
      cases fuel with
      | zero => simp [mmap_scan] at hs
      | succ n => simp [mmap_scan] at hs; exact Or.inl hs.2.2.symm
  | cons i l ih =>
      intro fuel h b x y r hc hs
      obtain ⟨rfl, hc'⟩ := hc
      cases fuel with
      | zero => simp [mmap_scan] at hs
      | succ n =>
          have ih' := ih n (c i).next
          unfold mmap_scan at hs
          cases hnx : (c i).next with
          | none =>
              rw [hnx] at hs
              simp only [] at hs
              split_ifs at hs <;> simp at hs
              · exact Or.inl hs.2.2.symm
              · exact Or.inr ⟨i, List.mem_cons_self _ _, hs.2.2.symm⟩
          | some j =>
              rw [hnx] at hs ih' hc'
              simp only [] at hs
              have hrec : ∀ b', mmap_scan L c len first addr n (some j) b' = Gap.found x y r →
                  r = addr ∨ ∃ k ∈ i :: l, r = (c k).end_ := by
                intro b' hb'
                rcases ih' _ _ _ _ hc' hb' with h1 | ⟨k, hk, h1⟩
                · exact Or.inl h1
                · exact Or.inr ⟨k, List.mem_cons_of_mem _ hk, h1⟩
              split_ifs at hs <;> first
                | exact hrec _ hs
                | (simp at hs; first | exact Or.inl hs.2.2.symm
                                     | exact Or.inr ⟨i, List.mem_cons_self _ _, hs.2.2.symm⟩)

theorem mmap_again_found_addr (L : Layout) (s : State) (fuel len : Nat) (first : Bool)
    (addr : Nat) (l : List Nat) (x y : Option Nat) (r : Nat)
    (hl : Chain s.vma_cache s.p.mmap l)
    (hs : mmap_again L s fuel len first addr = Gap.found x y r) :
    r = addr ∨ ∃ i ∈ l, r = (s.vma_cache i).end_ := by
  unfold mmap_again at hs
  cases hm : s.p.mmap with
  | none => rw [hm] at hs; simp at hs; exact Or.inl hs.2.2.symm
  | some h =>
      rw [hm] at hs hl
      simp only [] at hs
      split_ifs at hs
      · simp at hs; exact Or.inl hs.2.2.symm
      · exact mmap_scan_found_addr L s.vma_cache len first addr l fuel _ _ x y r hl hs

theorem mmap_again_terminates (L : Layout) (s : State) (fuel len : Nat) (first : Bool)
    (addr : Nat) (l : List Nat) (hl : Chain s.vma_cache s.p.mmap l) (hf : l.length < fuel) :
    mmap_again L s fuel len first addr ≠ Gap.timeout := by
  unfold mmap_again
  cases hm : s.p.mmap with
  | none => simp
  | some h =>
      rw [hm] at hl
      simp only []
      split_ifs
      · simp
      · exact mmap_scan_terminates L s.vma_cache len first addr l fuel _ _ hl hf

theorem mmap_again_first_not_again (L : Layout) (s : State) (fuel len addr : Nat) :
    mmap_again L s fuel len true addr ≠ Gap.again := by
  unfold mmap_again
  cases hm : s.p.mmap with
  | none => simp
  | some h =>
      simp only []
      split_ifs
      · simp
      · exact mmap_scan_first_not_again L s.vma_cache len addr fuel _ _

/-- With a null-terminated list and enough budget the search of `mmap` ends at
the allocation code or at `return -1`. -/
theorem mmap_find_cases (L : Layout) (s : State) (fuel len addr : Nat) (l : List Nat)
    (hl : Chain s.vma_cache s.p.mmap l) (hf : l.length < fuel) :
    mmap_find L s fuel len addr = Gap.nospace ∨
    ∃ x y r, mmap_find L s fuel len addr = Gap.found x y r ∧
      (r = addr ∨ r = L.MMAP ∨ ∃ i ∈ l, r = (s.vma_cache i).end_) := by
  unfold mmap_find
  simp only []
  generalize hfirst : decide (addr < L.MMAP ∨ u64 (addr + len) > L.TRAPFRAME) = first
  generalize haddr : (if first = true then L.MMAP else addr) = addr'
  have haddr' : addr' = addr ∨ addr' = L.MMAP := by
    rw [← haddr]; split_ifs <;> simp
  cases hg : mmap_again L s fuel len first addr' with
  | timeout => exact absurd hg (mmap_again_terminates L s fuel len first addr' l hl hf)
  | nospace => exact Or.inl rfl
  | found x y r =>
      refine Or.inr ⟨x, y, r, rfl, ?_⟩
      rcases mmap_again_found_addr L s fuel len first addr' l x y r hl hg with h1 | h1
      · rcases haddr' with h2 | h2
        · exact Or.inl (h1.trans h2)
        · exact Or.inr (Or.inl (h1.trans h2))
      · exact Or.inr (Or.inr h1)
  | again =>
      simp only []
      cases hg2 : mmap_again L s fuel len true L.MMAP with
      | timeout => exact absurd hg2 (mmap_again_terminates L s fuel len true L.MMAP l hl hf)
      | nospace => exact Or.inl rfl
      | again => exact absurd hg2 (mmap_again_first_not_again L s fuel len L.MMAP)
      | found x y r =>
          refine Or.inr ⟨x, y, r, rfl, ?_⟩
          rcases mmap_again_found_addr L s fuel len true L.MMAP l x y r hl hg2 with h1 | h1
          · exact Or.inr (Or.inl h1)
          · exact Or.inr (Or.inr h1)

theorem PGROUNDDOWN_aligned (a : Nat) : PGROUNDDOWN a % PGSIZE = 0 := by
  unfold PGROUNDDOWN PGSIZE; omega

theorem PGROUNDUP_aligned (a : Nat) : PGROUNDUP a % PGSIZE = 0 :=
  PGROUNDDOWN_aligned _

/-- What `mmap` does once the search has found a place and the pool is not
empty: it returns the address found, having popped the pool head `c` and
filled it in. -/
theorem mmap_found_post (L : Layout) (s : State) (fuel addr length prot flags f : Nat)
    (offset : Int) (hoff : offset % (PGSIZE : Int) = 0) (x y : Option Nat) (r c : Nat)
    (hg : mmap_find L s fuel (PGROUNDUP32 length) (PGROUNDUP addr) = Gap.found x y r)
    (hc : s.vma_head = some c) :
    ∃ s', mmap L fuel s addr length prot flags f offset = Outcome.ret r s' ∧
      s'.vma_head = (s.vma_cache c).next ∧
      (s'.vma_cache c).start = r ∧
      (s'.vma_cache c).end_ = u64 (r + PGROUNDUP32 length) ∧
      (s'.vma_cache c).next = y ∧
      (x = none → s'.p.mmap = some c) := by
  unfold mmap
  simp only [hoff, ne_eq, not_true_eq_false, if_false, hg, hc]
  by_cases hf0 : f = 0
  · cases x <;> simp [hf0, State.setVma]
  · cases x <;> simp [hf0, State.setVma, filedup, State.emit]

/-- The value `mmap` returns on success is the start it stored. -/
theorem mmap_unfold_found (L : Layout) (s : State) (fuel addr length prot flags f : Nat)
    (offset : Int) (hoff : offset % (PGSIZE : Int) = 0) (x y : Option Nat) (r c : Nat)
    (hg : mmap_find L s fuel (PGROUNDUP32 length) (PGROUNDUP addr) = Gap.found x y r)
    (hc : s.vma_head = some c) :
    ∃ s', mmap L fuel s addr length prot flags f offset = Outcome.ret r s' := by
  obtain ⟨s', h, _⟩ := mmap_found_post L s fuel addr length prot flags f offset hoff x y r c hg hc
  exact ⟨s', h⟩

/-- C6: on a null-terminated VMA list whose region ends are page-aligned (with
a page-aligned `MMAP` and a page-aligned `offset`), (1) `mmap` returns -1 when
the pool's free list is empty, and (2) whenever `mmap` returns -1 the state it
returns in is the state it was called in: the VMA list, every field of every
region and the pool's free list are as before. -/
theorem mmap_failure_leaves_state (L : Layout) (s : State)
    (fuel addr length prot flags f : Nat) (offset : Int) (l : List Nat)
    (hl : Chain s.vma_cache s.p.mmap l) (hfuel : l.length < fuel)
    (hM : L.MMAP % PGSIZE = 0) (hal : ∀ i ∈ l, (s.vma_cache i).end_ % PGSIZE = 0)
    (hoff : offset % (PGSIZE : Int) = 0) :
    (s.vma_head = none →
        mmap L fuel s addr length prot flags f offset = Outcome.ret neg1 s) ∧
    (∀ s', mmap L fuel s addr length prot flags f offset = Outcome.ret neg1 s' → s' = s) := by
  have hcases := mmap_find_cases L s fuel (PGROUNDUP32 length) (PGROUNDUP addr) l hl hfuel
  constructor
  · intro hpool
    rcases hcases with hg | ⟨x, y, r, hg, _⟩
    · unfold mmap
      simp [hoff, hg]
    · unfold mmap
      simp [hoff, hg, hpool]
  · intro s' hret
    rcases hcases with hg | ⟨x, y, r, hg, hr⟩
    · unfold mmap at hret
      simp [hoff, hg] at hret
      exact hret.symm
    · cases hc : s.vma_head with
      | none =>
          unfold mmap at hret
          simp [hoff, hg, hc] at hret
          exact hret.symm
      | some c =>
          exfalso
          obtain ⟨s'', hs''⟩ := mmap_unfold_found L s fuel addr length prot flags f offset hoff
            x y r c hg hc
          rw [hs''] at hret
          injection hret with hv _
          have hr0 : r % PGSIZE = 0 := by
            rcases hr with h1 | h1 | ⟨i, hi, h1⟩
            · rw [h1]; exact PGROUNDUP_aligned _
            · rw [h1]; exact hM
            · rw [h1]; exact hal i hi
          rw [hv] at hr0
          simp [neg1, PGSIZE] at hr0

/-! ### First fit -/

theorem meets_iff_common_address (s1 e1 s2 e2 : Nat) :
    Meets s1 e1 s2 e2 ↔ ∃ x, (s1 ≤ x ∧ x < e1) ∧ (s2 ≤ x ∧ x < e2) := by
  unfold Meets
  constructor
  · intro h
    exact ⟨max s1 s2, ⟨le_max_left _ _, max_lt h.1 h.2.2.2⟩, ⟨le_max_right _ _, max_lt h.2.2.1 h.2.1⟩⟩
  · rintro ⟨x, ⟨h1, h2⟩, ⟨h3, h4⟩⟩
    omega

theorem u64_of_lt {x : Nat} (h : x < 2 ^ 64) : u64 x = x := Nat.mod_eq_of_lt h

/-- Regions that are non-empty, sorted by start and pairwise disjoint follow
one another: each ends where or before the next begins. -/
theorem ends_before_starts (c : Nat → vmarea) (l : List Nat)
    (hne : ∀ i ∈ l, (c i).start < (c i).end_)
    (hsorted : l.Pairwise (fun i j => (c i).start ≤ (c j).start))
    (hdisj : l.Pairwise (fun i j =>
      ¬ Meets (c i).start (c i).end_ (c j).start (c j).end_)) :
    l.Pairwise (fun i j => (c i).end_ ≤ (c j).start) := by
  induction l with
  | nil => exact List.Pairwise.nil
  | cons a l ih =>
      rw [List.pairwise_cons] at hsorted hdisj ⊢
      refine ⟨?_, ih (fun i hi => hne i (List.mem_cons_of_mem _ hi)) hsorted.2 hdisj.2⟩
      intro j hj
      by_contra hlt
      have h1 := hsorted.1 j hj
      have h2 := hne j (List.mem_cons_of_mem _ hj)
      have h3 := hne a (List.mem_cons_self _ _)
      exact hdisj.1 j hj ⟨h3, h2, by omega, by omega⟩

/-- The first-fit scan from the region `a` returns the lowest end of a region
at or after `a` behind which `len` bytes are free. -/
theorem mmap_scan_first_fit (L : Layout) (c : Nat → vmarea) (len addr : Nat)
    (hpos : 0 < len) (hlen : len < 2 ^ 32) :
    ∀ (l : List Nat) (a fuel : Nat) (b0 x y : Option Nat) (r : Nat),
      Chain c (some a) (a :: l) →
      (∀ i ∈ a :: l, (c i).start < (c i).end_ ∧ (c i).end_ + 2 ^ 32 ≤ 2 ^ 64) →
      (a :: l).Pairwise (fun i j => (c i).end_ ≤ (c j).start) →
      mmap_scan L c len true addr fuel (some a) b0 = Gap.found x y r →
      (∃ i ∈ a :: l, r = (c i).end_) ∧ (c a).end_ ≤ r ∧
      (∀ j ∈ a :: l, ¬ Meets r (r + len) (c j).start (c j).end_) ∧
      (∀ z, (c a).end_ ≤ z → z < r →
        ∃ j ∈ a :: l, Meets z (z + len) (c j).start (c j).end_) := by
  intro l
  induction l with
  | nil =>
      intro a fuel b0 x y r hc hwf _ hs
      obtain ⟨_, hc'⟩ := hc
      simp only [Chain] at hc'
      cases fuel with
      | zero => simp [mmap_scan] at hs
      | succ n =>
          unfold mmap_scan at hs
          rw [hc'] at hs
          simp only [Bool.true_eq_false, if_false] at hs
          split_ifs at hs
          · simp only [Gap.found.injEq] at hs
            obtain ⟨_, _, rfl⟩ := hs
            have ha := hwf a (List.mem_cons_self _ _)
            refine ⟨⟨a, List.mem_cons_self _ _, rfl⟩, le_refl _, ?_, ?_⟩
            · intro j hj
              simp only [List.mem_singleton] at hj
              subst hj
              intro hm
              unfold Meets at hm
              omega
            · intro z h1 h2
              omega
  | cons b l ih =>
      intro a fuel b0 x y r hc hwf hpw hs
      obtain ⟨_, hc'⟩ := hc
      have hnx : (c a).next = some b := hc'.1
      have hcb : Chain c (some b) (b :: l) := ⟨rfl, hc'.2⟩
      have ha := hwf a (List.mem_cons_self _ _)
      have hb := hwf b (List.mem_cons_of_mem _ (List.mem_cons_self _ _))
      rw [List.pairwise_cons] at hpw
      have hab : (c a).end_ ≤ (c b).start := hpw.1 b (List.mem_cons_self _ _)
      have hbj : ∀ j ∈ b :: l, (c b).start ≤ (c j).start := by
        intro j hj
        rcases List.mem_cons.1 hj with rfl | hj'
        · exact le_refl _
        · have h1 := (List.pairwise_cons.1 hpw.2).1 j hj'
          omega
      cases fuel with
      | zero => simp [mmap_scan] at hs
      | succ n =>
          unfold mmap_scan at hs
          rw [hnx] at hs
          simp only [Bool.true_eq_false, if_false] at hs
          have hu : u64 ((c a).end_ + len) = (c a).end_ + len := u64_of_lt (by omega)
          rw [hu] at hs
          split_ifs at hs with hfit
          · simp only [Gap.found.injEq] at hs
            obtain ⟨_, _, rfl⟩ := hs
            refine ⟨⟨a, List.mem_cons_self _ _, rfl⟩, le_refl _, ?_, ?_⟩
            · intro j hj
              rcases List.mem_cons.1 hj with rfl | hj'
              · intro hm
                unfold Meets at hm
                omega
              · have := hbj j hj'
                intro hm
                unfold Meets at hm
                omega
            · intro z h1 h2
              omega
          · obtain ⟨⟨i, hi, hri⟩, hbr, hfree, hlow⟩ :=
              ih b n (some b) x y r hcb (fun i hi => hwf i (List.mem_cons_of_mem _ hi)) hpw.2 hs
            refine ⟨⟨i, List.mem_cons_of_mem _ hi, hri⟩, by omega, ?_, ?_⟩
            · intro j hj
              rcases List.mem_cons.1 hj with rfl | hj'
              · intro hm
                unfold Meets at hm
                omega
              · exact hfree j hj'
            · intro z h1 h2
              by_cases hzb : (c b).end_ ≤ z
              · obtain ⟨j, hj, hm⟩ := hlow z hzb h2
                exact ⟨j, List.mem_cons_of_mem _ hj, hm⟩
              · refine ⟨b, List.mem_cons_of_mem _ (List.mem_cons_self _ _), ?_⟩
                by_cases hzs : (c b).start ≤ z
                · unfold Meets; omega
                · unfold Meets; omega

/-- The first-fit search of `mmap` (entered at `_again` with `first = 1`)
returns the lowest address at or above `MMAP` at which `len` bytes are free. -/
theorem mmap_again_first_fit (L : Layout) (s : State) (fuel len : Nat) (l : List Nat)
    (hpos : 0 < len) (hlen : len < 2 ^ 32) (hM : L.MMAP + 2 ^ 32 ≤ 2 ^ 64)
    (hl : Chain s.vma_cache s.p.mmap l)
    (hwf : ∀ i ∈ l, (s.vma_cache i).start < (s.vma_cache i).end_
                    ∧ (s.vma_cache i).end_ + 2 ^ 32 ≤ 2 ^ 64)
    (hpw : l.Pairwise (fun i j => (s.vma_cache i).end_ ≤ (s.vma_cache j).start))
    (x y : Option Nat) (r : Nat)
    (hs : mmap_again L s fuel len true L.MMAP = Gap.found x y r) :
    (r = L.MMAP ∨ ∃ i ∈ l, r = (s.vma_cache i).end_) ∧
    (∀ j ∈ l, ¬ Meets r (r + len) (s.vma_cache j).start (s.vma_cache j).end_) ∧
    (∀ z, L.MMAP ≤ z → z < r →
      ∃ j ∈ l, Meets z (z + len) (s.vma_cache j).start (s.vma_cache j).end_) := by
  unfold mmap_again at hs
  cases l with
  | nil =>
      simp only [Chain] at hl
      rw [hl] at hs
      simp only [Gap.found.injEq] at hs
      obtain ⟨_, _, rfl⟩ := hs
      refine ⟨Or.inl rfl, ?_, ?_⟩
      · intro j hj; simp at hj
      · intro z h1 h2; omega
  | cons a l =>
      obtain ⟨hm, hc'⟩ := hl
      rw [hm] at hs
      simp only [] at hs
      have hu : u64 (L.MMAP + len) = L.MMAP + len := u64_of_lt (by omega)
      rw [hu] at hs
      have ha := hwf a (List.mem_cons_self _ _)
      have haj : ∀ j ∈ a :: l, (s.vma_cache a).start ≤ (s.vma_cache j).start := by
        intro j hj
        rcases List.mem_cons.1 hj with rfl | hj'
        · exact le_refl _
        · have h1 := (List.pairwise_cons.1 hpw).1 j hj'
          omega
      split_ifs at hs with hfit
      · simp only [Gap.found.injEq] at hs
        obtain ⟨_, _, rfl⟩ := hs
        refine ⟨Or.inl rfl, ?_, ?_⟩
        · intro j hj
          have := haj j hj
          intro hm
          unfold Meets at hm
          omega
        · intro z h1 h2; omega
      · obtain ⟨⟨i, hi, hri⟩, har, hfree, hlow⟩ :=
          mmap_scan_first_fit L s.vma_cache len L.MMAP hpos hlen l a fuel none x y r
            ⟨rfl, hc'⟩ hwf hpw hs
        refine ⟨Or.inr ⟨i, hi, hri⟩, hfree, ?_⟩
        intro z h1 h2
        by_cases hza : (s.vma_cache a).end_ ≤ z
        · exact hlow z hza h2
        · refine ⟨a, List.mem_cons_self _ _, ?_⟩
          by_cases hzs : (s.vma_cache a).start ≤ z
          · unfold Meets; omega
          · unfold Meets; omega

/-- What a returning `mmap` with a result other than -1 went through. -/
theorem mmap_success_found (L : Layout) (s : State)
    (fuel addr length prot flags f : Nat) (offset : Int) (r : Nat) (s' : State)
    (hret : mmap L fuel s addr length prot flags f offset = Outcome.ret r s')
    (hok : r ≠ neg1) :
    ∃ x y, mmap_find L s fuel (PGROUNDUP32 length) (PGROUNDUP addr) = Gap.found x y r := by
  by_cases hoff : offset % (PGSIZE : Int) = 0
  · cases hg : mmap_find L s fuel (PGROUNDUP32 length) (PGROUNDUP addr) with
    | timeout => unfold mmap at hret; simp [hoff, hg] at hret
    | again => unfold mmap at hret; simp [hoff, hg] at hret
    | nospace =>
        unfold mmap at hret
        simp [hoff, hg] at hret
        exact absurd hret.1.symm hok
    | found x y r' =>
        cases hc : s.vma_head with
        | none =>
            unfold mmap at hret
            simp [hoff, hg, hc] at hret
            exact absurd hret.1.symm hok
        | some c =>
            obtain ⟨s'', hs''⟩ := mmap_unfold_found L s fuel addr length prot flags f offset
              hoff x y r' c hg hc
            rw [hs''] at hret
            injection hret with hv _
            exact ⟨x, y, by rw [hv]⟩
  · unfold mmap at hret
    simp [hoff] at hret

theorem PGROUNDUP32_lt (x : Nat) : PGROUNDUP32 x < 2 ^ 32 := by
  unfold PGROUNDUP32 PGROUNDDOWN u32 PGSIZE
  omega

/-- With a hint outside the window the search of `mmap` is the first-fit
search from `MMAP`. -/
theorem mmap_find_first_fit (L : Layout) (s : State) (fuel len addr : Nat)
    (hout : addr < L.MMAP ∨ L.TRAPFRAME < u64 (addr + len)) (x y : Option Nat) (r : Nat)
    (hg : mmap_find L s fuel len addr = Gap.found x y r) :
    mmap_again L s fuel len true L.MMAP = Gap.found x y r := by
  unfold mmap_find at hg
  have hfirst : decide (addr < L.MMAP ∨ u64 (addr + len) > L.TRAPFRAME) = true := by
    simpa using hout
  simp only [hfirst, if_true] at hg
  cases hm : mmap_again L s fuel len true L.MMAP with
  | again => exact absurd hm (mmap_again_first_not_again L s fuel len L.MMAP)
  | timeout => rw [hm] at hg; simp at hg
  | nospace => rw [hm] at hg; simp at hg
  | found x' y' r' => rw [hm] at hg; exact hg

/-- C5: when `mmap` is called with a hint outside the mappable window on a
null-terminated list of non-empty regions that is sorted by start and pairwise
disjoint (all region ends and `MMAP` at most `2^64 - 2^32`, so that adding a
32-bit length does not wrap), asks for a non-empty rounded length and
succeeds, the address `r` it returns is `MMAP` or the end of an existing
region, `[r, r + len)` meets no existing region, and for every `x` with
`MMAP ≤ x < r` the range `[x, x + len)` meets an existing region. In
particular, with an empty VMA list and two free slots in the pool,
`mmap(0, 8192, ...)` returns `MMAP` and a second such call returns
`MMAP + 8192` (for a window of at least 16384 bytes that does not start at 0). -/
theorem mmap_first_fit_lowest :
    (∀ (L : Layout) (s : State) (fuel hint length prot flags f : Nat) (offset : Int)
        (l : List Nat) (r : Nat) (s' : State),
        Chain s.vma_cache s.p.mmap l →
        (∀ i ∈ l, (s.vma_cache i).start < (s.vma_cache i).end_) →
        l.Pairwise (fun i j => (s.vma_cache i).start ≤ (s.vma_cache j).start) →
        l.Pairwise (fun i j => ¬ Meets (s.vma_cache i).start (s.vma_cache i).end_
                                    (s.vma_cache j).start (s.vma_cache j).end_) →
        (∀ i ∈ l, (s.vma_cache i).end_ + 2 ^ 32 ≤ 2 ^ 64) →
        L.MMAP + 2 ^ 32 ≤ 2 ^ 64 →
        0 < PGROUNDUP32 length →
        (PGROUNDUP hint < L.MMAP ∨ L.TRAPFRAME < u64 (PGROUNDUP hint + PGROUNDUP32 length)) →
        mmap L fuel s hint length prot flags f offset = Outcome.ret r s' →
        r ≠ neg1 →
        (r = L.MMAP ∨ ∃ i ∈ l, r = (s.vma_cache i).end_) ∧
        (∀ i ∈ l, ¬ Meets r (r + PGROUNDUP32 length)
                    (s.vma_cache i).start (s.vma_cache i).end_) ∧
        (∀ x, x % PGSIZE = 0 → L.MMAP ≤ x → x < r →
          ∃ i ∈ l, Meets x (x + PGROUNDUP32 length)
                    (s.vma_cache i).start (s.vma_cache i).end_)) ∧
    (∀ (L : Layout) (s : State) (fuel prot flags c1 c2 : Nat),
        0 < L.MMAP → L.MMAP + 16384 ≤ L.TRAPFRAME → L.TRAPFRAME < 2 ^ 64 →
        s.p.mmap = none → s.vma_head = some c1 → (s.vma_cache c1).next = some c2 →
        0 < fuel →
        (mmap L fuel s 0 8192 prot flags 0 0).value? = some L.MMAP ∧
        ((mmap L fuel s 0 8192 prot flags 0 0).andThen fun _ s1 =>
            mmap L fuel s1 0 8192 prot flags 0 0).value? = some (L.MMAP + 8192)) := by
  constructor
  · intro L s fuel hint length prot flags f offset l r s' hl hne hsorted hdisj hbound hM hpos
      hout hret hok
    obtain ⟨x, y, hg⟩ := mmap_success_found L s fuel hint length prot flags f offset r s' hret hok
    have hg' := mmap_find_first_fit L s fuel _ _ hout x y r hg
    obtain ⟨h1, h2, h3⟩ := mmap_again_first_fit L s fuel (PGROUNDUP32 length) l hpos
      (PGROUNDUP32_lt length) hM hl (fun i hi => ⟨hne i hi, hbound i hi⟩)
      (ends_before_starts s.vma_cache l hne hsorted hdisj) x y r hg'
    exact ⟨h1, h2, fun z _ hz1 hz2 => h3 z hz1 hz2⟩
  · intro L s fuel prot flags c1 c2 hM0 hwin hT hempty hhead hnext hfuel
    have hup : PGROUNDUP 0 = 0 := by decide
    have hlen : PGROUNDUP32 8192 = 8192 := by decide
    have hu1 : u64 (L.MMAP + 8192) = L.MMAP + 8192 := u64_of_lt (by omega)
    have hu2 : u64 (L.MMAP + 8192 + 8192) = L.MMAP + 8192 + 8192 := u64_of_lt (by omega)
    obtain ⟨n, rfl⟩ : ∃ n, fuel = n + 1 := ⟨fuel - 1, by omega⟩
    have hg1 : mmap_find L s (n + 1) (PGROUNDUP32 8192) (PGROUNDUP 0)
        = Gap.found none none L.MMAP := by
      unfold mmap_find mmap_again
      simp [hup, hM0, hempty]
    obtain ⟨s1, hs1, hh1, hst1, hen1, hnx1, hm1⟩ :=
      mmap_found_post L s (n + 1) 0 8192 prot flags 0 0 (by decide) none none L.MMAP c1 hg1 hhead
    have hm1' := hm1 rfl
    have hg2 : mmap_find L s1 (n + 1) (PGROUNDUP32 8192) (PGROUNDUP 0)
        = Gap.found (some c1) none (L.MMAP + 8192) := by
      rw [hlen, hu1] at hen1
      have hfirst : decide (0 < L.MMAP ∨ u64 (0 + 8192) > L.TRAPFRAME) = true := by
        simp [hM0]
      have hno : ¬ (L.MMAP + 8192 ≤ L.MMAP) := by omega
      have hyes : L.MMAP + 8192 + 8192 ≤ L.TRAPFRAME := by omega
      unfold mmap_find mmap_again
      simp only [hup, hlen, hm1', hfirst, if_true, hst1, hu1, hno, if_false, mmap_scan, hnx1,
        hen1, hu2, hyes]
      simp
    obtain ⟨s2, hs2, _⟩ :=
      mmap_found_post L s1 (n + 1) 0 8192 prot flags 0 0 (by decide) (some c1) none
        (L.MMAP + 8192) c2 hg2 (by rw [hh1, hnext])
    rw [hs1]
    refine ⟨rfl, ?_⟩
    simp only [Outcome.andThen]
    rw [hs2]
    rfl

/-- C5 at concrete inputs: with regions at `MMAP` and `MMAP + 8192` (one free
page between them) a two-page first-fit request returns `MMAP + 12288`; and
the two-call scenario on the state after `kvminit`. -/
theorem mmap_first_fit_lowest_witness :
    ((2 ^ 36 + 12288 = demo.MMAP ∨ ∃ i ∈ [3, 2], 2 ^ 36 + 12288 = (gappedState.vma_cache i).end_) ∧
      (∀ i ∈ [3, 2], ¬ Meets (2 ^ 36 + 12288) (2 ^ 36 + 12288 + PGROUNDUP32 8192)
                  (gappedState.vma_cache i).start (gappedState.vma_cache i).end_) ∧
      (∀ x, x % PGSIZE = 0 → demo.MMAP ≤ x → x < 2 ^ 36 + 12288 →
        ∃ i ∈ [3, 2], Meets x (x + PGROUNDUP32 8192)
                  (gappedState.vma_cache i).start (gappedState.vma_cache i).end_)) ∧
    ((mmap demo 8 boot 0 8192 3 0 0 0).value? = some demo.MMAP ∧
      ((mmap demo 8 boot 0 8192 3 0 0 0).andThen fun _ s1 =>
          mmap demo 8 s1 0 8192 3 0 0 0).value? = some (demo.MMAP + 8192)) :=
  ⟨mmap_first_fit_lowest.1 demo gappedState 8 0 8192 3 0 0 0 [3, 2] (2 ^ 36 + 12288)
      ((mmap demo 8 gappedState 0 8192 3 0 0 0).stateD boot)
      (by decide) (by decide) (by decide) (by decide) (by decide) (by decide) (by decide)
      (by decide) (by rfl) (by decide),
   mmap_first_fit_lowest.2 demo boot 8 3 0 3 2 (by decide) (by decide) (by decide) (by rfl)
      (by rfl) (by rfl) (by decide)⟩

/-- C6 at a concrete input: with the four slots of the pool in use, `mmap`
returns -1 and the state is the one it was called in. -/
theorem mmap_failure_leaves_state_witness :
    mmap demo 8 fullPoolState 0 4096 3 0 0 0 = Outcome.ret neg1 fullPoolState ∧
    (∀ s', mmap demo 8 fullPoolState 0 4096 3 0 0 0 = Outcome.ret neg1 s' → s' = fullPoolState) :=
  ⟨(mmap_failure_leaves_state demo fullPoolState 8 0 4096 3 0 0 0 [3, 2, 1, 0]
      (by decide) (by decide) (by decide) (by decide) (by decide)).1 (by rfl),
   (mmap_failure_leaves_state demo fullPoolState 8 0 4096 3 0 0 0 [3, 2, 1, 0]
      (by decide) (by decide) (by decide) (by decide) (by decide)).2⟩

/-! ### Linked lists in the pool -/

theorem chain_iff_seg (c : Nat → vmarea) : ∀ (l : List Nat) (h : Option Nat),
    Chain c h l ↔ Seg c h l none := by
  intro l
  induction l with
  | nil => intro h; simp [Chain, Seg]
  | cons i l ih => intro h; simp [Chain, Seg, ih]

theorem seg_append (c : Nat → vmarea) : ∀ (l1 l2 : List Nat) (h t : Option Nat),
    Seg c h (l1 ++ l2) t ↔ ∃ m, Seg c h l1 m ∧ Seg c m l2 t := by
  intro l1
  induction l1 with
  | nil => intro l2 h t; simp [Seg]
  | cons i l ih =>
      intro l2 h t
      rw [List.cons_append]
      simp only [Seg]
      rw [ih]
      constructor
      · rintro ⟨h1, m, h2, h3⟩
        exact ⟨m, ⟨h1, h2⟩, h3⟩
      · rintro ⟨m, ⟨h1, h2⟩, h3⟩
        exact ⟨h1, m, h2, h3⟩

/-- A segment only depends on the `next` fields of its own slots. -/
theorem seg_congr (c c' : Nat → vmarea) : ∀ (l : List Nat) (h t : Option Nat),
    (∀ i ∈ l, (c' i).next = (c i).next) → (Seg c' h l t ↔ Seg c h l t) := by
  intro l
  induction l with
  | nil => intro h t _; simp [Seg]
  | cons i l ih =>
      intro h t hc
      simp only [Seg]
      rw [hc i (List.mem_cons_self _ _), ih _ _ (fun j hj => hc j (List.mem_cons_of_mem _ hj))]

/-! ### `_mfree` leaves the VMA pool alone -/

theorem SameVma.refl (s : State) : SameVma s s := ⟨rfl, rfl, rfl, rfl, rfl⟩

theorem SameVma.trans {s t u : State} (h1 : SameVma s t) (h2 : SameVma t u) : SameVma s u :=
  ⟨h2.1.trans h1.1, h2.2.1.trans h1.2.1, h2.2.2.1.trans h1.2.2.1,
   h2.2.2.2.1.trans h1.2.2.2.1, h2.2.2.2.2.trans h1.2.2.2.2⟩

theorem walk_level_false (s : State) (pt va level : Nat) :
    walk_level s pt va false level =
      (if s.mem (pt + 8 * PX level va) &&& PTE_V ≠ 0
        then some (PTE2PA (s.mem (pt + 8 * PX level va))) else none, s) := by
  unfold walk_level
  simp only []
  split_ifs <;> rfl

/-- Without `alloc`, `walk` does not change the state. -/
theorem walk_false_state (L : Layout) (s : State) (pt va : Nat) :
    (∃ pte, walk L s pt va false = Outcome.ret pte s) ∨
    walk L s pt va false = Outcome.panic "walk" s := by
  unfold walk
  split_ifs
  · exact Or.inr rfl
  · left
    simp only [walk_level_false]
    by_cases h2 : s.mem (pt + 8 * PX 2 va) &&& PTE_V ≠ 0
    · rw [if_pos h2]
      simp only []
      by_cases h1 : s.mem (PTE2PA (s.mem (pt + 8 * PX 2 va)) + 8 * PX 1 va) &&& PTE_V ≠ 0
      · rw [if_pos h1]; exact ⟨_, rfl⟩
      · rw [if_neg h1]; exact ⟨_, rfl⟩
    · rw [if_neg h2]; exact ⟨_, rfl⟩

theorem _mfree_page_sameVma (L : Layout) (s : State) (a start offset : Nat) (do_free : Bool)
    (addr : Nat) :
    (∃ s1, _mfree_page L s a start offset do_free addr = Outcome.ret () s1 ∧ SameVma s s1) ∨
    (∃ m s1, _mfree_page L s a start offset do_free addr = Outcome.panic m s1) := by
  unfold _mfree_page
  rcases walk_false_state L s s.p.pagetable addr with ⟨pte, hw⟩ | hw
  · rw [hw]
    simp only []
    split_ifs
    all_goals first
      | exact Or.inr ⟨_, _, rfl⟩
      | exact Or.inl ⟨_, rfl, by
          simp [SameVma, State.emit, State.store, kfree]⟩
  · rw [hw]
    exact Or.inr ⟨_, _, rfl⟩

theorem _mfree_loop_sameVma (L : Layout) (a start offset : Nat) (do_free : Bool) (stop : Nat) :
    ∀ (fuel : Nat) (s : State) (addr : Nat) (s' : State),
      _mfree_loop L a start offset do_free stop fuel s addr = Outcome.ret () s' →
      SameVma s s' := by
  intro fuel
  induction fuel with
  | zero => intro s addr s' h; simp [_mfree_loop] at h
  | succ n ih =>
      intro s addr s' h
      unfold _mfree_loop at h
      split_ifs at h with hlt
      · rcases _mfree_page_sameVma L s a start offset do_free addr with ⟨s1, h1, hs1⟩ | ⟨m, s1, h1⟩
        · rw [h1] at h
          exact hs1.trans (ih _ _ _ h)
        · rw [h1] at h
          simp at h
      · injection h with _ h2
        rw [← h2]
        exact SameVma.refl s

/-- A returning `_mfree` leaves the VMA pool, the VMA list and the file flags
as they were. -/
theorem _mfree_sameVma (L : Layout) (fuel : Nat) (s : State) (a start stop : Nat)
    (do_free : Bool) (s' : State)
    (h : _mfree L fuel s a start stop do_free = Outcome.ret () s') : SameVma s s' := by
  unfold _mfree at h
  split_ifs at h
  exact _mfree_loop_sameVma L a start _ do_free stop fuel s start s' h

/-! ### `munmap` of a range strictly inside one region -/

/-- The loop of `munmap` passes over regions that do not meet the request
without changing anything. -/
theorem munmap_loop_skip (L : Layout) (addr eddr : Nat) (s : State) :
    ∀ (pre : List Nat) (fuel : Nat) (h t b : Option Nat) (v : Nat) (s' : State),
      Seg s.vma_cache h pre t →
      (∀ j ∈ pre, eddr ≤ (s.vma_cache j).start ∨ (s.vma_cache j).end_ ≤ addr) →
      munmap_loop L addr eddr fuel s h b = Outcome.ret v s' →
      ∃ n, munmap_loop L addr eddr n s t b = Outcome.ret v s' := by
  intro pre
  induction pre with
  | nil =>
      intro fuel h t b v s' hseg _ hret
      simp only [Seg] at hseg
      subst hseg
      exact ⟨fuel, hret⟩
  | cons j pre ih =>
      intro fuel h t b v s' hseg hskip hret
      obtain ⟨rfl, hseg'⟩ := hseg
      cases fuel with
      | zero => simp [munmap_loop] at hret
      | succ n =>
          have hj := hskip j (List.mem_cons_self _ _)
          have hj' : eddr ≤ (s.vma_cache j).start ∨ addr ≥ (s.vma_cache j).end_ := hj
          unfold munmap_loop at hret
          simp only [hj', if_true] at hret
          exact ih n _ t b v s' hseg' (fun k hk => hskip k (List.mem_cons_of_mem _ hk)) hret

/-- The state `munmap_split` builds when the pool head `c` is not the region
`i` itself. -/
theorem munmap_split_post (s s1 : State) (i c addr eddr : Nat) (hs : SameVma s s1)
    (hci : c ≠ i) :
    (munmap_split s1 i c addr eddr).vma_head = (s.vma_cache c).next ∧
    (munmap_split s1 i c addr eddr).p = s.p ∧
    (munmap_split s1 i c addr eddr).vma_cache i
      = { s.vma_cache i with end_ := addr, next := some c } ∧
    (munmap_split s1 i c addr eddr).vma_cache c
      = { start := eddr, end_ := (s.vma_cache i).end_,
          page_prot := (s.vma_cache i).page_prot,
          flags := (s.vma_cache i).flags,
          pgoff := sub64 (u64 ((s.vma_cache i).pgoff + eddr)) (s.vma_cache i).start,
          file := (s.vma_cache i).file,
          next := (s.vma_cache i).next } ∧
    (∀ j, j ≠ i → j ≠ c → (munmap_split s1 i c addr eddr).vma_cache j = s.vma_cache j) := by
  obtain ⟨hc1, hh1, hp1, _, _⟩ := hs
  have hic : i ≠ c := fun h => hci h.symm
  unfold munmap_split
  refine ⟨?_, ?_, ?_, ?_, ?_⟩
  · by_cases hf : (s.vma_cache i).file = 0 <;>
      simp [State.setVma, filedup, State.emit, hc1, hic, hci, hf]
  · by_cases hf : (s.vma_cache i).file = 0 <;>
      simp [State.setVma, filedup, State.emit, hc1, hic, hci, hf, hp1]
  · by_cases hf : (s.vma_cache i).file = 0 <;>
      simp [State.setVma, filedup, State.emit, hc1, hic, hci, hf]
  · by_cases hf : (s.vma_cache i).file = 0 <;>
      simp [State.setVma, filedup, State.emit, hc1, hic, hci, hf]
  · intro j hji hjc
    by_cases hf : (s.vma_cache i).file = 0 <;>
      simp [State.setVma, filedup, State.emit, hc1, hic, hci, hf, hji, hjc]

/-- The step of the loop of `munmap` on a region that strictly contains the
request: the pool head `c` becomes the right remainder and is linked behind
the region, and the loop goes on at `c`. -/
theorem munmap_loop_interior (L : Layout) (addr eddr : Nat) (s : State) (fuel i : Nat)
    (b : Option Nat) (s' : State)
    (hin : (s.vma_cache i).start < addr ∧ eddr < (s.vma_cache i).end_) (hle : addr ≤ eddr)
    (hpool : ∀ c, s.vma_head = some c → c ≠ i)
    (hret : munmap_loop L addr eddr fuel s (some i) b = Outcome.ret 0 s') :
    ∃ c s1 n, s.vma_head = some c ∧ SameVma s s1 ∧
      munmap_loop L addr eddr n (munmap_split s1 i c addr eddr) (some c) (some i)
        = Outcome.ret 0 s' := by
  cases fuel with
  | zero => simp [munmap_loop] at hret
  | succ n =>
      unfold munmap_loop at hret
      have h1 : ¬ (eddr ≤ (s.vma_cache i).start ∨ addr ≥ (s.vma_cache i).end_) := by omega
      have h2 : ¬ (addr ≤ (s.vma_cache i).start ∧ eddr ≥ (s.vma_cache i).end_) := by omega
      have h3 : addr > (s.vma_cache i).start ∧ eddr < (s.vma_cache i).end_ := by omega
      simp only [h1, h2, h3, if_false, if_true, and_self] at hret
      cases hm : _mfree L n s i addr eddr true with
      | timeout => rw [hm] at hret; simp at hret
      | panic m s1 => rw [hm] at hret; simp at hret
      | ret u s1 =>
          rw [hm] at hret
          have hsame := _mfree_sameVma L n s i addr eddr true s1 hm
          simp only [] at hret
          cases hhead : s.vma_head with
          | none =>
              rw [hsame.2.1, hhead] at hret
              simp only [Outcome.ret.injEq] at hret
              exact absurd hret.1 (by decide)
          | some c =>
              have hci : c ≠ i := hpool c hhead
              rw [hsame.2.1, hhead] at hret
              simp only [] at hret
              have hnx := (munmap_split_post s s1 i c addr eddr hsame hci).2.2.1
              rw [hnx] at hret
              exact ⟨c, s1, n, rfl, hsame, hret⟩

theorem filePos_split (p st e x : Nat) :
    sub64 (u64 (sub64 (u64 (p + e)) st + x)) e = sub64 (u64 (p + x)) st := by
  unfold sub64 u64
  omega

/-- C7: let the VMA list of the process be the null-terminated list
`l1 ++ i :: l2` of distinct slots, the pool head not one of them, the other
regions non-empty and disjoint from the region `[s, e)` of slot `i`, and
`s < addr`, `addr + length < e`. If `munmap(addr, length)` returns 0, then the
pool head `c` has been popped and the list is `l1 ++ i :: c :: l2`: slot `i`
holds `[s, addr)` and is immediately followed by slot `c` holding
`[addr + length, e)`; both carry the protection, the flags and the file of the
original; `i` keeps the file offset and the offset of `c` is
`pgoff + (addr + length) - s`, so that both map every address to the file
position the original region gave it; every other slot of the list is
unchanged. -/
theorem munmap_interior_splits (L : Layout) (s : State) (fuel addr length : Nat) (s' : State)
    (l1 l2 : List Nat) (i : Nat)
    (hl : Chain s.vma_cache s.p.mmap (l1 ++ i :: l2))
    (hnodup : (l1 ++ i :: l2).Nodup)
    (hpool : ∀ c, s.vma_head = some c → c ∉ l1 ++ i :: l2)
    (hin : (s.vma_cache i).start < addr ∧ addr + length < (s.vma_cache i).end_)
    (hend : (s.vma_cache i).end_ < 2 ^ 64)
    (hne : ∀ j ∈ l1 ++ l2, (s.vma_cache j).start < (s.vma_cache j).end_)
    (hdisj : ∀ j ∈ l1 ++ l2, ¬ Meets (s.vma_cache j).start (s.vma_cache j).end_
                                (s.vma_cache i).start (s.vma_cache i).end_)
    (hret : munmap L fuel s addr length = Outcome.ret 0 s') :
    ∃ c, s.vma_head = some c ∧ s'.vma_head = (s.vma_cache c).next ∧
      Chain s'.vma_cache s'.p.mmap (l1 ++ i :: c :: l2) ∧
      s'.vma_cache i = { s.vma_cache i with end_ := addr, next := some c } ∧
      s'.vma_cache c =
        { start := addr + length, end_ := (s.vma_cache i).end_,
          page_prot := (s.vma_cache i).page_prot, flags := (s.vma_cache i).flags,
          pgoff := sub64 (u64 ((s.vma_cache i).pgoff + (addr + length))) (s.vma_cache i).start,
          file := (s.vma_cache i).file, next := (s.vma_cache i).next } ∧
      (∀ j ∈ l1 ++ l2, s'.vma_cache j = s.vma_cache j) ∧
      (∀ x, (s'.vma_cache i).filePos x = (s.vma_cache i).filePos x) ∧
      (∀ x, (s'.vma_cache c).filePos x = (s.vma_cache i).filePos x) := by
  -- the request as the loop sees it
  have heddr : u64 (addr + length) = addr + length := u64_of_lt (by omega)
  unfold munmap at hret
  simp only [heddr] at hret
  split_ifs at hret with hal
  -- the list, cut at `i`
  have hnd := List.nodup_middle.1 hnodup
  have hi_not : i ∉ l1 ++ l2 := (List.nodup_cons.1 hnd).1
  have hne_i : ∀ j ∈ l1 ++ l2, j ≠ i := fun j hj h => hi_not (h ▸ hj)
  have hmem : ∀ j ∈ l1 ++ l2, j ∈ l1 ++ i :: l2 := by
    intro j hj
    rcases List.mem_append.1 hj with h | h
    · exact List.mem_append_left _ h
    · exact List.mem_append_right _ (List.mem_cons_of_mem _ h)
  have hskip : ∀ j ∈ l1 ++ l2,
      addr + length ≤ (s.vma_cache j).start ∨ (s.vma_cache j).end_ ≤ addr := by
    intro j hj
    have h1 := hne j hj
    have h2 := hdisj j hj
    unfold Meets at h2
    omega
  obtain ⟨m, hseg1, hseg2⟩ := (seg_append s.vma_cache l1 (i :: l2) _ none).1
    ((chain_iff_seg _ _ _).1 hl)
  obtain ⟨rfl, hseg2'⟩ := hseg2
  -- the regions in front of `i` are passed over
  obtain ⟨n1, hret1⟩ := munmap_loop_skip L addr (addr + length) s l1 fuel _ _ none 0 s' hseg1
    (fun j hj => hskip j (List.mem_append_left _ hj)) hret
  -- the region `i` is split
  obtain ⟨c, s1, n2, hhead, hsame, hret2⟩ := munmap_loop_interior L addr (addr + length) s n1 i
    none s' ⟨hin.1, hin.2⟩ (by omega)
    (fun c hc h => hpool c hc (h ▸ List.mem_append_right _ (List.mem_cons_self _ _))) hret1
  have hc_not : c ∉ l1 ++ i :: l2 := hpool c hhead
  have hci : c ≠ i := fun h => hc_not (h ▸ List.mem_append_right _ (List.mem_cons_self _ _))
  have hne_c : ∀ j ∈ l1 ++ l2, j ≠ c := fun j hj h => hc_not (h ▸ hmem j hj)
  obtain ⟨hT1, hT2, hT3, hT4, hT5⟩ := munmap_split_post s s1 i c addr (addr + length) hsame hci
  generalize munmap_split s1 i c addr (addr + length) = T at hret2 hT1 hT2 hT3 hT4 hT5
  have hTj : ∀ j ∈ l1 ++ l2, T.vma_cache j = s.vma_cache j :=
    fun j hj => hT5 j (hne_i j hj) (hne_c j hj)
  -- the new slot and the regions behind it are passed over
  have hsegT2 : Seg T.vma_cache (s.vma_cache i).next l2 none :=
    (seg_congr s.vma_cache T.vma_cache l2 _ _
      (fun j hj => by rw [hTj j (List.mem_append_right _ hj)])).2 hseg2'
  have hsegTc : Seg T.vma_cache (some c) (c :: l2) none := by
    refine ⟨rfl, ?_⟩
    rw [hT4]
    exact hsegT2
  obtain ⟨n3, hret3⟩ := munmap_loop_skip L addr (addr + length) T (c :: l2) n2 _ none (some i) 0 s'
    hsegTc (by
      intro j hj
      rcases List.mem_cons.1 hj with rfl | hj'
      · left; rw [hT4]
      · rw [hTj j (List.mem_append_right _ hj')]
        exact hskip j (List.mem_append_right _ hj')) hret2
  have hs' : s' = T := by
    cases n3 with
    | zero => simp [munmap_loop] at hret3
    | succ k =>
        simp only [munmap_loop, Outcome.ret.injEq, true_and] at hret3
        exact hret3.symm
  subst hs'
  refine ⟨c, hhead, hT1, ?_, hT3, hT4, hTj, ?_, ?_⟩
  · rw [chain_iff_seg, seg_append]
    refine ⟨some i, ?_, rfl, ?_⟩
    · rw [hT2]
      exact (seg_congr s.vma_cache s'.vma_cache l1 _ _
        (fun j hj => by rw [hTj j (List.mem_append_left _ hj)])).2 hseg1
    · rw [hT3]
      exact hsegTc
  · intro x
    rw [hT3]
    rfl
  · intro x
    rw [hT4]
    exact filePos_split _ _ _ _


/-! ### Page-table words -/

theorem PX_lt (level va : Nat) : PX level va < 512 := by
  unfold PX
  have h : (va >>> (12 + 9 * level)) &&& 0x1FF ≤ 0x1FF := Nat.and_le_right
  omega

theorem PX_eq (level va : Nat) : PX level va = va / 2 ^ (12 + 9 * level) % 512 := by
  unfold PX
  rw [Nat.shiftRight_eq_div_pow]
  exact Nat.and_pow_two_sub_one_eq_mod _ 9

/-- Two page-aligned addresses below `2^39` with the same three indices are equal. -/
theorem PX_inj (a b : Nat) (ha : a < 2 ^ 39) (hb : b < 2 ^ 39)
    (ha0 : a % PGSIZE = 0) (hb0 : b % PGSIZE = 0)
    (h2 : PX 2 a = PX 2 b) (h1 : PX 1 a = PX 1 b) (h0 : PX 0 a = PX 0 b) : a = b := by
  rw [PX_eq, PX_eq] at h2 h1 h0
  unfold PGSIZE at ha0 hb0
  norm_num at h2 h1 h0
  omega

theorem PX_PGROUNDDOWN (level va : Nat) : PX level (PGROUNDDOWN va) = PX level va := by
  rw [PX_eq, PX_eq]
  unfold PGROUNDDOWN PGSIZE
  have h : (2 : Nat) ^ (12 + 9 * level) = 4096 * 512 ^ level := by
    rw [pow_add, pow_mul]; norm_num
  rw [h]
  have e1 : (va - va % 4096) / (4096 * 512 ^ level) = (va - va % 4096) / 4096 / 512 ^ level :=
    (Nat.div_div_eq_div_mul _ _ _).symm
  have e2 : va / (4096 * 512 ^ level) = va / 4096 / 512 ^ level :=
    (Nat.div_div_eq_div_mul _ _ _).symm
  rw [e1, e2]
  congr 2
  omega

/-- An entry built by `PA2PTE(pa) | flags` from an aligned frame below `2^56`. -/
theorem PA2PTE_or (f flags : Nat) (hf : f % PGSIZE = 0) (hlt : f < 2 ^ 56) (hfl : flags < 2 ^ 10) :
    PA2PTE f ||| flags = 2 ^ 10 * (f / 4096) + flags := by
  unfold PA2PTE u64
  rw [Nat.shiftRight_eq_div_pow, Nat.shiftLeft_eq]
  have h1 : f / 2 ^ 12 * 2 ^ 10 < 2 ^ 64 := by omega
  rw [Nat.mod_eq_of_lt h1]
  have h2 : f / 2 ^ 12 * 2 ^ 10 = 2 ^ 10 * (f / 4096) := by
    norm_num; omega
  rw [h2]
  exact (Nat.mul_add_lt_is_or hfl _).symm

theorem PTE2PA_PA2PTE_V (f : Nat) (hf : f % PGSIZE = 0) (hlt : f < 2 ^ 56) :
    PTE2PA (PA2PTE f ||| PTE_V) = f := by
  rw [PA2PTE_or f PTE_V hf hlt (by decide)]
  unfold PTE2PA u64 PTE_V
  rw [Nat.shiftRight_eq_div_pow, Nat.shiftLeft_eq]
  unfold PGSIZE at hf
  omega

theorem or_V_valid (x : Nat) : (x ||| PTE_V) &&& PTE_V ≠ 0 := by
  unfold PTE_V
  rw [Nat.and_one_is_mod]
  have : (x ||| 1) % 2 = 1 := Nat.or_mod_two_eq_one.2 (Or.inr rfl)
  omega

theorem zero_invalid : (0 : Nat) &&& PTE_V = 0 := by decide

/-- Without allocation, `walk` returns the address of the leaf entry the
tables lead to, 0 when a table is missing. -/
theorem walk_false_eq (L : Layout) (s : State) (root va : Nat) :
    walk L s root va false =
      if va ≥ L.MAXVA then Outcome.panic "walk" s
      else Outcome.ret (match tab0 s.mem root (PX 2 va) (PX 1 va) with
                        | none => 0
                        | some t0 => t0 + 8 * PX 0 va) s := by
  unfold walk
  split_ifs with h
  · rfl
  · simp only [walk_level_false, tab0, tab1]
    by_cases h2 : s.mem (root + 8 * PX 2 va) &&& PTE_V ≠ 0
    · rw [if_pos h2]
      simp only []
      by_cases h1 : s.mem (PTE2PA (s.mem (root + 8 * PX 2 va)) + 8 * PX 1 va) &&& PTE_V ≠ 0
      · rw [if_pos h1]
      · rw [if_neg h1]
    · rw [if_neg h2]

theorem translation_eq (L : Layout) (s : State) (va : Nat) :
    translation L s va =
      if va ≥ L.MAXVA then none
      else entryIdx s.mem s.p.pagetable (PX 2 va) (PX 1 va) (PX 0 va) := by
  unfold translation entryIdx
  rw [walk_false_eq]
  split_ifs with h
  · rfl
  · cases h0 : tab0 s.mem s.p.pagetable (PX 2 va) (PX 1 va) with
    | none => simp
    | some t0 => simp

/-- The entry selected by `i, j, k` only depends on the three words the walk
reads. -/
theorem entryIdx_frame (m m' : Nat → Nat) (root i j k : Nat)
    (h2 : m' (root + 8 * i) = m (root + 8 * i))
    (h1 : ∀ t, tab1 m root i = some t → m' (t + 8 * j) = m (t + 8 * j))
    (h0 : ∀ t, tab0 m root i j = some t → m' (t + 8 * k) = m (t + 8 * k)) :
    tab1 m' root i = tab1 m root i ∧ tab0 m' root i j = tab0 m root i j ∧
    entryIdx m' root i j k = entryIdx m root i j k := by
  have e1 : tab1 m' root i = tab1 m root i := by
    unfold tab1; rw [h2]
  have e0 : tab0 m' root i j = tab0 m root i j := by
    unfold tab0
    rw [e1]
    cases ht : tab1 m root i with
    | none => rfl
    | some t => simp only []; rw [h1 t ht]
  refine ⟨e1, e0, ?_⟩
  unfold entryIdx
  rw [e0]
  cases ht : tab0 m root i j with
  | none => rfl
  | some t => simp only []; rw [h0 t ht]

/-! ### Installing one leaf entry -/

theorem sepPage_symm {p q : Nat} (h : sepPage p q) : sepPage q p := Or.symm h

theorem walk_level_valid (s : State) (pt va : Nat) (alloc : Bool) (level : Nat)
    (h : s.mem (pt + 8 * PX level va) &&& PTE_V ≠ 0) :
    walk_level s pt va alloc level = (some (PTE2PA (s.mem (pt + 8 * PX level va))), s) := by
  unfold walk_level
  simp only [h, ne_eq, not_false_eq_true, if_true]

theorem walk_level_alloc (s : State) (pt va level f : Nat) (r : List Nat)
    (h : s.mem (pt + 8 * PX level va) &&& PTE_V = 0) (hk : s.kmem = f :: r) (hf : f ≠ 0) :
    walk_level s pt va true level =
      (some f, (({ s with kmem := r } : State).zeroPage f).store (pt + 8 * PX level va)
        (PA2PTE f ||| PTE_V)) := by
  unfold walk_level kalloc
  simp [h, hk, hf]

/-- Zeroing a frame of the free list changes no table and no entry of the
page table. -/
theorem zero_free_frame (m : Nat → Nat) (root f : Nat) (rest : List Nat)
    (ht : PtTree m root) (hfr : FramesFree m root (f :: rest)) :
    ∀ i j k, i < 512 → j < 512 → k < 512 →
      tab1 (fun x => if f ≤ x ∧ x < f + PGSIZE then 0 else m x) root i = tab1 m root i ∧
      tab0 (fun x => if f ≤ x ∧ x < f + PGSIZE then 0 else m x) root i j = tab0 m root i j ∧
      entryIdx (fun x => if f ≤ x ∧ x < f + PGSIZE then 0 else m x) root i j k
        = entryIdx m root i j k := by
  intro i j k hi hj hk
  have hmem : f ∈ f :: rest := List.mem_cons_self _ _
  apply entryIdx_frame
  · have h := hfr.free_root f hmem
    unfold sepPage PGSIZE at h
    have : ¬ (f ≤ root + 8 * i ∧ root + 8 * i < f + PGSIZE) := by unfold PGSIZE; omega
    simp only [this, if_false]
  · intro t htab
    have h := hfr.free_tab1 f hmem i t hi htab
    unfold sepPage PGSIZE at h
    have : ¬ (f ≤ t + 8 * j ∧ t + 8 * j < f + PGSIZE) := by unfold PGSIZE; omega
    simp only [this, if_false]
  · intro t htab
    have h := hfr.free_tab0 f hmem i j t hi hj htab
    unfold sepPage PGSIZE at h
    have : ¬ (f ≤ t + 8 * k ∧ t + 8 * k < f + PGSIZE) := by unfold PGSIZE; omega
    simp only [this, if_false]

theorem zero_free_tree (m : Nat → Nat) (root f : Nat) (rest : List Nat)
    (ht : PtTree m root) (hfr : FramesFree m root (f :: rest)) :
    PtTree (fun x => if f ≤ x ∧ x < f + PGSIZE then 0 else m x) root ∧
    FramesFree (fun x => if f ≤ x ∧ x < f + PGSIZE then 0 else m x) root rest := by
  have hz := zero_free_frame m root f rest ht hfr
  have e1 : ∀ i, i < 512 →
      tab1 (fun x => if f ≤ x ∧ x < f + PGSIZE then 0 else m x) root i = tab1 m root i :=
    fun i hi => (hz i 0 0 hi (by decide) (by decide)).1
  have e0 : ∀ i j, i < 512 → j < 512 →
      tab0 (fun x => if f ≤ x ∧ x < f + PGSIZE then 0 else m x) root i j = tab0 m root i j :=
    fun i j hi hj => (hz i j 0 hi hj (by decide)).2.1
  constructor
  · constructor
    · intro i t hi h; rw [e1 i hi] at h; exact ht.root_tab1 i t hi h
    · intro i j t hi hj h; rw [e0 i j hi hj] at h; exact ht.root_tab0 i j t hi hj h
    · intro i i' t t' hi hi' h h' hne
      rw [e1 i hi] at h; rw [e1 i' hi'] at h'
      exact ht.tab1_tab1 i i' t t' hi hi' h h' hne
    · intro i i' j' t t' hi hi' hj' h h'
      rw [e1 i hi] at h; rw [e0 i' j' hi' hj'] at h'
      exact ht.tab1_tab0 i i' j' t t' hi hi' hj' h h'
    · intro i j i' j' t t' hi hj hi' hj' h h' hne
      rw [e0 i j hi hj] at h; rw [e0 i' j' hi' hj'] at h'
      exact ht.tab0_tab0 i j i' j' t t' hi hj hi' hj' h h' hne
    · intro i j t hi hj h; rw [e0 i j hi hj] at h; exact ht.tab0_ne i j t hi hj h
  · constructor
    · intro g hg; exact hfr.free_root g (List.mem_cons_of_mem _ hg)
    · intro g hg i t hi h; rw [e1 i hi] at h
      exact hfr.free_tab1 g (List.mem_cons_of_mem _ hg) i t hi h
    · intro g hg i j t hi hj h; rw [e0 i j hi hj] at h
      exact hfr.free_tab0 g (List.mem_cons_of_mem _ hg) i j t hi hj h
    · exact (List.pairwise_cons.1 hfr.free_sep).2
    · intro g hg; exact hfr.free_ok g (List.mem_cons_of_mem _ hg)

theorem tab1_some {m : Nat → Nat} {root i t : Nat} (h : tab1 m root i = some t) :
    m (root + 8 * i) &&& PTE_V ≠ 0 ∧ t = PTE2PA (m (root + 8 * i)) := by
  unfold tab1 at h
  split_ifs at h with hv
  exact ⟨hv, by injection h with h; exact h.symm⟩

theorem tab1_none {m : Nat → Nat} {root i : Nat} (h : tab1 m root i = none) :
    m (root + 8 * i) &&& PTE_V = 0 := by
  unfold tab1 at h
  split_ifs at h with hv
  simpa using hv

theorem tab1_of_valid {m : Nat → Nat} {root i : Nat} (h : m (root + 8 * i) &&& PTE_V ≠ 0) :
    tab1 m root i = some (PTE2PA (m (root + 8 * i))) := by
  unfold tab1
  rw [if_pos h]

theorem tab1_of_invalid {m : Nat → Nat} {root i : Nat} (h : m (root + 8 * i) &&& PTE_V = 0) :
    tab1 m root i = none := by
  unfold tab1
  rw [if_neg (by simpa using h)]

theorem tab0_some {m : Nat → Nat} {root i j t : Nat} (h : tab0 m root i j = some t) :
    ∃ t1, tab1 m root i = some t1 ∧ m (t1 + 8 * j) &&& PTE_V ≠ 0 ∧
      t = PTE2PA (m (t1 + 8 * j)) := by
  unfold tab0 at h
  cases h1 : tab1 m root i with
  | none => rw [h1] at h; simp at h
  | some t1 =>
      rw [h1] at h
      simp only [] at h
      split_ifs at h with hv
      exact ⟨t1, rfl, hv, by injection h with h; exact h.symm⟩

theorem tab0_of_tab1 {m : Nat → Nat} {root i j t1 : Nat} (h1 : tab1 m root i = some t1) :
    tab0 m root i j =
      if m (t1 + 8 * j) &&& PTE_V ≠ 0 then some (PTE2PA (m (t1 + 8 * j))) else none := by
  unfold tab0
  rw [h1]

theorem tab0_of_no_tab1 {m : Nat → Nat} {root i j : Nat} (h1 : tab1 m root i = none) :
    tab0 m root i j = none := by
  unfold tab0
  rw [h1]

theorem entryIdx_of_tab0 {m : Nat → Nat} {root i j k t0 : Nat} (h0 : tab0 m root i j = some t0) :
    entryIdx m root i j k =
      if t0 + 8 * k = 0 then none
      else if m (t0 + 8 * k) &&& PTE_V = 0 then none else some (m (t0 + 8 * k)) := by
  unfold entryIdx
  rw [h0]

theorem entryIdx_of_no_tab0 {m : Nat → Nat} {root i j k : Nat} (h0 : tab0 m root i j = none) :
    entryIdx m root i j k = none := by
  unfold entryIdx
  rw [h0]

/-- Storing a valid leaf entry into the level-0 table of `(i0, j0)` changes
the entry `(i0, j0, k0)` and nothing else. -/
theorem leaf_store (m : Nat → Nat) (root i0 j0 k0 t0 v : Nat)
    (hi0 : i0 < 512) (hj0 : j0 < 512) (hk0 : k0 < 512)
    (h0 : tab0 m root i0 j0 = some t0) (hne : t0 ≠ 0) (hv : v &&& PTE_V ≠ 0)
    (hroot : sepPage root t0)
    (h1s : ∀ i t, i < 512 → tab1 m root i = some t → sepPage t t0)
    (h0s : ∀ i j t, i < 512 → j < 512 → (i ≠ i0 ∨ j ≠ j0) → tab0 m root i j = some t →
      sepPage t t0) :
    ∀ i j k, i < 512 → j < 512 → k < 512 →
      tab1 (Function.update m (t0 + 8 * k0) v) root i = tab1 m root i ∧
      tab0 (Function.update m (t0 + 8 * k0) v) root i j = tab0 m root i j ∧
      entryIdx (Function.update m (t0 + 8 * k0) v) root i j k =
        if i = i0 ∧ j = j0 ∧ k = k0 then some v else entryIdx m root i j k := by
  intro i j k hi hj hk
  unfold sepPage PGSIZE at hroot
  have e1 : tab1 (Function.update m (t0 + 8 * k0) v) root i = tab1 m root i := by
    unfold tab1
    rw [Function.update_noteq (by omega)]
  have e0 : tab0 (Function.update m (t0 + 8 * k0) v) root i j = tab0 m root i j := by
    unfold tab0
    rw [e1]
    cases ht : tab1 m root i with
    | none => rfl
    | some t =>
        have h := h1s i t hi ht
        unfold sepPage PGSIZE at h
        simp only []
        rw [Function.update_noteq (by omega)]
  refine ⟨e1, e0, ?_⟩
  cases ht : tab0 m root i j with
  | none =>
      rw [entryIdx_of_no_tab0 (e0.trans ht), entryIdx_of_no_tab0 ht]
      have : ¬ (i = i0 ∧ j = j0 ∧ k = k0) := by
        rintro ⟨rfl, rfl, _⟩
        rw [h0] at ht
        exact absurd ht (by simp)
      rw [if_neg this]
  | some t =>
      rw [entryIdx_of_tab0 (e0.trans ht), entryIdx_of_tab0 ht]
      by_cases hc : i = i0 ∧ j = j0 ∧ k = k0
      · obtain ⟨rfl, rfl, rfl⟩ := hc
        rw [h0] at ht
        injection ht with ht
        subst ht
        have hz : t0 + 8 * k ≠ 0 := by omega
        simp [hz, hv]
      · rw [if_neg hc]
        have hneq : t + 8 * k ≠ t0 + 8 * k0 := by
          by_cases hij : i ≠ i0 ∨ j ≠ j0
          · have h := h0s i j t hi hj hij ht
            unfold sepPage PGSIZE at h
            omega
          · have hi' : i = i0 := by
              by_contra hx; exact hij (Or.inl hx)
            have hj' : j = j0 := by
              by_contra hx; exact hij (Or.inr hx)
            subst hi' hj'
            rw [h0] at ht
            injection ht with ht
            subst ht
            have : k ≠ k0 := fun hx => hc ⟨rfl, rfl, hx⟩
            omega
        rw [Function.update_noteq hneq]

/-- Installing a zeroed free frame `f` as the level-0 table of `(i0, j0)`
creates that table and changes no entry. -/
theorem table0_install (m : Nat → Nat) (root i0 j0 t1 f : Nat)
    (hi0 : i0 < 512) (hj0 : j0 < 512)
    (h1 : tab1 m root i0 = some t1) (hinv : m (t1 + 8 * j0) &&& PTE_V = 0)
    (hf0 : f % PGSIZE = 0) (hflt : f < 2 ^ 56)
    (fa : sepPage f root)
    (fb : ∀ i t, i < 512 → tab1 m root i = some t → sepPage f t)
    (fc : ∀ i j t, i < 512 → j < 512 → tab0 m root i j = some t → sepPage f t)
    (td : sepPage root t1)
    (te : ∀ i t, i < 512 → i ≠ i0 → tab1 m root i = some t → sepPage t t1)
    (tf : ∀ i j t, i < 512 → j < 512 → tab0 m root i j = some t → sepPage t1 t) :
    ∀ i j k, i < 512 → j < 512 → k < 512 →
      tab1 (Function.update (fun x => if f ≤ x ∧ x < f + PGSIZE then 0 else m x)
              (t1 + 8 * j0) (PA2PTE f ||| PTE_V)) root i = tab1 m root i ∧
      tab0 (Function.update (fun x => if f ≤ x ∧ x < f + PGSIZE then 0 else m x)
              (t1 + 8 * j0) (PA2PTE f ||| PTE_V)) root i j =
        (if i = i0 ∧ j = j0 then some f else tab0 m root i j) ∧
      entryIdx (Function.update (fun x => if f ≤ x ∧ x < f + PGSIZE then 0 else m x)
              (t1 + 8 * j0) (PA2PTE f ||| PTE_V)) root i j k = entryIdx m root i j k ∧
      (Function.update (fun x => if f ≤ x ∧ x < f + PGSIZE then 0 else m x)
              (t1 + 8 * j0) (PA2PTE f ||| PTE_V)) (f + 8 * k) = 0 := by
  intro i j k hi hj hk
  unfold sepPage PGSIZE at fa td
  have hft1 := fb i0 t1 hi0 h1
  unfold sepPage PGSIZE at hft1
  generalize hm' : (Function.update (fun x => if f ≤ x ∧ x < f + PGSIZE then 0 else m x)
              (t1 + 8 * j0) (PA2PTE f ||| PTE_V)) = m'
  -- reads of the new memory
  have rd_out : ∀ x, x ≠ t1 + 8 * j0 → ¬ (f ≤ x ∧ x < f + 4096) → m' x = m x := by
    intro x hx hout
    rw [← hm', Function.update_noteq hx]
    simp only [PGSIZE, hout, if_false]
  have rd_new : m' (t1 + 8 * j0) = PA2PTE f ||| PTE_V := by
    rw [← hm', Function.update_same]
  have rd_zero : ∀ x, f ≤ x ∧ x < f + 4096 → m' x = 0 := by
    intro x hx
    rw [← hm', Function.update_noteq (by omega)]
    simp only [PGSIZE, hx, and_self, if_true]
  have e1 : tab1 m' root i = tab1 m root i := by
    unfold tab1
    rw [rd_out _ (by omega) (by omega)]
  have e0 : tab0 m' root i j = (if i = i0 ∧ j = j0 then some f else tab0 m root i j) := by
    by_cases hc : i = i0 ∧ j = j0
    · obtain ⟨rfl, rfl⟩ := hc
      rw [if_pos ⟨rfl, rfl⟩, tab0_of_tab1 (e1.trans h1), rd_new, if_pos (or_V_valid _),
        PTE2PA_PA2PTE_V f hf0 hflt]
    · rw [if_neg hc]
      cases ht : tab1 m root i with
      | none => rw [tab0_of_no_tab1 (e1.trans ht), tab0_of_no_tab1 ht]
      | some t =>
          rw [tab0_of_tab1 (e1.trans ht), tab0_of_tab1 ht]
          have hft := fb i t hi ht
          unfold sepPage PGSIZE at hft
          have hneq : t + 8 * j ≠ t1 + 8 * j0 := by
            by_cases hii : i = i0
            · subst hii
              rw [h1] at ht
              injection ht with ht
              subst ht
              have : j ≠ j0 := fun hx => hc ⟨rfl, hx⟩
              omega
            · have h := te i t hi hii ht
              unfold sepPage PGSIZE at h
              omega
          rw [rd_out _ hneq (by omega)]
  refine ⟨e1, e0, ?_, rd_zero _ (by omega)⟩
  by_cases hc : i = i0 ∧ j = j0
  · obtain ⟨rfl, rfl⟩ := hc
    have hold : tab0 m root i j = none := by
      rw [tab0_of_tab1 h1, if_neg (by simpa using hinv)]
    have hnew : tab0 m' root i j = some f := by rw [e0, if_pos ⟨rfl, rfl⟩]
    rw [entryIdx_of_no_tab0 hold, entryIdx_of_tab0 hnew, rd_zero _ (by omega)]
    simp [zero_invalid]
  · rw [if_neg hc] at e0
    cases ht : tab0 m root i j with
    | none => rw [entryIdx_of_no_tab0 (e0.trans ht), entryIdx_of_no_tab0 ht]
    | some t =>
        rw [entryIdx_of_tab0 (e0.trans ht), entryIdx_of_tab0 ht]
        have h := fc i j t hi hj ht
        have h' := tf i j t hi hj ht
        unfold sepPage PGSIZE at h h'
        rw [rd_out _ (by omega) (by omega)]

/-- Installing a zeroed free frame `f` as the level-1 table of the root entry
`i0` creates that table and changes no entry. -/
theorem table1_install (m : Nat → Nat) (root i0 f : Nat) (hi0 : i0 < 512)
    (hinv : m (root + 8 * i0) &&& PTE_V = 0)
    (hf0 : f % PGSIZE = 0) (hflt : f < 2 ^ 56)
    (fa : sepPage f root)
    (fb : ∀ i t, i < 512 → tab1 m root i = some t → sepPage f t)
    (fc : ∀ i j t, i < 512 → j < 512 → tab0 m root i j = some t → sepPage f t)
    (ra : ∀ i t, i < 512 → tab1 m root i = some t → sepPage root t)
    (rb : ∀ i j t, i < 512 → j < 512 → tab0 m root i j = some t → sepPage root t) :
    ∀ i j k, i < 512 → j < 512 → k < 512 →
      tab1 (Function.update (fun x => if f ≤ x ∧ x < f + PGSIZE then 0 else m x)
              (root + 8 * i0) (PA2PTE f ||| PTE_V)) root i =
        (if i = i0 then some f else tab1 m root i) ∧
      tab0 (Function.update (fun x => if f ≤ x ∧ x < f + PGSIZE then 0 else m x)
              (root + 8 * i0) (PA2PTE f ||| PTE_V)) root i j =
        (if i = i0 then none else tab0 m root i j) ∧
      entryIdx (Function.update (fun x => if f ≤ x ∧ x < f + PGSIZE then 0 else m x)
              (root + 8 * i0) (PA2PTE f ||| PTE_V)) root i j k = entryIdx m root i j k ∧
      (Function.update (fun x => if f ≤ x ∧ x < f + PGSIZE then 0 else m x)
              (root + 8 * i0) (PA2PTE f ||| PTE_V)) (f + 8 * j) = 0 := by
  intro i j k hi hj hk
  unfold sepPage PGSIZE at fa
  generalize hm' : (Function.update (fun x => if f ≤ x ∧ x < f + PGSIZE then 0 else m x)
              (root + 8 * i0) (PA2PTE f ||| PTE_V)) = m'
  have rd_out : ∀ x, x ≠ root + 8 * i0 → ¬ (f ≤ x ∧ x < f + 4096) → m' x = m x := by
    intro x hx hout
    rw [← hm', Function.update_noteq hx]
    simp only [PGSIZE, hout, if_false]
  have rd_new : m' (root + 8 * i0) = PA2PTE f ||| PTE_V := by
    rw [← hm', Function.update_same]
  have rd_zero : ∀ x, f ≤ x ∧ x < f + 4096 → m' x = 0 := by
    intro x hx
    rw [← hm', Function.update_noteq (by omega)]
    simp only [PGSIZE, hx, and_self, if_true]
  have hold1 : tab1 m root i0 = none := tab1_of_invalid hinv
  have e1 : tab1 m' root i = (if i = i0 then some f else tab1 m root i) := by
    by_cases hc : i = i0
    · subst hc
      rw [if_pos rfl]
      unfold tab1
      rw [rd_new, if_pos (or_V_valid _), PTE2PA_PA2PTE_V f hf0 hflt]
    · rw [if_neg hc]
      unfold tab1
      rw [rd_out _ (by omega) (by omega)]
  have e0 : tab0 m' root i j = (if i = i0 then none else tab0 m root i j) := by
    by_cases hc : i = i0
    · subst hc
      rw [if_pos rfl] at e1 ⊢
      rw [tab0_of_tab1 e1, rd_zero _ (by omega)]
      simp [zero_invalid]
    · rw [if_neg hc] at e1 ⊢
      cases ht : tab1 m root i with
      | none => rw [tab0_of_no_tab1 (e1.trans ht), tab0_of_no_tab1 ht]
      | some t =>
          rw [tab0_of_tab1 (e1.trans ht), tab0_of_tab1 ht]
          have h := fb i t hi ht
          have h' := ra i t hi ht
          unfold sepPage PGSIZE at h h'
          rw [rd_out _ (by omega) (by omega)]
  refine ⟨e1, e0, ?_, rd_zero _ (by omega)⟩
  by_cases hc : i = i0
  · subst hc
    rw [if_pos rfl] at e0
    rw [entryIdx_of_no_tab0 e0, entryIdx_of_no_tab0 (tab0_of_no_tab1 hold1)]
  · rw [if_neg hc] at e0
    cases ht : tab0 m root i j with
    | none => rw [entryIdx_of_no_tab0 (e0.trans ht), entryIdx_of_no_tab0 ht]
    | some t =>
        rw [entryIdx_of_tab0 (e0.trans ht), entryIdx_of_tab0 ht]
        have h := fc i j t hi hj ht
        have h' := rb i j t hi hj ht
        unfold sepPage PGSIZE at h h'
        rw [rd_out _ (by omega) (by omega)]

/-- Case "both page-table pages exist" of `walk` with allocation. -/
theorem walk_alloc_present (L : Layout) (s : State) (va t0 : Nat) (hva : va < L.MAXVA)
    (ht : PtTree s.mem s.p.pagetable)
    (h0 : tab0 s.mem s.p.pagetable (PX 2 va) (PX 1 va) = some t0)
    (hun : entryIdx s.mem s.p.pagetable (PX 2 va) (PX 1 va) (PX 0 va) = none) :
    ∃ pte s2, walk L s s.p.pagetable va true = Outcome.ret pte s2 ∧ pte ≠ 0 ∧
      s2.mem pte &&& PTE_V = 0 ∧ s2.kmem = s.kmem ∧ SameVma s s2 ∧ s2.log = s.log ∧
      ∀ v, v &&& PTE_V ≠ 0 → ∀ i j k, i < 512 → j < 512 → k < 512 →
        entryIdx (Function.update s2.mem pte v) s.p.pagetable i j k =
          if i = PX 2 va ∧ j = PX 1 va ∧ k = PX 0 va then some v
          else entryIdx s.mem s.p.pagetable i j k := by
  obtain ⟨t1, h1, hv1, ht0⟩ := tab0_some h0
  obtain ⟨hv2, ht1⟩ := tab1_some h1
  have hi0 := PX_lt 2 va
  have hj0 := PX_lt 1 va
  have hk0 := PX_lt 0 va
  have hne := ht.tab0_ne _ _ _ hi0 hj0 h0
  have hpte : t0 + 8 * PX 0 va ≠ 0 := by omega
  have hinv : s.mem (t0 + 8 * PX 0 va) &&& PTE_V = 0 := by
    rw [entryIdx_of_tab0 h0, if_neg hpte] at hun
    by_contra hc
    simp [hc] at hun
  refine ⟨t0 + 8 * PX 0 va, s, ?_, hpte, hinv, rfl, SameVma.refl s, rfl, ?_⟩
  · unfold walk
    have : ¬ va ≥ L.MAXVA := by omega
    simp only [this, if_false]
    rw [walk_level_valid s _ va true 2 hv2]
    simp only []
    rw [← ht1, walk_level_valid s _ va true 1 hv1]
    simp only []
    rw [← ht0]
  · intro v hv i j k hi hj hk
    exact (leaf_store s.mem s.p.pagetable _ _ _ t0 v hi0 hj0 hk0 h0 hne hv
      (ht.root_tab0 _ _ _ hi0 hj0 h0)
      (fun i t hi h => ht.tab1_tab0 i _ _ t t0 hi hi0 hj0 h h0)
      (fun i j t hi hj hij h => ht.tab0_tab0 i j _ _ t t0 hi hj hi0 hj0 h h0 hij)
      i j k hi hj hk).2.2

/-- Case "the level-0 table is missing" of `walk` with allocation. -/
theorem walk_alloc_level0 (L : Layout) (s : State) (va t1 f : Nat) (rest : List Nat)
    (hva : va < L.MAXVA)
    (ht : PtTree s.mem s.p.pagetable) (hfr : FramesFree s.mem s.p.pagetable s.kmem)
    (h1 : tab1 s.mem s.p.pagetable (PX 2 va) = some t1)
    (h0 : tab0 s.mem s.p.pagetable (PX 2 va) (PX 1 va) = none)
    (hk : s.kmem = f :: rest) :
    ∃ pte s2, walk L s s.p.pagetable va true = Outcome.ret pte s2 ∧ pte ≠ 0 ∧
      s2.mem pte &&& PTE_V = 0 ∧ s2.kmem = rest ∧ SameVma s s2 ∧ s2.log = s.log ∧
      ∀ v, v &&& PTE_V ≠ 0 → ∀ i j k, i < 512 → j < 512 → k < 512 →
        entryIdx (Function.update s2.mem pte v) s.p.pagetable i j k =
          if i = PX 2 va ∧ j = PX 1 va ∧ k = PX 0 va then some v
          else entryIdx s.mem s.p.pagetable i j k := by
  obtain ⟨hv2, ht1⟩ := tab1_some h1
  have hi0 := PX_lt 2 va
  have hj0 := PX_lt 1 va
  have hk0 := PX_lt 0 va
  have hinv : s.mem (t1 + 8 * PX 1 va) &&& PTE_V = 0 := by
    rw [tab0_of_tab1 h1] at h0
    by_contra hc
    simp [hc] at h0
  have hfm : f ∈ s.kmem := by rw [hk]; exact List.mem_cons_self _ _
  obtain ⟨hfne, hf0, hflt⟩ := hfr.free_ok f hfm
  have hinst := table0_install s.mem s.p.pagetable (PX 2 va) (PX 1 va) t1 f hi0 hj0 h1 hinv
    hf0 hflt (hfr.free_root f hfm) (hfr.free_tab1 f hfm) (hfr.free_tab0 f hfm)
    (ht.root_tab1 _ _ hi0 h1)
    (fun i t hi hne h => ht.tab1_tab1 i _ t t1 hi hi0 h h1 hne)
    (fun i j t hi hj h => ht.tab1_tab0 _ i j t1 t hi0 hi hj h1 h)
  refine ⟨f + 8 * PX 0 va,
    (({ s with kmem := rest } : State).zeroPage f).store (t1 + 8 * PX 1 va) (PA2PTE f ||| PTE_V),
    ?_, by omega, ?_, rfl, ⟨rfl, rfl, rfl, rfl, rfl⟩, rfl, ?_⟩
  · unfold walk
    have : ¬ va ≥ L.MAXVA := by omega
    simp only [this, if_false]
    rw [walk_level_valid s _ va true 2 hv2]
    simp only []
    rw [← ht1, walk_level_alloc s t1 va 1 f rest hinv hk hfne]
  · have h := (hinst 0 0 (PX 0 va) (by decide) (by decide) hk0).2.2.2
    show (Function.update (fun x => if f ≤ x ∧ x < f + PGSIZE then 0 else s.mem x)
      (t1 + 8 * PX 1 va) (PA2PTE f ||| PTE_V)) (f + 8 * PX 0 va) &&& PTE_V = 0
    rw [h]
    exact zero_invalid
  · intro v hv i j k hi hj hk
    show entryIdx (Function.update
      (Function.update (fun x => if f ≤ x ∧ x < f + PGSIZE then 0 else s.mem x)
        (t1 + 8 * PX 1 va) (PA2PTE f ||| PTE_V)) (f + 8 * PX 0 va) v) s.p.pagetable i j k = _
    have hnew0 := (hinst (PX 2 va) (PX 1 va) 0 hi0 hj0 (by decide)).2.1
    rw [if_pos ⟨rfl, rfl⟩] at hnew0
    have hls := leaf_store _ s.p.pagetable (PX 2 va) (PX 1 va) (PX 0 va) f v hi0 hj0 hk0
      hnew0 hfne hv (sepPage_symm (hfr.free_root f hfm))
      (fun i t hi h => by
        rw [(hinst i 0 0 hi (by decide) (by decide)).1] at h
        exact sepPage_symm (hfr.free_tab1 f hfm i t hi h))
      (fun i j t hi hj hij h => by
        rw [(hinst i j 0 hi hj (by decide)).2.1, if_neg (by tauto)] at h
        exact sepPage_symm (hfr.free_tab0 f hfm i j t hi hj h))
    rw [(hls i j k hi hj hk).2.2, (hinst i j k hi hj hk).2.2.1]

/-- Case "the level-1 table is missing" of `walk` with allocation. -/
theorem walk_alloc_level1 (L : Layout) (s : State) (va f g : Nat) (rest : List Nat)
    (hva : va < L.MAXVA)
    (ht : PtTree s.mem s.p.pagetable) (hfr : FramesFree s.mem s.p.pagetable s.kmem)
    (h1 : tab1 s.mem s.p.pagetable (PX 2 va) = none)
    (hk : s.kmem = f :: g :: rest) :
    ∃ pte s2, walk L s s.p.pagetable va true = Outcome.ret pte s2 ∧ pte ≠ 0 ∧
      s2.mem pte &&& PTE_V = 0 ∧ s2.kmem = rest ∧ SameVma s s2 ∧ s2.log = s.log ∧
      ∀ v, v &&& PTE_V ≠ 0 → ∀ i j k, i < 512 → j < 512 → k < 512 →
        entryIdx (Function.update s2.mem pte v) s.p.pagetable i j k =
          if i = PX 2 va ∧ j = PX 1 va ∧ k = PX 0 va then some v
          else entryIdx s.mem s.p.pagetable i j k := by
  have hi0 := PX_lt 2 va
  have hj0 := PX_lt 1 va
  have hk0 := PX_lt 0 va
  have hinv2 := tab1_none h1
  have hfm : f ∈ s.kmem := by rw [hk]; exact List.mem_cons_self _ _
  have hgm : g ∈ s.kmem := by
    rw [hk]; exact List.mem_cons_of_mem _ (List.mem_cons_self _ _)
  obtain ⟨hfne, hf0, hflt⟩ := hfr.free_ok f hfm
  obtain ⟨hgne, hg0, hglt⟩ := hfr.free_ok g hgm
  have hfg : sepPage f g := by
    have := hfr.free_sep
    rw [hk, List.pairwise_cons] at this
    exact this.1 g (List.mem_cons_self _ _)
  -- the level-1 table
  have hin1 := table1_install s.mem s.p.pagetable (PX 2 va) f hi0 hinv2 hf0 hflt
    (hfr.free_root f hfm) (hfr.free_tab1 f hfm) (hfr.free_tab0 f hfm)
    ht.root_tab1 ht.root_tab0
  generalize hm2 : (Function.update (fun x => if f ≤ x ∧ x < f + PGSIZE then 0 else s.mem x)
      (s.p.pagetable + 8 * PX 2 va) (PA2PTE f ||| PTE_V)) = m2 at hin1
  have e1 : ∀ i, i < 512 → tab1 m2 s.p.pagetable i
      = if i = PX 2 va then some f else tab1 s.mem s.p.pagetable i :=
    fun i hi => (hin1 i 0 0 hi (by decide) (by decide)).1
  have e0 : ∀ i j, i < 512 → j < 512 → tab0 m2 s.p.pagetable i j
      = if i = PX 2 va then none else tab0 s.mem s.p.pagetable i j :=
    fun i j hi hj => (hin1 i j 0 hi hj (by decide)).2.1
  have h1' : tab1 m2 s.p.pagetable (PX 2 va) = some f := by rw [e1 _ hi0, if_pos rfl]
  have hinv1 : m2 (f + 8 * PX 1 va) &&& PTE_V = 0 := by
    rw [(hin1 0 (PX 1 va) 0 (by decide) hj0 (by decide)).2.2.2]
    exact zero_invalid
  -- the level-0 table
  have hin0 := table0_install m2 s.p.pagetable (PX 2 va) (PX 1 va) f g hi0 hj0 h1' hinv1
    hg0 hglt (hfr.free_root g hgm)
    (fun i t hi h => by
      rw [e1 i hi] at h
      split_ifs at h with hc
      · injection h with h; subst h; exact sepPage_symm hfg
      · exact hfr.free_tab1 g hgm i t hi h)
    (fun i j t hi hj h => by
      rw [e0 i j hi hj] at h
      split_ifs at h with hc
      exact hfr.free_tab0 g hgm i j t hi hj h)
    (sepPage_symm (hfr.free_root f hfm))
    (fun i t hi hne h => by
      rw [e1 i hi, if_neg hne] at h
      exact sepPage_symm (hfr.free_tab1 f hfm i t hi h))
    (fun i j t hi hj h => by
      rw [e0 i j hi hj] at h
      split_ifs at h with hc
      exact hfr.free_tab0 f hfm i j t hi hj h)
  generalize hm3 : (Function.update (fun x => if g ≤ x ∧ x < g + PGSIZE then 0 else m2 x)
      (f + 8 * PX 1 va) (PA2PTE g ||| PTE_V)) = m3 at hin0
  let s2 : State := (({ s with kmem := g :: rest } : State).zeroPage f).store
    (s.p.pagetable + 8 * PX 2 va) (PA2PTE f ||| PTE_V)
  let s3 : State := (({ s2 with kmem := rest } : State).zeroPage g).store
    (f + 8 * PX 1 va) (PA2PTE g ||| PTE_V)
  have hs2m : s2.mem = m2 := hm2
  have hs3m : s3.mem = m3 := by
    show Function.update (fun x => if g ≤ x ∧ x < g + PGSIZE then 0 else s2.mem x)
      (f + 8 * PX 1 va) (PA2PTE g ||| PTE_V) = m3
    rw [hs2m]
    exact hm3
  refine ⟨g + 8 * PX 0 va, s3, ?_, by omega, ?_, rfl, ⟨rfl, rfl, rfl, rfl, rfl⟩, rfl, ?_⟩
  · unfold walk
    have : ¬ va ≥ L.MAXVA := by omega
    simp only [this, if_false]
    rw [walk_level_alloc s _ va 2 f (g :: rest) hinv2 hk hfne]
    simp only []
    have hinv1' : s2.mem (f + 8 * PX 1 va) &&& PTE_V = 0 := by rw [hs2m]; exact hinv1
    rw [walk_level_alloc s2 f va 1 g rest hinv1' rfl hgne]
  · rw [hs3m, (hin0 0 0 (PX 0 va) (by decide) (by decide) hk0).2.2.2]
    exact zero_invalid
  · intro v hv i j k hi hj hk
    rw [hs3m]
    have hnew0 := (hin0 (PX 2 va) (PX 1 va) 0 hi0 hj0 (by decide)).2.1
    rw [if_pos ⟨rfl, rfl⟩] at hnew0
    have hls := leaf_store m3 s.p.pagetable (PX 2 va) (PX 1 va) (PX 0 va) g v hi0 hj0 hk0
      hnew0 hgne hv (sepPage_symm (hfr.free_root g hgm))
      (fun i t hi h => by
        rw [(hin0 i 0 0 hi (by decide) (by decide)).1, e1 i hi] at h
        split_ifs at h with hc
        · injection h with h; subst h; exact hfg
        · exact sepPage_symm (hfr.free_tab1 g hgm i t hi h))
      (fun i j t hi hj hij h => by
        rw [(hin0 i j 0 hi hj (by decide)).2.1, if_neg (by tauto), e0 i j hi hj] at h
        split_ifs at h with hc
        exact sepPage_symm (hfr.free_tab0 g hgm i j t hi hj h))
    rw [(hls i j k hi hj hk).2.2, (hin0 i j k hi hj hk).2.2.1, (hin1 i j k hi hj hk).2.2.1]

/-- The three cases of `walk` with allocation together: when the entry of
`va` is not valid and enough frames are free, `walk` returns the address of a
non-valid leaf word; storing a valid entry there makes it the translation of
the page of `va` and changes no other entry. -/
theorem walk_alloc_entry (L : Layout) (s : State) (va : Nat) (hva : va < L.MAXVA)
    (ht : PtTree s.mem s.p.pagetable) (hfr : FramesFree s.mem s.p.pagetable s.kmem)
    (hfree : framesNeeded s.mem s.p.pagetable va ≤ s.kmem.length + 1)
    (hun : entryIdx s.mem s.p.pagetable (PX 2 va) (PX 1 va) (PX 0 va) = none) :
    ∃ pte s2, walk L s s.p.pagetable va true = Outcome.ret pte s2 ∧ pte ≠ 0 ∧
      s2.mem pte &&& PTE_V = 0 ∧
      s2.kmem = s.kmem.drop (framesNeeded s.mem s.p.pagetable va - 1) ∧
      SameVma s s2 ∧ s2.log = s.log ∧
      ∀ v, v &&& PTE_V ≠ 0 → ∀ i j k, i < 512 → j < 512 → k < 512 →
        entryIdx (Function.update s2.mem pte v) s.p.pagetable i j k =
          if i = PX 2 va ∧ j = PX 1 va ∧ k = PX 0 va then some v
          else entryIdx s.mem s.p.pagetable i j k := by
  cases h1 : tab1 s.mem s.p.pagetable (PX 2 va) with
  | none =>
      have hn : framesNeeded s.mem s.p.pagetable va = 3 := by
        unfold framesNeeded; rw [h1]
      rw [hn] at hfree ⊢
      obtain ⟨f, g, rest, hk⟩ : ∃ f g rest, s.kmem = f :: g :: rest := by
        cases hkm : s.kmem with
        | nil => rw [hkm] at hfree; simp at hfree
        | cons f r =>
            cases r with
            | nil => rw [hkm] at hfree; simp at hfree
            | cons g rest => exact ⟨f, g, rest, rfl⟩
      obtain ⟨pte, s2, hw, hp, hi, hkm, hrest⟩ :=
        walk_alloc_level1 L s va f g rest hva ht hfr h1 hk
      exact ⟨pte, s2, hw, hp, hi, by rw [hkm, hk]; rfl, hrest⟩
  | some t1 =>
      cases h0 : tab0 s.mem s.p.pagetable (PX 2 va) (PX 1 va) with
      | none =>
          have hn : framesNeeded s.mem s.p.pagetable va = 2 := by
            unfold framesNeeded; rw [h1, h0]
          rw [hn] at hfree ⊢
          obtain ⟨f, rest, hk⟩ : ∃ f rest, s.kmem = f :: rest := by
            cases hkm : s.kmem with
            | nil => rw [hkm] at hfree; simp at hfree
            | cons f r => exact ⟨f, r, rfl⟩
          obtain ⟨pte, s2, hw, hp, hi, hkm, hrest⟩ :=
            walk_alloc_level0 L s va t1 f rest hva ht hfr h1 h0 hk
          exact ⟨pte, s2, hw, hp, hi, by rw [hkm, hk]; rfl, hrest⟩
      | some t0 =>
          have hn : framesNeeded s.mem s.p.pagetable va = 1 := by
            unfold framesNeeded; rw [h1, h0]
          rw [hn]
          obtain ⟨pte, s2, hw, hp, hi, hkm, hrest⟩ := walk_alloc_present L s va t0 hva ht h0 hun
          exact ⟨pte, s2, hw, hp, hi, by rw [hkm]; rfl, hrest⟩

/-- The call of `uvmalloc` for one page: what it does once the frame `f` is taken and
`walk` has returned the leaf word `pte` of the page. -/
theorem uvmalloc_one_page (L : Layout) (s : State) (fuel page perm f : Nat) (rest : List Nat)
    (hal : page % PGSIZE = 0) (hlt : page + PGSIZE < 2 ^ 64) (hperm : perm ≠ 0)
    (hfuel : 2 ≤ fuel) (hk : s.kmem = f :: rest) (hf : f ≠ 0) (pte : Nat) (s2 : State)
    (hw : walk L (({ s with kmem := rest } : State).zeroPage f) s.p.pagetable page true
      = Outcome.ret pte s2)
    (hpte : pte ≠ 0) (hinv : s2.mem pte &&& PTE_V = 0) :
    uvmalloc L fuel s s.p.pagetable page (u64 (page + PGSIZE)) perm
      = Outcome.ret (page + PGSIZE) (s2.store pte (PA2PTE f ||| perm ||| PTE_V)) := by
  obtain ⟨n, rfl⟩ : ∃ n, fuel = n + 2 := ⟨fuel - 2, by omega⟩
  have hu : u64 (page + PGSIZE) = page + PGSIZE := u64_of_lt hlt
  have hup : PGROUNDUP page = page := by
    unfold PGROUNDUP PGROUNDDOWN u64 PGSIZE at *
    omega
  have hdown : PGROUNDDOWN page = page := by
    unfold PGROUNDDOWN PGSIZE at *
    omega
  have hlast : PGROUNDDOWN (sub64 (u64 (page + PGSIZE)) 1) = page := by
    unfold PGROUNDDOWN sub64 u64 PGSIZE at *
    omega
  have hka : kalloc s = (f, ({ s with kmem := rest } : State)) := by
    unfold kalloc; rw [hk]
  unfold uvmalloc
  have h1 : ¬ (u64 (page + PGSIZE) < page) := by rw [hu]; omega
  simp only [h1, if_false, hperm, hup]
  unfold uvmalloc_loop
  have h2 : page < u64 (page + PGSIZE) := by rw [hu]; unfold PGSIZE; omega
  simp only [h2, if_true, hka, hf, if_false]
  unfold mappages
  rw [hlast, hdown]
  unfold mappages_loop
  rw [hw]
  simp only [hpte, if_false, hinv, ne_eq, not_true_eq_false, if_true]
  unfold uvmalloc_loop
  have h3 : ¬ (u64 (page + PGSIZE) < u64 (page + PGSIZE)) := lt_irrefl _
  rw [if_neg h3, hu]

theorem mmap_prot_ne_zero (L : Layout) (prot : Nat) : mmap_prot L prot ≠ 0 := by
  unfold mmap_prot
  simp only []
  split_ifs <;> decide

/-! ### A fault inside a region -/

theorem mtrap_loop_skip_seg (L : Layout) (r : Int) (addr : Nat) (s : State) :
    ∀ (pre : List Nat) (n : Nat) (h t : Option Nat),
      Seg s.vma_cache h pre t →
      (∀ j ∈ pre, ¬ ((s.vma_cache j).start ≤ addr ∧ addr < (s.vma_cache j).end_)) →
      mtrap_loop L r addr (pre.length + n) s h = mtrap_loop L r addr n s t := by
  intro pre
  induction pre with
  | nil =>
      intro n h t hseg _
      simp only [Seg] at hseg
      subst hseg
      simp
  | cons j pre ih =>
      intro n h t hseg hout
      obtain ⟨rfl, hseg'⟩ := hseg
      have hj := hout j (List.mem_cons_self _ _)
      have hskip : addr < (s.vma_cache j).start ∨ addr ≥ (s.vma_cache j).end_ := by omega
      have hlen : (j :: pre).length + n = (pre.length + n) + 1 := by simp; omega
      rw [hlen]
      simp only [mtrap_loop, hskip, if_true]
      exact ih n _ t hseg' (fun k hk => hout k (List.mem_cons_of_mem _ hk))

theorem framesNeeded_pos (m : Nat → Nat) (root va : Nat) : 1 ≤ framesNeeded m root va := by
  unfold framesNeeded
  cases tab1 m root (PX 2 va) with
  | none => simp
  | some t =>
      simp only []
      cases tab0 m root (PX 2 va) (PX 1 va) with
      | none => simp
      | some t0 => simp

/-- C8, as amended: let the page of the fault address lie below `MAXVA`
(at most `2^39`) inside the region of slot `a`, the first such region of the
null-terminated VMA list, with non-zero permission bits (`mmap` always stores
`PTE_U`); let the page table be a tree, the free frames be distinct pages
outside it, the page have no valid leaf entry, the free list hold the frames
needed (one, plus one per missing page-table page), and `fileread` not fail.
Then `mtrap` returns 0; the leaf entry of the page becomes
`PA2PTE(f) | page_prot | PTE_V` for the first free frame `f`; the translation
of every other page is unchanged; exactly the needed frames are taken; the
VMA list and pool are unchanged; and the file layer sees exactly one seek to
`pgoff + (page - start)` followed by one read of `PGSIZE` bytes into the page
when the region has a backing file that is readable, and nothing when it has
no backing file or the file is not readable. -/
theorem mtrap_maps_one_page (L : Layout) (s : State) (r : Int) (fault fuel : Nat)
    (l1 l2 : List Nat) (a : Nat)
    (hMAXVA : L.MAXVA ≤ 2 ^ 39)
    (hl : Chain s.vma_cache s.p.mmap (l1 ++ a :: l2))
    (hbefore : ∀ j ∈ l1, ¬ ((s.vma_cache j).start ≤ PGROUNDDOWN fault
                            ∧ PGROUNDDOWN fault < (s.vma_cache j).end_))
    (hin : (s.vma_cache a).start ≤ PGROUNDDOWN fault
           ∧ PGROUNDDOWN fault < (s.vma_cache a).end_)
    (hva : PGROUNDDOWN fault < L.MAXVA)
    (hprot : (s.vma_cache a).page_prot ≠ 0)
    (ht : PtTree s.mem s.p.pagetable) (hfr : FramesFree s.mem s.p.pagetable s.kmem)
    (hfree : framesNeeded s.mem s.p.pagetable (PGROUNDDOWN fault) ≤ s.kmem.length)
    (hun : translation L s (PGROUNDDOWN fault) = none)
    (hr : 0 ≤ r)
    (hfuel : l1.length + 3 ≤ fuel) :
    ∃ s' f, mtrap L fuel s r fault = Outcome.ret 0 s' ∧ s.kmem.head? = some f ∧
      translation L s' (PGROUNDDOWN fault)
        = some (PA2PTE f ||| (s.vma_cache a).page_prot ||| PTE_V) ∧
      (∀ va, PGROUNDDOWN va ≠ PGROUNDDOWN fault →
        translation L s' va = translation L s va) ∧
      s'.kmem = s.kmem.drop (framesNeeded s.mem s.p.pagetable (PGROUNDDOWN fault)) ∧
      s'.log = s.log ++
        (if (s.vma_cache a).file ≠ 0 ∧ s.readable (s.vma_cache a).file = true then
          [FileOp.lseek (s.vma_cache a).file ((s.vma_cache a).filePos (PGROUNDDOWN fault)),
           FileOp.read (s.vma_cache a).file (PGROUNDDOWN fault) PGSIZE]
         else []) ∧
      SameVma s s' := by
  generalize hpage : PGROUNDDOWN fault = page at *
  have hpal : page % PGSIZE = 0 := by rw [← hpage]; exact PGROUNDDOWN_aligned _
  have hi0 := PX_lt 2 page
  have hj0 := PX_lt 1 page
  have hk0 := PX_lt 0 page
  -- the free list
  have hpos := framesNeeded_pos s.mem s.p.pagetable page
  obtain ⟨f, rest, hk⟩ : ∃ f rest, s.kmem = f :: rest := by
    cases hkm : s.kmem with
    | nil => rw [hkm] at hfree; simp at hfree; omega
    | cons f r => exact ⟨f, r, rfl⟩
  have hfm : f ∈ s.kmem := by rw [hk]; exact List.mem_cons_self _ _
  obtain ⟨hfne, hf0, hflt⟩ := hfr.free_ok f hfm
  rw [hk] at hfr
  -- the state after the frame for the page has been taken and cleared
  let s1 : State := ({ s with kmem := rest } : State).zeroPage f
  have hz := zero_free_frame s.mem s.p.pagetable f rest ht hfr
  obtain ⟨ht1, hfr1⟩ := zero_free_tree s.mem s.p.pagetable f rest ht hfr
  have hneed : framesNeeded s1.mem s1.p.pagetable page = framesNeeded s.mem s.p.pagetable page := by
    have h := hz (PX 2 page) (PX 1 page) 0 hi0 hj0 (by decide)
    show framesNeeded (fun x => if f ≤ x ∧ x < f + PGSIZE then 0 else s.mem x) s.p.pagetable page = _
    unfold framesNeeded
    rw [h.1, h.2.1]
  have hun0 : entryIdx s.mem s.p.pagetable (PX 2 page) (PX 1 page) (PX 0 page) = none := by
    rw [translation_eq, if_neg (by omega)] at hun
    exact hun
  have hun1 : entryIdx s1.mem s1.p.pagetable (PX 2 page) (PX 1 page) (PX 0 page) = none := by
    show entryIdx (fun x => if f ≤ x ∧ x < f + PGSIZE then 0 else s.mem x) s.p.pagetable _ _ _ = _
    rw [(hz _ _ _ hi0 hj0 hk0).2.2]
    exact hun0
  obtain ⟨pte, s2, hw, hpte, hinv, hkm2, hsame2, hlog2, hent⟩ :=
    walk_alloc_entry L s1 page hva ht1 hfr1
      (by rw [hneed]; show _ ≤ rest.length + 1; rw [hk] at hfree; simpa using hfree) hun1
  have hlt : page + PGSIZE < 2 ^ 64 := by unfold PGSIZE; omega
  -- the loop of `mtrap` reaches the region
  obtain ⟨m0, hseg1, hseg2⟩ := (seg_append s.vma_cache l1 (a :: l2) _ none).1
    ((chain_iff_seg _ _ _).1 hl)
  obtain ⟨rfl, _⟩ := hseg2
  obtain ⟨n, rfl⟩ : ∃ n, fuel = l1.length + (n + 3) := ⟨fuel - l1.length - 3, by omega⟩
  have hcall : mtrap L (l1.length + (n + 3)) s r fault
      = mtrap_loop L r page (n + 3) s (some a) := by
    unfold mtrap
    rw [hpage]
    exact mtrap_loop_skip_seg L r page s l1 (n + 3) _ _ hseg1 hbefore
  have hualloc := uvmalloc_one_page L s (n + 2) page (s.vma_cache a).page_prot f rest hpal hlt
    hprot (by omega) hk hfne pte s2 hw hpte hinv
  obtain ⟨leaf, hleaf⟩ : ∃ leaf, leaf = PA2PTE f ||| (s.vma_cache a).page_prot ||| PTE_V :=
    ⟨_, rfl⟩
  rw [← hleaf] at hualloc
  have hleafv : leaf &&& PTE_V ≠ 0 := by rw [hleaf]; exact or_V_valid _
  let s3 : State := s2.store pte leaf
  have hs3 : SameVma s s3 := by
    obtain ⟨c1, c2, c3, c4, c5⟩ := hsame2
    exact ⟨c1, c2, c3, c4, c5⟩
  have hnot : ¬ (page < (s.vma_cache a).start ∨ page ≥ (s.vma_cache a).end_) := by omega
  have hsz : page + PGSIZE ≠ 0 := by unfold PGSIZE; omega
  have hrn : ¬ r < 0 := by omega
  -- the entries of the final page table
  have hentry : ∀ i j k, i < 512 → j < 512 → k < 512 →
      entryIdx s3.mem s.p.pagetable i j k =
        if i = PX 2 page ∧ j = PX 1 page ∧ k = PX 0 page then some leaf
        else entryIdx s.mem s.p.pagetable i j k := by
    intro i j k hi hj hk
    have h := hent leaf hleafv i j k hi hj hk
    have h' : entryIdx s1.mem s1.p.pagetable i j k = entryIdx s.mem s.p.pagetable i j k :=
      (hz i j k hi hj hk).2.2
    rw [h'] at h
    exact h
  have htrans_page : ∀ t : State, t.mem = s3.mem → t.p = s.p →
      translation L t page = some leaf := by
    intro t htm htp
    rw [translation_eq, if_neg (by omega), htm, htp, hentry _ _ _ hi0 hj0 hk0,
      if_pos ⟨rfl, rfl, rfl⟩]
  have htrans_other : ∀ t : State, t.mem = s3.mem → t.p = s.p →
      ∀ va, PGROUNDDOWN va ≠ page → translation L t va = translation L s va := by
    intro t htm htp va hne
    rw [translation_eq, translation_eq, htm, htp]
    by_cases hge : va ≥ L.MAXVA
    · rw [if_pos hge, if_pos hge]
    · rw [if_neg hge, if_neg hge, hentry _ _ _ (PX_lt 2 va) (PX_lt 1 va) (PX_lt 0 va)]
      have : ¬ (PX 2 va = PX 2 page ∧ PX 1 va = PX 1 page ∧ PX 0 va = PX 0 page) := by
        rintro ⟨h2, h1, h0⟩
        apply hne
        have hd : PGROUNDDOWN va ≤ va := Nat.sub_le _ _
        exact PX_inj (PGROUNDDOWN va) page (by omega) (by omega) (PGROUNDDOWN_aligned va) hpal
          (by rw [PX_PGROUNDDOWN]; exact h2) (by rw [PX_PGROUNDDOWN]; exact h1)
          (by rw [PX_PGROUNDDOWN]; exact h0)
      rw [if_neg this]
  have hkm3 : s3.kmem = s.kmem.drop (framesNeeded s.mem s.p.pagetable page) := by
    show s2.kmem = _
    rw [hkm2, hneed, hk]
    show List.drop _ rest = _
    obtain ⟨q, hq⟩ : ∃ q, framesNeeded s.mem s.p.pagetable page = q + 1 :=
      ⟨framesNeeded s.mem s.p.pagetable page - 1, by omega⟩
    rw [hq]
    simp
  have hlog3 : s3.log = s.log := hlog2
  have hvc : (s2.store pte leaf).vma_cache a = s.vma_cache a := by
    show s3.vma_cache a = _
    rw [hs3.1]
  have hrd : (s2.store pte leaf).readable = s.readable := hs3.2.2.2.1
  by_cases hfile : (s.vma_cache a).file ≠ 0 ∧ s.readable (s.vma_cache a).file = true
  · rw [hleaf] at htrans_page
    refine ⟨(s3.emit (FileOp.lseek (s.vma_cache a).file ((s.vma_cache a).filePos page))).emit
      (FileOp.read (s.vma_cache a).file page PGSIZE), f, ?_, by rw [hk]; rfl,
      htrans_page _ rfl hs3.2.2.1, htrans_other _ rfl hs3.2.2.1, hkm3, ?_, ?_⟩
    · rw [hcall]
      unfold mtrap_loop
      simp only [hnot, if_false, hualloc, hsz, hvc, hrd]
      rw [if_pos hfile, if_neg hrn]
    · rw [if_pos hfile]
      show (s3.log ++ _) ++ _ = _
      rw [hlog3]
      simp
    · obtain ⟨c1, c2, c3, c4, c5⟩ := hs3
      exact ⟨c1, c2, c3, c4, c5⟩
  · rw [hleaf] at htrans_page
    refine ⟨s3, f, ?_, by rw [hk]; rfl, htrans_page _ rfl hs3.2.2.1,
      htrans_other _ rfl hs3.2.2.1, hkm3, ?_, hs3⟩
    · rw [hcall]
      unfold mtrap_loop
      simp only [hnot, if_false, hualloc, hsz, hvc, hrd]
      rw [if_neg hfile]
    · rw [if_neg hfile, hlog3]
      simp

/-! ### Write-back in `_mfree` -/

/-- Storing any word into the leaf slot `(i0, j0, k0)` changes that entry and
nothing else. -/
theorem leaf_store_any (m : Nat → Nat) (root i0 j0 k0 t0 v : Nat)
    (hi0 : i0 < 512) (hj0 : j0 < 512) (hk0 : k0 < 512)
    (h0 : tab0 m root i0 j0 = some t0) (hne : t0 ≠ 0)
    (hroot : sepPage root t0)
    (h1s : ∀ i t, i < 512 → tab1 m root i = some t → sepPage t t0)
    (h0s : ∀ i j t, i < 512 → j < 512 → (i ≠ i0 ∨ j ≠ j0) → tab0 m root i j = some t →
      sepPage t t0) :
    ∀ i j k, i < 512 → j < 512 → k < 512 →
      tab1 (Function.update m (t0 + 8 * k0) v) root i = tab1 m root i ∧
      tab0 (Function.update m (t0 + 8 * k0) v) root i j = tab0 m root i j ∧
      entryIdx (Function.update m (t0 + 8 * k0) v) root i j k =
        if i = i0 ∧ j = j0 ∧ k = k0 then (if v &&& PTE_V = 0 then none else some v)
        else entryIdx m root i j k := by
  intro i j k hi hj hk
  unfold sepPage PGSIZE at hroot
  have e1 : tab1 (Function.update m (t0 + 8 * k0) v) root i = tab1 m root i := by
    unfold tab1
    rw [Function.update_noteq (by omega)]
  have e0 : tab0 (Function.update m (t0 + 8 * k0) v) root i j = tab0 m root i j := by
    unfold tab0
    rw [e1]
    cases ht : tab1 m root i with
    | none => rfl
    | some t =>
        have h := h1s i t hi ht
        unfold sepPage PGSIZE at h
        simp only []
        rw [Function.update_noteq (by omega)]
  refine ⟨e1, e0, ?_⟩
  cases ht : tab0 m root i j with
  | none =>
      rw [entryIdx_of_no_tab0 (e0.trans ht), entryIdx_of_no_tab0 ht]
      have : ¬ (i = i0 ∧ j = j0 ∧ k = k0) := by
        rintro ⟨rfl, rfl, _⟩
        rw [h0] at ht
        exact absurd ht (by simp)
      rw [if_neg this]
  | some t =>
      rw [entryIdx_of_tab0 (e0.trans ht), entryIdx_of_tab0 ht]
      by_cases hc : i = i0 ∧ j = j0 ∧ k = k0
      · obtain ⟨rfl, rfl, rfl⟩ := hc
        rw [h0] at ht
        injection ht with ht
        subst ht
        have hz : t0 + 8 * k ≠ 0 := by omega
        simp [hz]
      · rw [if_neg hc]
        have hneq : t + 8 * k ≠ t0 + 8 * k0 := by
          by_cases hij : i ≠ i0 ∨ j ≠ j0
          · have h := h0s i j t hi hj hij ht
            unfold sepPage PGSIZE at h
            omega
          · have hi' : i = i0 := by
              by_contra hx; exact hij (Or.inl hx)
            have hj' : j = j0 := by
              by_contra hx; exact hij (Or.inr hx)
            subst hi' hj'
            rw [h0] at ht
            injection ht with ht
            subst ht
            have : k ≠ k0 := fun hx => hc ⟨rfl, rfl, hx⟩
            omega
        rw [Function.update_noteq hneq]

/-- Being a tree only depends on which tables the entries lead to. -/
theorem PtTree_congr (m m' : Nat → Nat) (root : Nat)
    (e1 : ∀ i, i < 512 → tab1 m' root i = tab1 m root i)
    (e0 : ∀ i j, i < 512 → j < 512 → tab0 m' root i j = tab0 m root i j)
    (ht : PtTree m root) : PtTree m' root := by
  constructor
  · intro i t hi h; rw [e1 i hi] at h; exact ht.root_tab1 i t hi h
  · intro i j t hi hj h; rw [e0 i j hi hj] at h; exact ht.root_tab0 i j t hi hj h
  · intro i i' t t' hi hi' h h' hne
    rw [e1 i hi] at h; rw [e1 i' hi'] at h'
    exact ht.tab1_tab1 i i' t t' hi hi' h h' hne
  · intro i i' j' t t' hi hi' hj' h h'
    rw [e1 i hi] at h; rw [e0 i' j' hi' hj'] at h'
    exact ht.tab1_tab0 i i' j' t t' hi hi' hj' h h'
  · intro i j i' j' t t' hi hj hi' hj' h h' hne
    rw [e0 i j hi hj] at h; rw [e0 i' j' hi' hj'] at h'
    exact ht.tab0_tab0 i j i' j' t t' hi hj hi' hj' h h' hne
  · intro i j t hi hj h; rw [e0 i j hi hj] at h; exact ht.tab0_ne i j t hi hj h

theorem clearD_valid (e : Nat) : (e &&& (2 ^ 64 - 1 - PTE_D)) &&& PTE_V = e &&& PTE_V := by
  rw [Nat.and_assoc]
  have : (2 ^ 64 - 1 - PTE_D) &&& PTE_V = PTE_V := by decide
  rw [this]

theorem clearD_clean (e : Nat) : (e &&& (2 ^ 64 - 1 - PTE_D)) &&& PTE_D = 0 := by
  rw [Nat.and_assoc]
  have : (2 ^ 64 - 1 - PTE_D) &&& PTE_D = 0 := by decide
  rw [this]
  exact Nat.and_zero _

/-- A store into the leaf word of the page `addr`: the page table stays a
tree, the translation of `addr` becomes the stored word (when valid) and the
translation of every other page is unchanged. -/
theorem store_leaf_translation (L : Layout) (s t : State) (addr t0 v : Nat)
    (hMAXVA : L.MAXVA ≤ 2 ^ 39) (hal : addr % PGSIZE = 0) (hlt : addr < L.MAXVA)
    (ht : PtTree s.mem s.p.pagetable)
    (h0 : tab0 s.mem s.p.pagetable (PX 2 addr) (PX 1 addr) = some t0)
    (hmem : t.mem = Function.update s.mem (t0 + 8 * PX 0 addr) v) (hp : t.p = s.p) :
    PtTree t.mem t.p.pagetable ∧
    translation L t addr = (if v &&& PTE_V = 0 then none else some v) ∧
    (∀ x, PGROUNDDOWN x ≠ addr → translation L t x = translation L s x) := by
  have hi0 := PX_lt 2 addr
  have hj0 := PX_lt 1 addr
  have hk0 := PX_lt 0 addr
  have hls := leaf_store_any s.mem s.p.pagetable _ _ _ t0 v hi0 hj0 hk0 h0
    (ht.tab0_ne _ _ _ hi0 hj0 h0) (ht.root_tab0 _ _ _ hi0 hj0 h0)
    (fun i t hi h => ht.tab1_tab0 i _ _ t t0 hi hi0 hj0 h h0)
    (fun i j t hi hj hij h => ht.tab0_tab0 i j _ _ t t0 hi hj hi0 hj0 h h0 hij)
  refine ⟨?_, ?_, ?_⟩
  · rw [hmem, hp]
    exact PtTree_congr _ _ _ (fun i hi => (hls i 0 0 hi (by decide) (by decide)).1)
      (fun i j hi hj => (hls i j 0 hi hj (by decide)).2.1) ht
  · rw [translation_eq, if_neg (by omega), hmem, hp, (hls _ _ _ hi0 hj0 hk0).2.2,
      if_pos ⟨rfl, rfl, rfl⟩]
  · intro x hne
    rw [translation_eq, translation_eq, hmem, hp]
    by_cases hge : x ≥ L.MAXVA
    · rw [if_pos hge, if_pos hge]
    · rw [if_neg hge, if_neg hge, (hls _ _ _ (PX_lt 2 x) (PX_lt 1 x) (PX_lt 0 x)).2.2]
      have : ¬ (PX 2 x = PX 2 addr ∧ PX 1 x = PX 1 addr ∧ PX 0 x = PX 0 addr) := by
        rintro ⟨h2, h1, h0'⟩
        apply hne
        have hd : PGROUNDDOWN x ≤ x := Nat.sub_le _ _
        exact PX_inj (PGROUNDDOWN x) addr (by omega) (by omega) (PGROUNDDOWN_aligned x) hal
          (by rw [PX_PGROUNDDOWN]; exact h2) (by rw [PX_PGROUNDDOWN]; exact h1)
          (by rw [PX_PGROUNDDOWN]; exact h0')
      rw [if_neg this]

/-- One pass of the loop body of `_mfree` on the page `addr`, when it
returns. -/
theorem _mfree_page_effect (L : Layout) (s : State) (a start offset : Nat) (do_free : Bool)
    (addr : Nat) (s1 : State)
    (hMAXVA : L.MAXVA ≤ 2 ^ 39) (hal : addr % PGSIZE = 0)
    (ht : PtTree s.mem s.p.pagetable)
    (h : _mfree_page L s a start offset do_free addr = Outcome.ret () s1) :
    SameVma s s1 ∧ PtTree s1.mem s1.p.pagetable ∧ addr < L.MAXVA ∧
    s1.log = s.log ++
      (if writesBack L s a addr = true then
        [FileOp.lseek (s.vma_cache a).file (sub64 (u64 (offset + addr)) start),
         FileOp.write (s.vma_cache a).file addr PGSIZE]
       else []) ∧
    translation L s1 addr = entryAfter L s a do_free addr ∧
    (∀ x, PGROUNDDOWN x ≠ addr → translation L s1 x = translation L s x) := by
  unfold _mfree_page at h
  rw [walk_false_eq] at h
  by_cases hge : addr ≥ L.MAXVA
  · rw [if_pos hge] at h
    simp at h
  rw [if_neg hge] at h
  have hlt : addr < L.MAXVA := by omega
  have hi0 := PX_lt 2 addr
  have hj0 := PX_lt 1 addr
  have hk0 := PX_lt 0 addr
  cases h0 : tab0 s.mem s.p.pagetable (PX 2 addr) (PX 1 addr) with
  | none =>
      rw [h0] at h
      simp at h
  | some t0 =>
      rw [h0] at h
      simp only [] at h
      have hne := ht.tab0_ne _ _ _ hi0 hj0 h0
      have hpte : t0 + 8 * PX 0 addr ≠ 0 := by omega
      rw [if_neg hpte] at h
      have htr : translation L s addr =
          if s.mem (t0 + 8 * PX 0 addr) &&& PTE_V = 0 then none
          else some (s.mem (t0 + 8 * PX 0 addr)) := by
        rw [translation_eq, if_neg hge, entryIdx_of_tab0 h0, if_neg hpte]
      generalize hpe : t0 + 8 * PX 0 addr = pte at h htr hpte
      generalize hee : s.mem pte = e at h htr
      by_cases hv : e &&& PTE_V = 0
      · rw [if_pos hv] at h htr
        injection h with _ hs
        subst hs
        have hwb : writesBack L s a addr = false := by
          unfold writesBack; rw [htr]
        refine ⟨SameVma.refl s, ht, hlt, ?_, ?_, fun x _ => rfl⟩
        · rw [hwb]; simp
        · unfold entryAfter; rw [htr]
      · rw [if_neg hv] at h htr
        by_cases hfl : PTE_FLAGS e = PTE_V
        · rw [if_pos hfl] at h
          simp at h
        rw [if_neg hfl] at h
        have hwb : writesBack L s a addr =
            decide ((s.vma_cache a).flags &&& L.MAP_SHARED ≠ 0 ∧ (s.vma_cache a).file ≠ 0 ∧
              s.writable (s.vma_cache a).file = true ∧ e &&& PTE_D ≠ 0) := by
          unfold writesBack; rw [htr]
        by_cases hc : (s.vma_cache a).flags &&& L.MAP_SHARED ≠ 0 ∧ (s.vma_cache a).file ≠ 0 ∧
              s.writable (s.vma_cache a).file = true ∧ e &&& PTE_D ≠ 0
        · have hwb' : writesBack L s a addr = true := by rw [hwb]; exact decide_eq_true hc
          rw [if_pos hc] at h
          cases do_free with
          | true =>
              simp only [if_true] at h
              injection h with _ hs
              obtain ⟨q1, q2, q3⟩ := store_leaf_translation L s s1 addr t0 0 hMAXVA hal hlt ht h0
                (by
                  rw [hpe, ← hs]
                  show Function.update (Function.update s.mem pte _) pte 0 = _
                  rw [Function.update_idem]) (by rw [← hs]; rfl)
              refine ⟨by rw [← hs]; exact ⟨rfl, rfl, rfl, rfl, rfl⟩, q1, hlt, ?_, ?_, q3⟩
              · rw [hwb', ← hs]
                show (s.log ++ _) ++ _ = _
                simp
              · rw [q2]
                unfold entryAfter
                rw [htr]
                simp [zero_invalid]
          | false =>
              simp only [Bool.false_eq_true, if_false] at h
              injection h with _ hs
              obtain ⟨q1, q2, q3⟩ := store_leaf_translation L s s1 addr t0
                (e &&& (2 ^ 64 - 1 - PTE_D)) hMAXVA hal hlt ht h0
                (by
                  rw [hpe, ← hs]
                  show Function.update s.mem pte (s.mem pte &&& _) = _
                  rw [hee]) (by rw [← hs]; rfl)
              refine ⟨by rw [← hs]; exact ⟨rfl, rfl, rfl, rfl, rfl⟩, q1, hlt, ?_, ?_, q3⟩
              · rw [hwb', ← hs]
                show (s.log ++ _) ++ _ = _
                simp
              · rw [q2, clearD_valid, if_neg hv]
                unfold entryAfter
                rw [htr, hwb']
                simp
        · have hwb' : writesBack L s a addr = false := by rw [hwb]; exact decide_eq_false hc
          rw [if_neg hc] at h
          cases do_free with
          | true =>
              simp only [if_true] at h
              injection h with _ hs
              obtain ⟨q1, q2, q3⟩ := store_leaf_translation L s s1 addr t0 0 hMAXVA hal hlt ht h0
                (by rw [hpe, ← hs]; rfl) (by rw [← hs]; rfl)
              refine ⟨by rw [← hs]; exact ⟨rfl, rfl, rfl, rfl, rfl⟩, q1, hlt, ?_, ?_, q3⟩
              · rw [hwb', ← hs]
                show s.log = _
                simp
              · rw [q2]
                unfold entryAfter
                rw [htr]
                simp [zero_invalid]
          | false =>
              simp only [Bool.false_eq_true, if_false] at h
              injection h with _ hs
              subst hs
              refine ⟨SameVma.refl s, ht, hlt, ?_, ?_, fun x _ => rfl⟩
              · rw [hwb']; simp
              · unfold entryAfter
                rw [htr, hwb']
                simp

theorem pagesOf_cons (addr stop : Nat) (hal : addr % PGSIZE = 0) (hstop : stop % PGSIZE = 0)
    (hlt : addr < stop) : pagesOf addr stop = addr :: pagesOf (addr + PGSIZE) stop := by
  unfold pagesOf PGSIZE at *
  obtain ⟨k, hk⟩ : ∃ k, (stop - addr) / 4096 = k + 1 := ⟨(stop - addr) / 4096 - 1, by omega⟩
  have hk' : (stop - (addr + 4096)) / 4096 = k := by omega
  rw [hk, hk', List.range_succ_eq_map]
  simp only [List.map_cons, List.map_map, zero_mul, add_zero]
  congr 1
  apply List.map_congr_left
  intro i _
  simp only [Function.comp, Nat.succ_eq_add_one]
  ring

theorem pagesOf_nil (addr stop : Nat) (h : ¬ addr < stop) : pagesOf addr stop = [] := by
  unfold pagesOf
  have : (stop - addr) / PGSIZE = 0 := by
    have : stop - addr = 0 := by omega
    rw [this]; rfl
  rw [this]
  rfl

theorem mem_pagesOf (addr stop x : Nat) (hal : addr % PGSIZE = 0) (hx : x ∈ pagesOf addr stop) :
    x % PGSIZE = 0 ∧ addr ≤ x ∧ x < stop := by
  unfold pagesOf at hx
  rw [List.mem_map] at hx
  obtain ⟨k, hk, rfl⟩ := hx
  rw [List.mem_range] at hk
  unfold PGSIZE at *
  have h1 : k * 4096 < stop - addr ∨ stop - addr = 0 := by omega
  refine ⟨by omega, by omega, by omega⟩

theorem PGROUNDDOWN_of_aligned (x : Nat) (h : x % PGSIZE = 0) : PGROUNDDOWN x = x := by
  unfold PGROUNDDOWN; omega

/-- The write-back decision for a page only depends on its translation and on
the VMA pool. -/
theorem writesBack_congr (L : Layout) (s t : State) (a x : Nat) (hs : SameVma s t)
    (htr : translation L t x = translation L s x) :
    writesBack L t a x = writesBack L s a x := by
  unfold writesBack
  rw [htr, hs.1, hs.2.2.2.2]

theorem entryAfter_congr (L : Layout) (s t : State) (a : Nat) (do_free : Bool) (x : Nat)
    (hs : SameVma s t) (htr : translation L t x = translation L s x) :
    entryAfter L t a do_free x = entryAfter L s a do_free x := by
  unfold entryAfter
  rw [writesBack_congr L s t a x hs htr, htr]

/-- The loop of `_mfree` from `addr`, when it returns: the file-layer calls
it made, the entries of the pages it went through, and the translations it
left alone. -/
theorem _mfree_loop_effect (L : Layout) (a start offset : Nat) (do_free : Bool) (stop : Nat)
    (hMAXVA : L.MAXVA ≤ 2 ^ 39) (hstop : stop % PGSIZE = 0) :
    ∀ (fuel : Nat) (s : State) (addr : Nat) (s' : State),
      addr % PGSIZE = 0 → PtTree s.mem s.p.pagetable →
      _mfree_loop L a start offset do_free stop fuel s addr = Outcome.ret () s' →
      SameVma s s' ∧
      s'.log = s.log ++ (pagesOf addr stop).flatMap (fun x =>
        if writesBack L s a x = true then
          [FileOp.lseek (s.vma_cache a).file (sub64 (u64 (offset + x)) start),
           FileOp.write (s.vma_cache a).file x PGSIZE]
        else []) ∧
      (∀ x ∈ pagesOf addr stop, x < L.MAXVA ∧ translation L s' x = entryAfter L s a do_free x) ∧
      (∀ x, PGROUNDDOWN x ∉ pagesOf addr stop → translation L s' x = translation L s x) := by
  intro fuel
  induction fuel with
  | zero => intro s addr s' _ _ h; simp [_mfree_loop] at h
  | succ n ih =>
      intro s addr s' hal ht h
      unfold _mfree_loop at h
      by_cases hlt : addr < stop
      · rw [if_pos hlt] at h
        cases hp : _mfree_page L s a start offset do_free addr with
        | timeout => rw [hp] at h; simp at h
        | panic m s1 => rw [hp] at h; simp at h
        | ret u s1 =>
            rw [hp] at h
            simp only [] at h
            obtain ⟨p1, p2, p3, p4, p5, p6⟩ :=
              _mfree_page_effect L s a start offset do_free addr s1 hMAXVA hal ht hp
            have hu : u64 (addr + PGSIZE) = addr + PGSIZE :=
              u64_of_lt (by unfold PGSIZE; omega)
            rw [hu] at h
            have hal' : (addr + PGSIZE) % PGSIZE = 0 := by unfold PGSIZE at *; omega
            obtain ⟨q1, q2, q3, q4⟩ := ih s1 (addr + PGSIZE) s' hal' p2 h
            rw [pagesOf_cons addr stop hal hstop hlt]
            -- the pages still to come are not the page just done
            have hrest : ∀ x ∈ pagesOf (addr + PGSIZE) stop,
                translation L s1 x = translation L s x := by
              intro x hx
              obtain ⟨hx0, hx1, _⟩ := mem_pagesOf _ _ x hal' hx
              apply p6
              rw [PGROUNDDOWN_of_aligned x hx0]
              unfold PGSIZE at hx1
              omega
            have haddr : addr ∉ pagesOf (addr + PGSIZE) stop := by
              intro hx
              obtain ⟨_, hx1, _⟩ := mem_pagesOf _ _ addr hal' hx
              unfold PGSIZE at hx1
              omega
            refine ⟨p1.trans q1, ?_, ?_, ?_⟩
            · have hfm : (pagesOf (addr + PGSIZE) stop).flatMap (fun x =>
                    if writesBack L s1 a x = true then
                      [FileOp.lseek (s1.vma_cache a).file (sub64 (u64 (offset + x)) start),
                       FileOp.write (s1.vma_cache a).file x PGSIZE]
                    else []) =
                  (pagesOf (addr + PGSIZE) stop).flatMap (fun x =>
                    if writesBack L s a x = true then
                      [FileOp.lseek (s.vma_cache a).file (sub64 (u64 (offset + x)) start),
                       FileOp.write (s.vma_cache a).file x PGSIZE]
                    else []) :=
                List.flatMap_congr (fun x hx => by
                  rw [writesBack_congr L s s1 a x p1 (hrest x hx), p1.1])
              rw [q2, p4, hfm, List.flatMap_cons, List.append_assoc]
            · intro x hx
              rcases List.mem_cons.1 hx with rfl | hx'
              · refine ⟨p3, ?_⟩
                rw [q4 x (by rw [PGROUNDDOWN_of_aligned x hal]; exact haddr)]
                exact p5
              · obtain ⟨r1, r2⟩ := q3 x hx'
                exact ⟨r1, by rw [r2]; exact entryAfter_congr L s s1 a do_free x p1 (hrest x hx')⟩
            · intro x hx
              rw [List.mem_cons, not_or] at hx
              rw [q4 x hx.2]
              exact p6 x hx.1
      · rw [if_neg hlt] at h
        injection h with _ hs
        subst hs
        rw [pagesOf_nil addr stop hlt]
        exact ⟨SameVma.refl s, by simp, fun x hx => absurd hx (List.not_mem_nil x),
          fun x _ => rfl⟩

theorem sext32_of_lt (x : Nat) (h : x < 2 ^ 31) : sext32 x = x := by
  unfold sext32
  have h1 : x % 2 ^ 32 = x := Nat.mod_eq_of_lt (by omega)
  rw [h1, if_pos h]

/-- The file position `_mfree` seeks to, when the `int offset` does not
overflow: `pgoff + (x - start of the region)`. -/
theorem _mfree_position (pgoff vstart start x : Nat) (h1 : vstart ≤ start) (h2 : start ≤ x)
    (h3 : pgoff + (x - vstart) < 2 ^ 31) (h4 : x < 2 ^ 39) :
    sub64 (u64 (sext32 (sub64 (u64 (pgoff + start)) vstart) + x)) start
      = pgoff + (x - vstart) := by
  have e1 : sub64 (u64 (pgoff + start)) vstart = pgoff + start - vstart := by
    unfold sub64 u64; omega
  rw [e1, sext32_of_lt _ (by omega)]
  unfold sub64 u64
  omega

/-- On a private region the loop body of `_mfree` makes no call into the file
layer, however it ends. -/
theorem _mfree_page_private (L : Layout) (s : State) (a start offset : Nat) (do_free : Bool)
    (addr : Nat) (hpriv : (s.vma_cache a).flags &&& L.MAP_SHARED = 0) :
    (∀ u s1, _mfree_page L s a start offset do_free addr = Outcome.ret u s1 → s1.log = s.log) ∧
    (∀ m s1, _mfree_page L s a start offset do_free addr = Outcome.panic m s1 →
      s1.log = s.log) := by
  have hc : ∀ (w : Bool) (d : Nat), ¬ ((s.vma_cache a).flags &&& L.MAP_SHARED ≠ 0 ∧
      (s.vma_cache a).file ≠ 0 ∧ w = true ∧ d ≠ 0) := fun _ _ h => h.1 hpriv
  unfold _mfree_page
  rcases walk_false_state L s s.p.pagetable addr with ⟨pte, hw⟩ | hw
  · rw [hw]
    simp only [hc, if_false]
    constructor
    · intro u s1 h
      split_ifs at h <;> (injection h with _ hs; subst hs; rfl)
    · intro m s1 h
      split_ifs at h <;> (injection h with _ hs; subst hs; rfl)
  · rw [hw]
    constructor
    · intro u s1 h; exact absurd h (by simp)
    · intro m s1 h
      injection h with _ hs
      rw [← hs]

theorem _mfree_loop_private (L : Layout) (a start offset : Nat) (do_free : Bool) (stop : Nat) :
    ∀ (fuel : Nat) (s : State) (addr : Nat),
      (s.vma_cache a).flags &&& L.MAP_SHARED = 0 →
      (∀ u s1, _mfree_loop L a start offset do_free stop fuel s addr = Outcome.ret u s1 →
        s1.log = s.log) ∧
      (∀ m s1, _mfree_loop L a start offset do_free stop fuel s addr = Outcome.panic m s1 →
        s1.log = s.log) := by
  intro fuel
  induction fuel with
  | zero =>
      intro s addr _
      constructor
      · intro u s1 h; simp [_mfree_loop] at h
      · intro m s1 h; simp [_mfree_loop] at h
  | succ n ih =>
      intro s addr hpriv
      obtain ⟨hp1, hp2⟩ := _mfree_page_private L s a start offset do_free addr hpriv
      unfold _mfree_loop
      by_cases hlt : addr < stop
      · simp only [hlt, if_true]
        cases hp : _mfree_page L s a start offset do_free addr with
        | timeout =>
            constructor
            · intro u s1 h; exact absurd h (by simp)
            · intro m s1 h; exact absurd h (by simp)
        | panic m0 s0 =>
            constructor
            · intro u s1 h; exact absurd h (by simp)
            · intro m s1 h
              injection h with _ hs
              rw [← hs]
              exact hp2 m0 s0 hp
        | ret u0 s0 =>
            have hlog := hp1 u0 s0 hp
            have hsame : SameVma s s0 := by
              rcases _mfree_page_sameVma L s a start offset do_free addr with
                ⟨t, ht, hst⟩ | ⟨m, t, ht⟩
              · rw [hp] at ht
                injection ht with _ hs
                rw [hs]
                exact hst
              · rw [hp] at ht
                exact absurd ht (by simp)
            obtain ⟨i1, i2⟩ := ih s0 (u64 (addr + PGSIZE)) (by rw [hsame.1]; exact hpriv)
            constructor
            · intro u s1 h; rw [i1 u s1 h, hlog]
            · intro m s1 h; rw [i2 m s1 h, hlog]
      · simp only [hlt, if_false]
        constructor
        · intro u s1 h
          injection h with _ hs
          rw [← hs]
        · intro m s1 h; exact absurd h (by simp)

/-- Write-back where the file positions fit an `int`. (1) Let the page table
be a tree (with `MAXVA ≤ 2^39`), let `[start, stop)` lie in the region of slot
`a` at or after its start, and let
`pgoff + (stop - region start)` fit the `int offset` of `_mfree` (below
`2^31`). When `_mfree` returns, the file-layer calls it made are, for each page
`x` of `[start, stop)` in ascending order, one seek to `pgoff + (x - region
start)` followed by one write of `PGSIZE` bytes at `x`, exactly for the pages
that were mapped and dirty while the region is shared and has a writable
backing file (`writesBack`), and nothing for the other pages; afterwards a
page that was written back has no valid entry (frames freed) or has its old
entry with the dirty bit cleared. (2) For a region without `MAP_SHARED`,
`_mfree` makes no call into the file layer at all, whether it returns or
panics, whatever the dirty bits. -/
theorem mfree_writes_back :
    (∀ (L : Layout) (s : State) (fuel a start stop : Nat) (do_free : Bool) (s' : State),
        L.MAXVA ≤ 2 ^ 39 → PtTree s.mem s.p.pagetable →
        (s.vma_cache a).start ≤ start →
        (s.vma_cache a).pgoff + (stop - (s.vma_cache a).start) < 2 ^ 31 →
        _mfree L fuel s a start stop do_free = Outcome.ret () s' →
        s'.log = s.log ++ (pagesOf start stop).flatMap (writeOps L s a) ∧
        (∀ x ∈ pagesOf start stop, translation L s' x = entryAfter L s a do_free x) ∧
        (∀ x ∈ pagesOf start stop, writesBack L s a x = true →
          ∀ e, translation L s' x = some e → e &&& PTE_D = 0)) ∧
    (∀ (L : Layout) (s : State) (fuel a start stop : Nat) (do_free : Bool),
        (s.vma_cache a).flags &&& L.MAP_SHARED = 0 →
        (∀ s', _mfree L fuel s a start stop do_free = Outcome.ret () s' → s'.log = s.log) ∧
        (∀ m s', _mfree L fuel s a start stop do_free = Outcome.panic m s' →
          s'.log = s.log)) := by
  constructor
  · intro L s fuel a start stop do_free s' hMAXVA ht hstart hoff hret
    unfold _mfree at hret
    by_cases hal : start % PGSIZE ≠ 0 ∨ stop % PGSIZE ≠ 0
    · rw [if_pos hal] at hret
      exact absurd hret (by simp)
    rw [if_neg hal] at hret
    simp only [] at hret
    have hal1 : start % PGSIZE = 0 := by
      by_contra hx; exact hal (Or.inl hx)
    have hal2 : stop % PGSIZE = 0 := by
      by_contra hx; exact hal (Or.inr hx)
    obtain ⟨q1, q2, q3, _⟩ := _mfree_loop_effect L a start _ do_free stop hMAXVA hal2 fuel s
      start s' hal1 ht hret
    have hconv : (pagesOf start stop).flatMap (fun x =>
          if writesBack L s a x = true then
            [FileOp.lseek (s.vma_cache a).file
              (sub64 (u64 (sext32 (sub64 (u64 ((s.vma_cache a).pgoff + start))
                (s.vma_cache a).start) + x)) start),
             FileOp.write (s.vma_cache a).file x PGSIZE]
          else []) = (pagesOf start stop).flatMap (writeOps L s a) :=
      List.flatMap_congr (fun x hx => by
        obtain ⟨_, hx1, hx2⟩ := mem_pagesOf start stop x hal1 hx
        have hx3 := (q3 x hx).1
        unfold writeOps
        rw [_mfree_position _ _ _ _ hstart hx1 (by omega) (by omega)])
    refine ⟨by rw [q2, hconv], fun x hx => (q3 x hx).2, ?_⟩
    intro x hx hwb e he
    rw [(q3 x hx).2] at he
    unfold entryAfter at he
    rw [hwb] at he
    cases htr : translation L s x with
    | none => rw [htr] at he; exact absurd he (by simp)
    | some e0 =>
        rw [htr] at he
        simp only [if_true] at he
        cases do_free with
        | true => simp at he
        | false =>
            simp only [Bool.false_eq_true, if_false, Option.some.injEq] at he
            rw [← he]
            exact clearD_clean e0
  · intro L s fuel a start stop do_free hpriv
    unfold _mfree
    by_cases hal : start % PGSIZE ≠ 0 ∨ stop % PGSIZE ≠ 0
    · simp only [hal, if_true]
      constructor
      · intro s' h; exact absurd h (by simp)
      · intro m s' h
        injection h with _ hs
        rw [← hs]
    · simp only [hal, if_false]
      obtain ⟨i1, i2⟩ := _mfree_loop_private L a start
        (sext32 (sub64 (u64 ((s.vma_cache a).pgoff + start)) (s.vma_cache a).start))
        do_free stop fuel s start hpriv
      exact ⟨fun s' h => i1 () s' h, i2⟩

theorem dirtyMem_tab1 (i : Nat) (hi : i < 512) :
    tab1 dirtyMem 0x80000000 i = if i = 64 then some 0x80002000 else none := by
  by_cases h : i = 64
  · subst h
    rfl
  · rw [if_neg h]
    apply tab1_of_invalid
    have hm : dirtyMem (0x80000000 + 8 * i) = 0 := by
      unfold dirtyMem
      have h1 : ¬ (0x80000000 + 8 * i = 0x80000000 + 8 * 64) := by omega
      have h2 : ¬ (0x80000000 + 8 * i = 0x80002000) := by omega
      have h3 : ¬ (0x80000000 + 8 * i = 0x80003000) := by omega
      simp only [h1, h2, h3, if_false]
    rw [hm]
    exact zero_invalid

theorem dirtyMem_tab0 (i j : Nat) (hi : i < 512) (hj : j < 512) :
    tab0 dirtyMem 0x80000000 i j = if i = 64 ∧ j = 0 then some 0x80003000 else none := by
  by_cases h : i = 64
  · subst h
    by_cases h' : j = 0
    · subst h'
      rfl
    · rw [if_neg (by tauto), tab0_of_tab1 (dirtyMem_tab1 64 hi)]
      have hm : dirtyMem (0x80002000 + 8 * j) = 0 := by
        unfold dirtyMem
        have h1 : ¬ (0x80002000 + 8 * j = 0x80000000 + 8 * 64) := by omega
        have h2 : ¬ (0x80002000 + 8 * j = 0x80002000) := by omega
        have h3 : ¬ (0x80002000 + 8 * j = 0x80003000) := by omega
        simp only [h1, h2, h3, if_false]
      rw [hm]
      simp [zero_invalid]
  · rw [if_neg (by tauto)]
    apply tab0_of_no_tab1
    rw [dirtyMem_tab1 i hi, if_neg h]

theorem dirtyMem_tree : PtTree dirtyMem 0x80000000 := by
  constructor
  · intro i t hi h
    rw [dirtyMem_tab1 i hi] at h
    split_ifs at h
    injection h with h; subst h; decide
  · intro i j t hi hj h
    rw [dirtyMem_tab0 i j hi hj] at h
    split_ifs at h
    injection h with h; subst h; decide
  · intro i i' t t' hi hi' h h' hne
    rw [dirtyMem_tab1 i hi] at h
    rw [dirtyMem_tab1 i' hi'] at h'
    split_ifs at h h'
    omega
  · intro i i' j' t t' hi hi' hj' h h'
    rw [dirtyMem_tab1 i hi] at h
    rw [dirtyMem_tab0 i' j' hi' hj'] at h'
    split_ifs at h h'
    injection h with h; injection h' with h'; subst h h'; decide
  · intro i j i' j' t t' hi hj hi' hj' h h' hne
    rw [dirtyMem_tab0 i j hi hj] at h
    rw [dirtyMem_tab0 i' j' hi' hj'] at h'
    split_ifs at h h'
    omega
  · intro i j t hi hj h
    rw [dirtyMem_tab0 i j hi hj] at h
    split_ifs at h
    injection h with h; subst h; decide

/-- Write-back at concrete inputs: `_mfree` over the two pages of the shared
region of `dirtyState`, and over the private region `A` of `twoMappedState`. -/
theorem mfree_writes_back_witness :
    (((_mfree demo 8 dirtyState 3 (2 ^ 36) (2 ^ 36 + 8192) true).stateD boot).log
        = dirtyState.log ++ (pagesOf (2 ^ 36) (2 ^ 36 + 8192)).flatMap (writeOps demo dirtyState 3) ∧
      (∀ x ∈ pagesOf (2 ^ 36) (2 ^ 36 + 8192),
        translation demo ((_mfree demo 8 dirtyState 3 (2 ^ 36) (2 ^ 36 + 8192) true).stateD boot) x
          = entryAfter demo dirtyState 3 true x) ∧
      (∀ x ∈ pagesOf (2 ^ 36) (2 ^ 36 + 8192), writesBack demo dirtyState 3 x = true →
        ∀ e, translation demo
            ((_mfree demo 8 dirtyState 3 (2 ^ 36) (2 ^ 36 + 8192) true).stateD boot) x = some e →
          e &&& PTE_D = 0)) ∧
    ((∀ s', _mfree demo 8 twoMappedState 3 (2 ^ 36) (2 ^ 36 + 4096) true = Outcome.ret () s' →
        s'.log = twoMappedState.log) ∧
      (∀ m s', _mfree demo 8 twoMappedState 3 (2 ^ 36) (2 ^ 36 + 4096) true
          = Outcome.panic m s' → s'.log = twoMappedState.log)) :=
  ⟨mfree_writes_back.1 demo dirtyState 8 3 (2 ^ 36) (2 ^ 36 + 8192) true
      ((_mfree demo 8 dirtyState 3 (2 ^ 36) (2 ^ 36 + 8192) true).stateD boot)
      (by decide) dirtyMem_tree (by decide) (by decide) (by rfl),
   mfree_writes_back.2 demo twoMappedState 8 3 (2 ^ 36) (2 ^ 36 + 4096) true (by decide)⟩

/-- The run behind these inputs: the shared, dirty first page is written
back at file position 0 and the unmapped second page is passed over. -/
theorem _mfree_dirty_page_run :
    (_mfree demo 8 dirtyState 3 (2 ^ 36) (2 ^ 36 + 8192) true).state?.map (fun s => s.log)
      = some [FileOp.lseek 7 0, FileOp.write 7 (2 ^ 36) 4096] := by
  rfl

theorem PtTree_empty (root : Nat) : PtTree (fun _ => 0) root := by
  have h1 : ∀ i, tab1 (fun _ => 0) root i = none := fun i => tab1_of_invalid zero_invalid
  have h0 : ∀ i j, tab0 (fun _ => 0) root i j = none := fun i j => tab0_of_no_tab1 (h1 i)
  constructor
  · intro i t _ h; rw [h1] at h; exact absurd h (by simp)
  · intro i j t _ _ h; rw [h0] at h; exact absurd h (by simp)
  · intro i i' t t' _ _ h; rw [h1] at h; exact absurd h (by simp)
  · intro i i' j' t t' _ _ _ h; rw [h1] at h; exact absurd h (by simp)
  · intro i j i' j' t t' _ _ _ _ h; rw [h0] at h; exact absurd h (by simp)
  · intro i j t _ _ h; rw [h0] at h; exact absurd h (by simp)

theorem FramesFree_empty (root : Nat) (free : List Nat)
    (hroot : ∀ f ∈ free, sepPage f root) (hsep : free.Pairwise sepPage)
    (hok : ∀ f ∈ free, f ≠ 0 ∧ f % PGSIZE = 0 ∧ f < 2 ^ 56) :
    FramesFree (fun _ => 0) root free := by
  have h1 : ∀ i, tab1 (fun _ => 0) root i = none := fun i => tab1_of_invalid zero_invalid
  have h0 : ∀ i j, tab0 (fun _ => 0) root i j = none := fun i j => tab0_of_no_tab1 (h1 i)
  constructor
  · exact hroot
  · intro f _ i t _ h; rw [h1] at h; exact absurd h (by simp)
  · intro f _ i j t _ _ h; rw [h0] at h; exact absurd h (by simp)
  · exact hsep
  · exact hok

/-- C8 as stated fails on the code: with `[MMAP, MMAP+4096)` backed by the
file 7, which is not readable, a fault at `MMAP` makes `mtrap` return 0 with
the page mapped, and the only call the file layer has seen is the `filedup`
of `mmap`: no read is issued although the region has a backing file. -/
theorem mtrap_unreadable_file_issues_no_read :
    (unreadableMappedState.vma_cache 3).file = 7 ∧
    unreadableMappedState.log = [FileOp.dup 7] ∧
    (mtrap demo 8 unreadableMappedState 0 (2 ^ 36)).value? = some 0 ∧
    (mtrap demo 8 unreadableMappedState 0 (2 ^ 36)).state?.map (fun s => s.log)
      = some [FileOp.dup 7] ∧
    ((mtrap demo 8 unreadableMappedState 0 (2 ^ 36)).state?.map
        (fun s => (translation demo s (2 ^ 36)).isSome)) = some true := by
  refine ⟨by rfl, by rfl, by rfl, by rfl, by rfl⟩

/-- C8 (amended) at a concrete input: a fault at `MMAP + 5` after one
anonymous one-page mapping at `MMAP`, with an empty root page table and four
free frames. -/
theorem mtrap_maps_one_page_witness :
    ∃ s' f, mtrap demo 8 oneMappedState 0 (2 ^ 36 + 5) = Outcome.ret 0 s' ∧
      oneMappedState.kmem.head? = some f ∧
      translation demo s' (PGROUNDDOWN (2 ^ 36 + 5))
        = some (PA2PTE f ||| (oneMappedState.vma_cache 3).page_prot ||| PTE_V) ∧
      (∀ va, PGROUNDDOWN va ≠ PGROUNDDOWN (2 ^ 36 + 5) →
        translation demo s' va = translation demo oneMappedState va) ∧
      s'.kmem = oneMappedState.kmem.drop
        (framesNeeded oneMappedState.mem oneMappedState.p.pagetable
          (PGROUNDDOWN (2 ^ 36 + 5))) ∧
      s'.log = oneMappedState.log ++
        (if (oneMappedState.vma_cache 3).file ≠ 0
            ∧ oneMappedState.readable (oneMappedState.vma_cache 3).file = true then
          [FileOp.lseek (oneMappedState.vma_cache 3).file
            ((oneMappedState.vma_cache 3).filePos (PGROUNDDOWN (2 ^ 36 + 5))),
           FileOp.read (oneMappedState.vma_cache 3).file (PGROUNDDOWN (2 ^ 36 + 5)) PGSIZE]
         else []) ∧
      SameVma oneMappedState s' :=
  mtrap_maps_one_page demo oneMappedState 0 (2 ^ 36 + 5) 8 [] [] 3 (by decide) (by decide)
    (by decide) (by decide) (by decide) (by decide)
    (PtTree_empty _)
    (FramesFree_empty _ _ (by decide) (by decide) (by decide))
    (by decide) (by rfl) (by decide) (by decide)

/-- C7 at a concrete input: `munmap` of the middle page of a three-page
region. -/
theorem munmap_interior_splits_witness :
    ∃ c, threePageState.vma_head = some c ∧
      ((munmap demo 8 threePageState (2 ^ 36 + 4096) 4096).stateD boot).vma_head
        = (threePageState.vma_cache c).next ∧
      Chain ((munmap demo 8 threePageState (2 ^ 36 + 4096) 4096).stateD boot).vma_cache
        ((munmap demo 8 threePageState (2 ^ 36 + 4096) 4096).stateD boot).p.mmap
        ([] ++ 3 :: c :: []) ∧
      ((munmap demo 8 threePageState (2 ^ 36 + 4096) 4096).stateD boot).vma_cache 3
        = { threePageState.vma_cache 3 with end_ := 2 ^ 36 + 4096, next := some c } ∧
      ((munmap demo 8 threePageState (2 ^ 36 + 4096) 4096).stateD boot).vma_cache c =
        { start := 2 ^ 36 + 4096 + 4096, end_ := (threePageState.vma_cache 3).end_,
          page_prot := (threePageState.vma_cache 3).page_prot,
          flags := (threePageState.vma_cache 3).flags,
          pgoff := sub64 (u64 ((threePageState.vma_cache 3).pgoff + (2 ^ 36 + 4096 + 4096)))
            (threePageState.vma_cache 3).start,
          file := (threePageState.vma_cache 3).file,
          next := (threePageState.vma_cache 3).next } ∧
      (∀ j ∈ [] ++ [],
        ((munmap demo 8 threePageState (2 ^ 36 + 4096) 4096).stateD boot).vma_cache j
          = threePageState.vma_cache j) ∧
      (∀ x, (((munmap demo 8 threePageState (2 ^ 36 + 4096) 4096).stateD boot).vma_cache 3).filePos x
          = (threePageState.vma_cache 3).filePos x) ∧
      (∀ x, (((munmap demo 8 threePageState (2 ^ 36 + 4096) 4096).stateD boot).vma_cache c).filePos x
          = (threePageState.vma_cache 3).filePos x) :=
  munmap_interior_splits demo threePageState 8 (2 ^ 36 + 4096) 4096
    ((munmap demo 8 threePageState (2 ^ 36 + 4096) 4096).stateD boot) [] [] 3
    (by decide) (by decide)
    (fun c hc => by
      have h : threePageState.vma_head = some 2 := by rfl
      rw [h] at hc
      injection hc with hc
      subst hc
      decide)
    (by decide) (by decide) (by decide) (by decide) (by rfl)

/-- C1, evaluated on the code: from the state after `kvminit`, a one-page
`mmap` with hint 0 followed by `mmap(2^64 - 4096, 8192)` returns
`2^64 - 4096` and leaves the list `[2^64-4096, 4096), [MMAP, MMAP+4096)`,
which is not sorted by start address: the window test
`addr + length > TRAPFRAME` wraps modulo `2^64` and accepts the hint. -/
theorem mmap_wrapping_hint_breaks_order :
    (((mmap demo 8 boot 0 4096 3 0 0 0).andThen fun _ s =>
        mmap demo 8 s (2 ^ 64 - 4096) 8192 3 0 0 0).value? = some (2 ^ 64 - 4096)) ∧
    (((mmap demo 8 boot 0 4096 3 0 0 0).andThen fun _ s =>
        mmap demo 8 s (2 ^ 64 - 4096) 8192 3 0 0 0).state?.map (fun s => s.regions 8)
      = some [(2 ^ 64 - 4096, 4096), (2 ^ 36, 2 ^ 36 + 4096)]) ∧
    ¬ List.Sorted (fun x y : Nat × Nat => x.1 ≤ y.1)
        [(2 ^ 64 - 4096, 4096), (2 ^ 36, 2 ^ 36 + 4096)] := by
  refine ⟨by rfl, by rfl, ?_⟩
  simp [List.Sorted]

/-- C2, evaluated on the code: with `A = [MMAP, MMAP+4096)` and
`B = [MMAP+4096, MMAP+8192)` mapped and touched, `munmap(MMAP, 8192)` returns 0
but `B` is still on the list of the process and still meets the request:
after `A` is pushed onto the pool, `a = a->next` follows the free list. -/
theorem munmap_leaves_second_region :
    ((twoMapped.andThen fun _ s => munmap demo 8 s (2 ^ 36) 8192).value? = some 0) ∧
    ((twoMapped.andThen fun _ s => munmap demo 8 s (2 ^ 36) 8192).state?.map
        (fun s => s.regions 8) = some [(2 ^ 36 + 4096, 2 ^ 36 + 8192)]) ∧
    Meets (2 ^ 36 + 4096) (2 ^ 36 + 8192) (2 ^ 36) (2 ^ 36 + 8192) := by
  refine ⟨by rfl, by rfl, by decide⟩

/-- C3, evaluated on the code: with `A = [MMAP, MMAP+4096)` followed by
`B = [MMAP+4096, MMAP+8192)`, `munmap(MMAP+4096, 4096)` returns 0 and the list
of the process is empty: `A`, which does not meet the request, is no longer a
member (`continue` skips `b = a`, so `b` is still null when `B` is unlinked and
`p->mmap` is set to `B->next`), and its slot is not on the free list either. -/
theorem munmap_drops_untouched_region :
    (twoMapped.state?.map (fun s => s.regions 8)
      = some [(2 ^ 36, 2 ^ 36 + 4096), (2 ^ 36 + 4096, 2 ^ 36 + 8192)]) ∧
    ¬ Meets (2 ^ 36) (2 ^ 36 + 4096) (2 ^ 36 + 4096) (2 ^ 36 + 8192) ∧
    ((twoMapped.andThen fun _ s => munmap demo 8 s (2 ^ 36 + 4096) 4096).value? = some 0) ∧
    ((twoMapped.andThen fun _ s => munmap demo 8 s (2 ^ 36 + 4096) 4096).state?.map
        (fun s => s.regions 8) = some []) ∧
    ((twoMapped.andThen fun _ s => munmap demo 8 s (2 ^ 36 + 4096) 4096).state?.map
        (fun s => chainOf s.vma_cache 8 s.vma_head) = some [2, 1, 0]) := by
  refine ⟨by rfl, by decide, by rfl, by rfl, by rfl⟩

/-- C4, evaluated on the code. (1) On the state after `kvminit`, `mmap` of one
page returns `MMAP` and `munmap(MMAP, 4096)` of the untouched region ends in
`panic("_mfree: walk")`: no intermediate page-table page exists for it.
(2) With `A` and `B` mapped and touched, `mmap` of one more page returns
`MMAP + 8192` and `munmap` of exactly that range (whose leaf entry lives in the
page-table page that `A` and `B` already use) returns 0 with an empty list: the
two prior regions are gone. -/
theorem mmap_munmap_not_round_trip :
    ((mmap demo 8 boot 0 4096 3 0 0 0).value? = some (2 ^ 36)) ∧
    (((mmap demo 8 boot 0 4096 3 0 0 0).andThen fun a s => munmap demo 8 s a 4096).panic?
      = some "_mfree: walk") ∧
    ((twoMapped.andThen fun _ s => mmap demo 8 s 0 4096 3 0 0 0).value? = some (2 ^ 36 + 8192)) ∧
    ((twoMapped.andThen fun _ s => (mmap demo 8 s 0 4096 3 0 0 0).andThen fun a s1 =>
        munmap demo 8 s1 a 4096).value? = some 0) ∧
    ((twoMapped.andThen fun _ s => (mmap demo 8 s 0 4096 3 0 0 0).andThen fun a s1 =>
        munmap demo 8 s1 a 4096).state?.map (fun s => s.regions 8) = some []) := by
  refine ⟨by rfl, by rfl, by rfl, by rfl, by rfl⟩

/-- C11, evaluated on the code: the parent has `A = [MMAP, MMAP+4096)` and
`B = [MMAP+4096, MMAP+8192)`, both touched, two slots are free in the pool and
the child has an empty list and an empty page table. With no free frame the
duplication of the first page fails, and `mcopy` does not return -1 with the
partial list linked: it ends in `panic("uvmunmap: walk")`. With three free
frames the first page is copied, the second fails and `mcopy` ends in
`panic("uvmunmap: not mapped")`. The unwinding of `uvmcopy`,
`uvmunmap(new, start, i / PGSIZE, 1)`, counts pages from address 0 instead of
from `start`, so it runs over the page whose duplication failed. The other
two ways out of `mcopy` are as expected: with four free frames it returns 0
and the child has the list `[1, 0]`, and with three regions and a single free
slot it returns -1 on the empty pool with the list `[0]` linked. -/
theorem mcopy_page_failure_panics :
    twoMappedState.regions 8 = [(2 ^ 36, 2 ^ 36 + 4096), (2 ^ 36 + 4096, 2 ^ 36 + 8192)] ∧
    chainOf twoMappedState.vma_cache 8 twoMappedState.vma_head = [1, 0] ∧
    twoMappedState.kmem = [] ∧
    (mcopy demo 8 twoMappedState childProc).panic? = some "uvmunmap: walk" ∧
    (mcopy demo 8 threeFramesState childProc).panic? = some "uvmunmap: not mapped" ∧
    (mcopy demo 8 fourFramesState childProc).value? = some (0, ⟨0x90000000, some 1⟩) ∧
    (mcopy demo 8 fourFramesState childProc).state?.map
        (fun s => chainOf s.vma_cache 8 (some 1)) = some [1, 0] ∧
    (mcopy demo 8 threeRegionsState childProc).value? = some (-1, ⟨0x90000000, some 0⟩) ∧
    (mcopy demo 8 threeRegionsState childProc).state?.map
        (fun s => chainOf s.vma_cache 8 (some 0)) = some [0] := by
  refine ⟨by rfl, by rfl, by rfl, by rfl, by rfl, by rfl, by rfl, by rfl, by rfl⟩

/-- C12, evaluated on the code: `uvmcopy` from the page table of
`twoMappedState` (the pages `MMAP` and `MMAP + 4096` are mapped) into an empty
page table, for `[MMAP, MMAP + 8192)` with `sparse = 1`. With no free frame the
allocation for the first page fails and the call ends in
`panic("uvmunmap: walk")`; with three free frames the first page is installed,
the allocation for the second fails and the call ends in
`panic("uvmunmap: not mapped")`: in neither case does it return -1. -/
theorem uvmcopy_failure_panics :
    (translation demo twoMappedState (2 ^ 36)).isSome = true ∧
    (translation demo twoMappedState (2 ^ 36 + 4096)).isSome = true ∧
    (uvmcopy demo 8 twoMappedState 0x80000000 0x90000000 (2 ^ 36) (2 ^ 36 + 8192) true).panic?
      = some "uvmunmap: walk" ∧
    (uvmcopy demo 8 threeFramesState 0x80000000 0x90000000 (2 ^ 36) (2 ^ 36 + 8192) true).panic?
      = some "uvmunmap: not mapped" ∧
    (uvmcopy demo 8 twoMappedState 0x80000000 0x90000000 (2 ^ 36) (2 ^ 36 + 8192) true).value?
      = none := by
  refine ⟨by rfl, by rfl, by rfl, by rfl, by rfl⟩

/-- C13, evaluated on the code: with `A` (slot 3) and `B` (slot 2) on the list
of the process and the slots 1 and 0 free, every slot of the pool of
`NVMAREA = 4` is in one place. After `munmap(MMAP + 4096, 4096)`, which returns
0, the list of the process is empty and the free list holds the slots 2, 1
and 0: the slot 3 is neither on the free list nor on a VMA list, and the slots
accounted for are 3, not `NVMAREA`. -/
theorem munmap_loses_pool_slot :
    chainOf twoMappedState.vma_cache 8 twoMappedState.p.mmap = [3, 2] ∧
    chainOf twoMappedState.vma_cache 8 twoMappedState.vma_head = [1, 0] ∧
    (munmap demo 8 twoMappedState (2 ^ 36 + 4096) 4096).value? = some 0 ∧
    (munmap demo 8 twoMappedState (2 ^ 36 + 4096) 4096).state?.map
        (fun s => (chainOf s.vma_cache 8 s.p.mmap, chainOf s.vma_cache 8 s.vma_head))
      = some ([], [2, 1, 0]) ∧
    (3 ∉ ([] : List Nat) ∧ 3 ∉ [2, 1, 0]) ∧
    ([] : List Nat).length + [2, 1, 0].length ≠ demo.NVMAREA := by
  refine ⟨by rfl, by rfl, by rfl, by rfl, by decide, by decide⟩

/-- C14, evaluated on the code: on the state after `kvminit`, `mmap` with
length 0 returns `MMAP` and puts the region `[MMAP, MMAP)` on the list, whose
start is not below its end; so does `mmap` with length `2^32 - 1`, which
`PGROUNDUP` on a `uint` rounds to 0. -/
theorem mmap_zero_length_region :
    (mmap demo 8 boot 0 0 3 0 0 0).value? = some (2 ^ 36) ∧
    (mmap demo 8 boot 0 0 3 0 0 0).state?.map (fun s => s.regions 8)
      = some [(2 ^ 36, 2 ^ 36)] ∧
    (mmap demo 8 boot 0 (2 ^ 32 - 1) 3 0 0 0).state?.map (fun s => s.regions 8)
      = some [(2 ^ 36, 2 ^ 36)] ∧
    ¬ (2 ^ 36 < 2 ^ 36) := by
  refine ⟨by rfl, by rfl, by rfl, by decide⟩

/-- C15, evaluated on the code. (1) On the empty list, `mmap(2^64 - 4096, 8192)`
returns the address `2^64 - 4096`, not the error value, and the region it
creates starts at `2^64 - 4096`: start plus rounded length is `2^64 + 4096` in
exact arithmetic, far above `TRAPFRAME`. The sum `addr + length` of the window
test wraps to 4096. (2) On the empty list the first-fit search places the
region at `MMAP` without comparing its end with `TRAPFRAME`: in a layout whose
window is two pages wide, `mmap(0, 16384)` returns `MMAP` and the region ends
8192 bytes above `TRAPFRAME`. -/
theorem mmap_wrapping_hint_leaves_window :
    boot.p.mmap = none ∧
    (mmap demo 8 boot (2 ^ 64 - 4096) 8192 3 0 0 0).value? = some (2 ^ 64 - 4096) ∧
    2 ^ 64 - 4096 ≠ neg1 ∧
    (mmap demo 8 boot (2 ^ 64 - 4096) 8192 3 0 0 0).state?.map (fun s => s.regions 8)
      = some [(2 ^ 64 - 4096, 4096)] ∧
    ¬ (2 ^ 64 - 4096 + PGROUNDUP32 8192 ≤ demo.TRAPFRAME) ∧
    (mmap narrow 8 boot 0 16384 3 0 0 0).value? = some narrow.MMAP ∧
    (mmap narrow 8 boot 0 16384 3 0 0 0).state?.map (fun s => s.regions 8)
      = some [(narrow.MMAP, narrow.MMAP + 16384)] ∧
    ¬ (narrow.MMAP + PGROUNDUP32 16384 ≤ narrow.TRAPFRAME) := by
  refine ⟨by rfl, by rfl, by decide, by rfl, by decide, by rfl, by rfl, by decide⟩

theorem PX_of_page (level a b : Nat) (h : a / PGSIZE = b / PGSIZE) : PX level a = PX level b := by
  rw [PX_eq, PX_eq]
  have e : (2 : Nat) ^ (12 + 9 * level) = 4096 * 512 ^ level := by
    rw [pow_add, pow_mul]; norm_num
  rw [e, ← Nat.div_div_eq_div_mul, ← Nat.div_div_eq_div_mul]
  unfold PGSIZE at h
  rw [h]

/-- The value of `walkaddr`, read off the three words the walk goes through. -/
theorem walkaddr_eq (L : Layout) (s : State) (pagetable va : Nat) :
    walkaddr L s pagetable va =
      Outcome.ret (if va ≥ L.MAXVA then 0 else
        match tab0 s.mem pagetable (PX 2 va) (PX 1 va) with
        | none => 0
        | some t0 =>
            if t0 + 8 * PX 0 va = 0 then 0
            else if s.mem (t0 + 8 * PX 0 va) &&& PTE_V = 0 then 0
            else if s.mem (t0 + 8 * PX 0 va) &&& PTE_U = 0 then 0
            else PTE2PA (s.mem (t0 + 8 * PX 0 va))) s := by
  unfold walkaddr
  by_cases h : va ≥ L.MAXVA
  · rw [if_pos h, if_pos h]
  · rw [if_neg h, if_neg h, walk_false_eq, if_neg h]
    cases h0 : tab0 s.mem pagetable (PX 2 va) (PX 1 va) with
    | none => simp
    | some t0 =>
        simp only []
        split_ifs <;> rfl

/-- C17: `walkaddr` returns in the state it was called in (it writes no word
of the page table). It returns 0 when `va ≥ MAXVA`, when the level-2 entry of
`va` is not valid, when the level-1 entry is not valid, when the leaf entry is
not valid and when the leaf entry lacks `PTE_U`. In every other case (the leaf
entry not being at the null address) it returns `PTE2PA` of the leaf entry
selected by `PX(2, va)`, `PX(1, va)`, `PX(0, va)`. For a page-aligned `MAXVA`,
two addresses with the same page number give the same result. -/
theorem walkaddr_translates (L : Layout) (s : State) (pagetable va : Nat) :
    ∃ r, walkaddr L s pagetable va = Outcome.ret r s ∧
      (L.MAXVA ≤ va → r = 0) ∧
      (s.mem (pagetable + 8 * PX 2 va) &&& PTE_V = 0 → r = 0) ∧
      (∀ t1, tab1 s.mem pagetable (PX 2 va) = some t1 →
        s.mem (t1 + 8 * PX 1 va) &&& PTE_V = 0 → r = 0) ∧
      (∀ t0, tab0 s.mem pagetable (PX 2 va) (PX 1 va) = some t0 →
        s.mem (t0 + 8 * PX 0 va) &&& PTE_V = 0 → r = 0) ∧
      (∀ t0, tab0 s.mem pagetable (PX 2 va) (PX 1 va) = some t0 →
        s.mem (t0 + 8 * PX 0 va) &&& PTE_U = 0 → r = 0) ∧
      (∀ t0, va < L.MAXVA → tab0 s.mem pagetable (PX 2 va) (PX 1 va) = some t0 →
        t0 + 8 * PX 0 va ≠ 0 →
        s.mem (t0 + 8 * PX 0 va) &&& PTE_V ≠ 0 → s.mem (t0 + 8 * PX 0 va) &&& PTE_U ≠ 0 →
        r = PTE2PA (s.mem (t0 + 8 * PX 0 va))) ∧
      (∀ va', L.MAXVA % PGSIZE = 0 → va' / PGSIZE = va / PGSIZE →
        walkaddr L s pagetable va' = Outcome.ret r s) := by
  refine ⟨_, walkaddr_eq L s pagetable va, ?_, ?_, ?_, ?_, ?_, ?_, ?_⟩
  · intro h
    rw [if_pos h]
  · intro h
    rw [tab0_of_no_tab1 (tab1_of_invalid h)]
    simp
  · intro t1 h1 h
    rw [tab0_of_tab1 h1]
    simp [h]
  · intro t0 h0 h
    rw [h0]
    simp only [h, if_true]
    split_ifs <;> rfl
  · intro t0 h0 h
    rw [h0]
    simp only [h, if_true]
    split_ifs <;> rfl
  · intro t0 hva h0 hne hv hu
    rw [h0, if_neg (by omega)]
    simp only [hne, hv, hu, if_false]
  · intro va' hM hpage
    rw [walkaddr_eq, PX_of_page 2 va' va hpage, PX_of_page 1 va' va hpage,
      PX_of_page 0 va' va hpage]
    have hiff : va' ≥ L.MAXVA ↔ va ≥ L.MAXVA := by
      unfold PGSIZE at hM hpage
      omega
    simp only [hiff]

/-- C17 at a concrete input: the address `MMAP + 5` in `twoMappedState`, whose
page is mapped to the frame `0x80001000`. -/
theorem walkaddr_translates_witness :
    walkaddr demo twoMappedState 0x80000000 (2 ^ 36 + 5)
      = Outcome.ret 0x80001000 twoMappedState ∧
    walkaddr demo twoMappedState 0x80000000 (2 ^ 36 + 4095)
      = Outcome.ret 0x80001000 twoMappedState ∧
    walkaddr demo twoMappedState 0x80000000 (2 ^ 38) = Outcome.ret 0 twoMappedState := by
  obtain ⟨r, h, _, _, _, _, _, he, hp⟩ :=
    walkaddr_translates demo twoMappedState 0x80000000 (2 ^ 36 + 5)
  obtain ⟨r', h', hm, _⟩ := walkaddr_translates demo twoMappedState 0x80000000 (2 ^ 38)
  have hr : r = 0x80001000 :=
    (he 0x80003000 (by decide) (by rfl) (by decide) (by decide) (by decide)).trans (by rfl)
  have hr' : r' = 0 := hm (by decide)
  subst hr hr'
  exact ⟨h, hp (2 ^ 36 + 4095) (by decide) (by decide), h'⟩

/-! ### `uvmunmap` -/

theorem translation_leafAt (L : Layout) (s : State) (va : Nat) :
    translation L s va = leafAt L s.mem s.p.pagetable va := translation_eq L s va

/-- The entry `leafAt` reports is the word `walk` without allocation points
to. -/
theorem leafAt_walk (L : Layout) (s : State) (root va : Nat) (hva : va < L.MAXVA) :
    ∃ pte, walk L s root va false = Outcome.ret pte s ∧
      leafAt L s.mem root va =
        if pte = 0 then none else if s.mem pte &&& PTE_V = 0 then none else some (s.mem pte) := by
  rw [walk_false_eq, if_neg (by omega)]
  refine ⟨_, rfl, ?_⟩
  unfold leafAt entryIdx
  rw [if_neg (by omega)]
  cases h0 : tab0 s.mem root (PX 2 va) (PX 1 va) with
  | none => simp
  | some t0 => simp

theorem leafAt_some {L : Layout} {m : Nat → Nat} {root va e : Nat}
    (h : leafAt L m root va = some e) :
    va < L.MAXVA ∧ ∃ t0, tab0 m root (PX 2 va) (PX 1 va) = some t0 ∧ t0 + 8 * PX 0 va ≠ 0 ∧
      m (t0 + 8 * PX 0 va) = e ∧ e &&& PTE_V ≠ 0 := by
  unfold leafAt at h
  split_ifs at h with hge
  refine ⟨by omega, ?_⟩
  cases h0 : tab0 m root (PX 2 va) (PX 1 va) with
  | none => rw [entryIdx_of_no_tab0 h0] at h; exact absurd h (by simp)
  | some t0 =>
      rw [entryIdx_of_tab0 h0] at h
      split_ifs at h with h1 h2
      injection h with h
      exact ⟨t0, rfl, h1, h, by rw [← h]; exact h2⟩

/-- A store into the leaf word of the page `addr` of the table rooted at
`root`: the table stays a tree with the same page-table pages, the entry of
`addr` becomes the stored word (when valid) and no other entry changes. -/
theorem store_leaf_at (L : Layout) (m : Nat → Nat) (root addr t0 v : Nat)
    (hMAXVA : L.MAXVA ≤ 2 ^ 39) (hal : addr % PGSIZE = 0) (hlt : addr < L.MAXVA)
    (ht : PtTree m root)
    (h0 : tab0 m root (PX 2 addr) (PX 1 addr) = some t0) :
    PtTree (Function.update m (t0 + 8 * PX 0 addr) v) root ∧
    (∀ i, i < 512 → tab1 (Function.update m (t0 + 8 * PX 0 addr) v) root i = tab1 m root i) ∧
    (∀ i j, i < 512 → j < 512 →
      tab0 (Function.update m (t0 + 8 * PX 0 addr) v) root i j = tab0 m root i j) ∧
    leafAt L (Function.update m (t0 + 8 * PX 0 addr) v) root addr
      = (if v &&& PTE_V = 0 then none else some v) ∧
    (∀ x, PGROUNDDOWN x ≠ addr →
      leafAt L (Function.update m (t0 + 8 * PX 0 addr) v) root x = leafAt L m root x) := by
  have hi0 := PX_lt 2 addr
  have hj0 := PX_lt 1 addr
  have hk0 := PX_lt 0 addr
  have hls := leaf_store_any m root _ _ _ t0 v hi0 hj0 hk0 h0
    (ht.tab0_ne _ _ _ hi0 hj0 h0) (ht.root_tab0 _ _ _ hi0 hj0 h0)
    (fun i t hi h => ht.tab1_tab0 i _ _ t t0 hi hi0 hj0 h h0)
    (fun i j t hi hj hij h => ht.tab0_tab0 i j _ _ t t0 hi hj hi0 hj0 h h0 hij)
  have e1 : ∀ i, i < 512 →
      tab1 (Function.update m (t0 + 8 * PX 0 addr) v) root i = tab1 m root i :=
    fun i hi => (hls i 0 0 hi (by decide) (by decide)).1
  have e0 : ∀ i j, i < 512 → j < 512 →
      tab0 (Function.update m (t0 + 8 * PX 0 addr) v) root i j = tab0 m root i j :=
    fun i j hi hj => (hls i j 0 hi hj (by decide)).2.1
  refine ⟨PtTree_congr _ _ _ e1 e0 ht, e1, e0, ?_, ?_⟩
  · unfold leafAt
    rw [if_neg (by omega), (hls _ _ _ hi0 hj0 hk0).2.2, if_pos ⟨rfl, rfl, rfl⟩]
  · intro x hne
    unfold leafAt
    by_cases hge : x ≥ L.MAXVA
    · rw [if_pos hge, if_pos hge]
    · rw [if_neg hge, if_neg hge, (hls _ _ _ (PX_lt 2 x) (PX_lt 1 x) (PX_lt 0 x)).2.2]
      have : ¬ (PX 2 x = PX 2 addr ∧ PX 1 x = PX 1 addr ∧ PX 0 x = PX 0 addr) := by
        rintro ⟨h2, h1, h0'⟩
        apply hne
        have hd : PGROUNDDOWN x ≤ x := Nat.sub_le _ _
        exact PX_inj (PGROUNDDOWN x) addr (by omega) (by omega) (PGROUNDDOWN_aligned x) hal
          (by rw [PX_PGROUNDDOWN]; exact h2) (by rw [PX_PGROUNDDOWN]; exact h1)
          (by rw [PX_PGROUNDDOWN]; exact h0')
      rw [if_neg this]

theorem framesOf_cons_some (L : Layout) (m : Nat → Nat) (root x e : Nat) (l : List Nat)
    (h : leafAt L m root x = some e) :
    framesOf L m root (x :: l) = PTE2PA e :: framesOf L m root l := by
  unfold framesOf
  rw [List.filterMap_cons, h]
  rfl

theorem framesOf_congr (L : Layout) (m m' : Nat → Nat) (root : Nat) (l : List Nat)
    (h : ∀ x ∈ l, leafAt L m' root x = leafAt L m root x) :
    framesOf L m' root l = framesOf L m root l := by
  unfold framesOf
  induction l with
  | nil => rfl
  | cons a l ih =>
      rw [List.filterMap_cons, List.filterMap_cons, h a (List.mem_cons_self _ _),
        ih (fun x hx => h x (List.mem_cons_of_mem _ hx))]

/-- The loop of `uvmunmap` from the page `a`. -/
theorem uvmunmap_loop_effect (L : Layout) (root stop : Nat) (do_free : Bool)
    (hMAXVA : L.MAXVA ≤ 2 ^ 39) (hstop : stop % PGSIZE = 0) (hstop64 : stop < 2 ^ 64) :
    ∀ (fuel : Nat) (s : State) (a : Nat),
      a % PGSIZE = 0 → PtTree s.mem root → (stop - a) / PGSIZE < fuel →
      ((∀ x ∈ pagesOf a stop, ∃ e, leafAt L s.mem root x = some e ∧ PTE_FLAGS e ≠ PTE_V) →
        ∃ s', uvmunmap_loop L root stop do_free fuel s a = Outcome.ret () s' ∧
          PtTree s'.mem root ∧
          (∀ x ∈ pagesOf a stop, leafAt L s'.mem root x = none) ∧
          (∀ y, PGROUNDDOWN y ∉ pagesOf a stop → leafAt L s'.mem root y = leafAt L s.mem root y) ∧
          (∀ c, (∀ x ∈ pagesOf a stop, ∀ t0, tab0 s.mem root (PX 2 x) (PX 1 x) = some t0 →
              c ≠ t0 + 8 * PX 0 x) → s'.mem c = s.mem c) ∧
          s'.kmem = (if do_free = true then (framesOf L s.mem root (pagesOf a stop)).reverse
                      else []) ++ s.kmem ∧
          SameVma s s' ∧ s'.log = s.log) ∧
      ((∃ x ∈ pagesOf a stop, ¬ ∃ e, leafAt L s.mem root x = some e ∧ PTE_FLAGS e ≠ PTE_V) →
        ∃ msg s', uvmunmap_loop L root stop do_free fuel s a = Outcome.panic msg s') := by
  intro fuel
  induction fuel with
  | zero => intro s a _ _ hf; simp at hf
  | succ n ih =>
      intro s a hal ht hf
      by_cases hlt : a < stop
      · have hu : u64 (a + PGSIZE) = a + PGSIZE :=
          u64_of_lt (by unfold PGSIZE at *; omega)
        have hal' : (a + PGSIZE) % PGSIZE = 0 := by unfold PGSIZE at *; omega
        have hf' : (stop - (a + PGSIZE)) / PGSIZE < n := by
          unfold PGSIZE at *; omega
        have hpages := pagesOf_cons a stop hal hstop hlt
        have hnotin : a ∉ pagesOf (a + PGSIZE) stop := by
          intro hx
          obtain ⟨_, hx1, _⟩ := mem_pagesOf _ _ a hal' hx
          unfold PGSIZE at hx1
          omega
        have hrest_ne : ∀ x ∈ pagesOf (a + PGSIZE) stop, PGROUNDDOWN x ≠ a := by
          intro x hx
          obtain ⟨hx0, hx1, _⟩ := mem_pagesOf _ _ x hal' hx
          rw [PGROUNDDOWN_of_aligned x hx0]
          unfold PGSIZE at hx1
          omega
        -- is the first page a valid leaf?
        by_cases hgood : ∃ e, leafAt L s.mem root a = some e ∧ PTE_FLAGS e ≠ PTE_V
        · obtain ⟨e, he, hfl⟩ := hgood
          obtain ⟨haM, t0, h0, hpte, hme, hv⟩ := leafAt_some he
          obtain ⟨q1, q2, q3, q4, q5⟩ := store_leaf_at L s.mem root a t0 0 hMAXVA hal haM ht h0
          rw [if_pos zero_invalid] at q4
          -- the state after the body
          have hbody : uvmunmap_loop L root stop do_free (n + 1) s a =
              uvmunmap_loop L root stop do_free n
                ((if do_free = true then kfree s (PTE2PA e) else s).store (t0 + 8 * PX 0 a) 0)
                (a + PGSIZE) := by
            rw [uvmunmap_loop, if_pos hlt, walk_false_eq, if_neg (by omega), h0]
            simp only [hpte, if_false, hme]
            rw [if_neg hv, if_neg hfl, hu]
          have hmem1 : ((if do_free = true then kfree s (PTE2PA e) else s).store
              (t0 + 8 * PX 0 a) 0).mem = Function.update s.mem (t0 + 8 * PX 0 a) 0 := by
            cases do_free <;> rfl
          have hkm1 : ((if do_free = true then kfree s (PTE2PA e) else s).store
              (t0 + 8 * PX 0 a) 0).kmem = (if do_free = true then [PTE2PA e] else []) ++ s.kmem := by
            cases do_free <;> rfl
          have hsv1 : SameVma s ((if do_free = true then kfree s (PTE2PA e) else s).store
              (t0 + 8 * PX 0 a) 0) := by
            cases do_free <;> exact ⟨rfl, rfl, rfl, rfl, rfl⟩
          have hlog1 : ((if do_free = true then kfree s (PTE2PA e) else s).store
              (t0 + 8 * PX 0 a) 0).log = s.log := by
            cases do_free <;> rfl
          generalize hs1 : (if do_free = true then kfree s (PTE2PA e) else s).store
              (t0 + 8 * PX 0 a) 0 = s1 at hbody hmem1 hkm1 hsv1 hlog1
          have ht1 : PtTree s1.mem root := by rw [hmem1]; exact q1
          obtain ⟨ihg, ihb⟩ := ih s1 (a + PGSIZE) hal' ht1 hf'
          have hsame : ∀ x ∈ pagesOf (a + PGSIZE) stop,
              leafAt L s1.mem root x = leafAt L s.mem root x := by
            intro x hx
            rw [hmem1]
            exact q5 x (hrest_ne x hx)
          constructor
          · intro hall
            rw [hpages] at hall
            obtain ⟨s', r1, r2, r3, r4, r5, r6, r7, r8⟩ := ihg (fun x hx => by
              rw [hsame x hx]
              exact hall x (List.mem_cons_of_mem _ hx))
            refine ⟨s', by rw [hbody]; exact r1, r2, ?_, ?_, ?_, ?_, hsv1.trans r7,
              by rw [r8, hlog1]⟩
            · intro x hx
              rw [hpages] at hx
              rcases List.mem_cons.1 hx with rfl | hx'
              · rw [r4 x (by rw [PGROUNDDOWN_of_aligned x hal]; exact hnotin), hmem1]
                exact q4
              · exact r3 x hx'
            · intro y hy
              rw [hpages, List.mem_cons, not_or] at hy
              rw [r4 y hy.2, hmem1]
              exact q5 y hy.1
            · intro c hc
              rw [hpages] at hc
              rw [r5 c (fun x hx t hx0 => by
                rw [hmem1, q3 _ _ (PX_lt 2 x) (PX_lt 1 x)] at hx0
                exact hc x (List.mem_cons_of_mem _ hx) t hx0), hmem1]
              exact Function.update_noteq (hc a (List.mem_cons_self _ _) t0 h0) _ _
            · rw [r6, hkm1, hpages, framesOf_cons_some L s.mem root a e _ he,
                framesOf_congr L s.mem s1.mem root _ hsame]
              cases do_free <;> simp
          · rintro ⟨x, hx, hbad⟩
            rw [hpages] at hx
            rcases List.mem_cons.1 hx with rfl | hx'
            · exact absurd ⟨e, he, hfl⟩ hbad
            · obtain ⟨msg, s', hp⟩ := ihb ⟨x, hx', by rw [hsame x hx']; exact hbad⟩
              exact ⟨msg, s', by rw [hbody]; exact hp⟩
        · constructor
          · intro hall
            exact absurd (hall a (by rw [hpages]; exact List.mem_cons_self _ _)) hgood
          · intro _
            rw [uvmunmap_loop, if_pos hlt, walk_false_eq]
            by_cases haM : a ≥ L.MAXVA
            · rw [if_pos haM]; exact ⟨_, _, rfl⟩
            rw [if_neg haM]
            cases h0 : tab0 s.mem root (PX 2 a) (PX 1 a) with
            | none => exact ⟨"uvmunmap: walk", s, by simp⟩
            | some t0 =>
                simp only []
                by_cases hpte : t0 + 8 * PX 0 a = 0
                · rw [if_pos hpte]; exact ⟨_, _, rfl⟩
                rw [if_neg hpte]
                by_cases hv : s.mem (t0 + 8 * PX 0 a) &&& PTE_V = 0
                · rw [if_pos hv]; exact ⟨_, _, rfl⟩
                rw [if_neg hv]
                by_cases hfl : PTE_FLAGS (s.mem (t0 + 8 * PX 0 a)) = PTE_V
                · rw [if_pos hfl]; exact ⟨_, _, rfl⟩
                exfalso
                apply hgood
                refine ⟨s.mem (t0 + 8 * PX 0 a), ?_, hfl⟩
                unfold leafAt
                rw [if_neg (by omega), entryIdx_of_tab0 h0, if_neg hpte, if_neg hv]
      · rw [pagesOf_nil a stop hlt]
        constructor
        · intro _
          refine ⟨s, by rw [uvmunmap_loop, if_neg hlt], ht,
            fun x hx => absurd hx (List.not_mem_nil x), fun y _ => rfl, fun c _ => rfl, ?_,
            SameVma.refl s, rfl⟩
          cases do_free <;> simp [framesOf]
        · rintro ⟨x, hx, _⟩
          exact absurd hx (List.not_mem_nil x)

/-- C19: for a page table that is a tree (`MAXVA ≤ 2^39`), a page-aligned `va`
and `npages` pages whose range does not wrap at `2^64`, with a loop budget
above `npages`: (1) `uvmunmap` ends in `panic` exactly when one of the
`npages` pages from `va` on has no valid leaf entry (a table on the way is
missing or the entry lacks `PTE_V`) or has a valid entry whose flags are only
`PTE_V`; (2) otherwise it returns, every one of these pages has no valid entry
afterwards, the entry of every other page is as before, the only words of
memory that changed are the leaf words of these pages, the frames of the
removed pages have been pushed onto the free list of the frame allocator in
page order when `do_free` is set, and the free list is as before when it is
not. (3) The entry `leafAt` reports for a page is the word that `walk` without
allocation points to, when that word is valid. -/
theorem uvmunmap_removes_leaves (L : Layout) (s : State) (fuel root va npages : Nat)
    (do_free : Bool)
    (hMAXVA : L.MAXVA ≤ 2 ^ 39) (ht : PtTree s.mem root) (hal : va % PGSIZE = 0)
    (hnw : va + npages * PGSIZE < 2 ^ 64) (hfuel : npages < fuel) :
    ((∃ msg s', uvmunmap L fuel s root va npages do_free = Outcome.panic msg s') ↔
      ∃ x ∈ pagesOf va (va + npages * PGSIZE),
        leafAt L s.mem root x = none ∨
        ∃ e, leafAt L s.mem root x = some e ∧ PTE_FLAGS e = PTE_V) ∧
    ((∀ x ∈ pagesOf va (va + npages * PGSIZE),
        ∃ e, leafAt L s.mem root x = some e ∧ PTE_FLAGS e ≠ PTE_V) →
      ∃ s', uvmunmap L fuel s root va npages do_free = Outcome.ret () s' ∧
        (∀ x ∈ pagesOf va (va + npages * PGSIZE), leafAt L s'.mem root x = none) ∧
        (∀ y, PGROUNDDOWN y ∉ pagesOf va (va + npages * PGSIZE) →
          leafAt L s'.mem root y = leafAt L s.mem root y) ∧
        (∀ c, (∀ x ∈ pagesOf va (va + npages * PGSIZE), ∀ t0,
            tab0 s.mem root (PX 2 x) (PX 1 x) = some t0 → c ≠ t0 + 8 * PX 0 x) →
          s'.mem c = s.mem c) ∧
        s'.kmem = (if do_free = true then
            (framesOf L s.mem root (pagesOf va (va + npages * PGSIZE))).reverse
          else []) ++ s.kmem ∧
        SameVma s s' ∧ s'.log = s.log) ∧
    (∀ (t : State) (x : Nat), x < L.MAXVA →
      ∃ pte, walk L t root x false = Outcome.ret pte t ∧
        leafAt L t.mem root x =
          if pte = 0 then none else if t.mem pte &&& PTE_V = 0 then none
          else some (t.mem pte)) := by
  have hp64 : npages * PGSIZE < 2 ^ 64 := by omega
  have hstop : u64 (va + u64 (npages * PGSIZE)) = va + npages * PGSIZE := by
    rw [u64_of_lt hp64, u64_of_lt hnw]
  have hun : uvmunmap L fuel s root va npages do_free =
      uvmunmap_loop L root (va + npages * PGSIZE) do_free fuel s va := by
    unfold uvmunmap
    rw [if_neg (by simpa using hal), hstop]
  have hstopal : (va + npages * PGSIZE) % PGSIZE = 0 := by
    unfold PGSIZE at *; omega
  have hf : (va + npages * PGSIZE - va) / PGSIZE < fuel := by
    rw [Nat.add_sub_cancel_left, Nat.mul_div_cancel _ (by decide : 0 < PGSIZE)]
    exact hfuel
  obtain ⟨hg, hb⟩ := uvmunmap_loop_effect L root (va + npages * PGSIZE) do_free hMAXVA hstopal
    hnw fuel s va hal ht hf
  rw [hun]
  have hequiv : ∀ x, (leafAt L s.mem root x = none ∨
        ∃ e, leafAt L s.mem root x = some e ∧ PTE_FLAGS e = PTE_V) ↔
      ¬ ∃ e, leafAt L s.mem root x = some e ∧ PTE_FLAGS e ≠ PTE_V := by
    intro x
    cases hx : leafAt L s.mem root x with
    | none => simp
    | some e => simp
  refine ⟨⟨?_, ?_⟩, ?_, fun t x hx => leafAt_walk L t root x hx⟩
  · rintro ⟨msg, s', hp⟩
    by_contra hno
    have hall : ∀ x ∈ pagesOf va (va + npages * PGSIZE),
        ∃ e, leafAt L s.mem root x = some e ∧ PTE_FLAGS e ≠ PTE_V := by
      intro x hx
      by_contra hbad
      exact hno ⟨x, hx, (hequiv x).2 hbad⟩
    obtain ⟨s'', hr, _⟩ := hg hall
    rw [hr] at hp
    exact absurd hp (by simp)
  · rintro ⟨x, hx, hbad⟩
    exact hb ⟨x, hx, (hequiv x).1 hbad⟩
  · intro hall
    obtain ⟨s', r1, _, r3, r4, r5, r6, r7, r8⟩ := hg hall
    exact ⟨s', r1, r3, r4, r5, r6, r7, r8⟩

theorem dirtyMem_leaf : leafAt demo dirtyMem 0x80000000 (2 ^ 36)
    = some (PA2PTE 0x80001000 ||| (PTE_U ||| PTE_R ||| PTE_W ||| PTE_D) ||| PTE_V) := by
  rfl

/-- C19 at a concrete input: `uvmunmap` of the one mapped page of `dirtyState`
with `do_free = 1`, and of two pages from there on (the second is not
mapped). -/
theorem uvmunmap_removes_leaves_witness :
    (∃ s', uvmunmap demo 8 dirtyState 0x80000000 (2 ^ 36) 1 true = Outcome.ret () s' ∧
      (∀ x ∈ pagesOf (2 ^ 36) (2 ^ 36 + 1 * PGSIZE), leafAt demo s'.mem 0x80000000 x = none) ∧
      (∀ y, PGROUNDDOWN y ∉ pagesOf (2 ^ 36) (2 ^ 36 + 1 * PGSIZE) →
        leafAt demo s'.mem 0x80000000 y = leafAt demo dirtyState.mem 0x80000000 y) ∧
      (∀ c, (∀ x ∈ pagesOf (2 ^ 36) (2 ^ 36 + 1 * PGSIZE), ∀ t0,
          tab0 dirtyState.mem 0x80000000 (PX 2 x) (PX 1 x) = some t0 → c ≠ t0 + 8 * PX 0 x) →
        s'.mem c = dirtyState.mem c) ∧
      s'.kmem = (if true = true then
          (framesOf demo dirtyState.mem 0x80000000
            (pagesOf (2 ^ 36) (2 ^ 36 + 1 * PGSIZE))).reverse
        else []) ++ dirtyState.kmem ∧
      SameVma dirtyState s' ∧ s'.log = dirtyState.log) ∧
    (∃ msg s', uvmunmap demo 8 dirtyState 0x80000000 (2 ^ 36) 2 true = Outcome.panic msg s') :=
  ⟨(uvmunmap_removes_leaves demo dirtyState 8 0x80000000 (2 ^ 36) 1 true (by decide)
      dirtyMem_tree (by decide) (by decide) (by decide)).2.1 (fun x hx => by
        have hx' : x = 2 ^ 36 := by
          have hp : pagesOf (2 ^ 36) (2 ^ 36 + 1 * PGSIZE) = [2 ^ 36] := by decide
          rw [hp] at hx
          simpa using hx
        subst hx'
        exact ⟨_, dirtyMem_leaf, by decide⟩),
   (uvmunmap_removes_leaves demo dirtyState 8 0x80000000 (2 ^ 36) 2 true (by decide)
      dirtyMem_tree (by decide) (by decide) (by decide)).1.2
      ⟨2 ^ 36 + 4096, by decide, Or.inl (by rfl)⟩⟩

/-! ### `walk` with allocation keeps the table a tree -/

theorem leafAt_congr (L : Layout) (m m' : Nat → Nat) (root : Nat)
    (h : ∀ i j k, i < 512 → j < 512 → k < 512 → entryIdx m' root i j k = entryIdx m root i j k)
    (y : Nat) : leafAt L m' root y = leafAt L m root y := by
  unfold leafAt
  rw [h _ _ _ (PX_lt 2 y) (PX_lt 1 y) (PX_lt 0 y)]

theorem walkaddr_userPa (L : Layout) (s : State) (root va : Nat) :
    walkaddr L s root va = Outcome.ret (userPa L s.mem root va) s := by
  rw [walkaddr_eq]
  congr 1
  unfold userPa leafAt
  by_cases h : va ≥ L.MAXVA
  · rw [if_pos h, if_pos h]
  · rw [if_neg h, if_neg h]
    cases h0 : tab0 s.mem root (PX 2 va) (PX 1 va) with
    | none => rw [entryIdx_of_no_tab0 h0]
    | some t0 =>
        rw [entryIdx_of_tab0 h0]
        simp only []
        by_cases h1 : t0 + 8 * PX 0 va = 0
        · rw [if_pos h1, if_pos h1]
        rw [if_neg h1, if_neg h1]
        by_cases h2 : s.mem (t0 + 8 * PX 0 va) &&& PTE_V = 0
        · rw [if_pos h2, if_pos h2]
        rw [if_neg h2, if_neg h2]

theorem PTE2PA_bound (e : Nat) : PTE2PA e % PGSIZE = 0 ∧ PTE2PA e < 2 ^ 64 := by
  unfold PTE2PA u64 PGSIZE
  rw [Nat.shiftLeft_eq]
  constructor
  · have h : (e >>> 10 * 2 ^ 12) % 2 ^ 64 % 4096 = (e >>> 10 * 2 ^ 12) % 4096 :=
      Nat.mod_mod_of_dvd _ (by norm_num)
    rw [h]
    omega
  · exact Nat.mod_lt _ (by norm_num)

theorem userPa_bound (L : Layout) (m : Nat → Nat) (root va : Nat) :
    userPa L m root va % PGSIZE = 0 ∧ userPa L m root va < 2 ^ 64 ∧
    (userPa L m root va ≠ 0 → va < L.MAXVA) := by
  unfold userPa
  cases h : leafAt L m root va with
  | none => exact ⟨by decide, by decide, fun h => absurd rfl h⟩
  | some e =>
      simp only []
      split_ifs
      · exact ⟨by decide, by decide, fun h => absurd rfl h⟩
      · exact ⟨(PTE2PA_bound e).1, (PTE2PA_bound e).2, fun _ => (leafAt_some h).1⟩

/-- A memory that agrees with `m` on the pages of the page table gives the
same tables and the same translations. -/
theorem userPa_stable (L : Layout) (m m' : Nat → Nat) (root : Nat)
    (h : ∀ x, InPt m root x → m' x = m x) :
    (∀ va, userPa L m' root va = userPa L m root va) ∧
    (∀ x, InPt m' root x ↔ InPt m root x) := by
  have hall : ∀ i j k, i < 512 → j < 512 → k < 512 →
      tab1 m' root i = tab1 m root i ∧ tab0 m' root i j = tab0 m root i j ∧
      entryIdx m' root i j k = entryIdx m root i j k := by
    intro i j k hi hj hk
    apply entryIdx_frame
    · exact h _ (Or.inl ⟨by omega, by unfold PGSIZE; omega⟩)
    · intro t ht
      exact h _ (Or.inr (Or.inl ⟨i, t, hi, ht, by omega, by unfold PGSIZE; omega⟩))
    · intro t ht
      exact h _ (Or.inr (Or.inr ⟨i, j, t, hi, hj, ht, by omega, by unfold PGSIZE; omega⟩))
  constructor
  · intro va
    unfold userPa
    rw [leafAt_congr L m m' root (fun i j k hi hj hk => (hall i j k hi hj hk).2.2)]
  · intro x
    unfold InPt
    constructor
    · rintro (h0 | ⟨i, t, hi, ht, hx⟩ | ⟨i, j, t, hi, hj, ht, hx⟩)
      · exact Or.inl h0
      · rw [(hall i 0 0 hi (by decide) (by decide)).1] at ht
        exact Or.inr (Or.inl ⟨i, t, hi, ht, hx⟩)
      · rw [(hall i j 0 hi hj (by decide)).2.1] at ht
        exact Or.inr (Or.inr ⟨i, j, t, hi, hj, ht, hx⟩)
    · rintro (h0 | ⟨i, t, hi, ht, hx⟩ | ⟨i, j, t, hi, hj, ht, hx⟩)
      · exact Or.inl h0
      · rw [← (hall i 0 0 hi (by decide) (by decide)).1] at ht
        exact Or.inr (Or.inl ⟨i, t, hi, ht, hx⟩)
      · rw [← (hall i j 0 hi hj (by decide)).2.1] at ht
        exact Or.inr (Or.inr ⟨i, j, t, hi, hj, ht, hx⟩)

/-- The bytes of one pass of the copy loops: the first `n` bytes from `va` on
lie in the page of `va`, and the bytes after them start at the next page. -/
theorem chunk_pages (va len : Nat) (hlen : 0 < len) :
    (∀ i, i < min len (PGSIZE - va % PGSIZE) →
      PGROUNDDOWN (va + i) = PGROUNDDOWN va ∧ (va + i) % PGSIZE = va % PGSIZE + i) ∧
    (min len (PGSIZE - va % PGSIZE) < len →
      PGROUNDDOWN va + PGSIZE = va + min len (PGSIZE - va % PGSIZE)) ∧
    0 < min len (PGSIZE - va % PGSIZE) ∧ min len (PGSIZE - va % PGSIZE) ≤ len := by
  unfold PGROUNDDOWN PGSIZE
  have hm : va % 4096 < 4096 := Nat.mod_lt _ (by norm_num)
  refine ⟨?_, ?_, ?_, ?_⟩
  · intro i hi
    have : i < 4096 - va % 4096 := lt_of_lt_of_le hi (min_le_right _ _)
    omega
  · intro h
    have : min len (4096 - va % 4096) = 4096 - va % 4096 := by
      rcases min_choice len (4096 - va % 4096) with h' | h'
      · omega
      · exact h'
    omega
  · exact lt_min hlen (by omega)
  · exact min_le_left _ _

theorem copy_arith (va pa0 : Nat) (hd : va < 2 ^ 64)
    (hpa : pa0 % PGSIZE = 0) (hpa64 : pa0 < 2 ^ 64) (hva : PGROUNDDOWN va + PGSIZE < 2 ^ 64) :
    sub64 va (PGROUNDDOWN va) = va % PGSIZE ∧
    sub64 PGSIZE (va % PGSIZE) = PGSIZE - va % PGSIZE ∧
    u64 (pa0 + va % PGSIZE) = pa0 + va % PGSIZE ∧
    u64 (PGROUNDDOWN va + PGSIZE) = PGROUNDDOWN va + PGSIZE := by
  unfold sub64 u64 PGROUNDDOWN PGSIZE at *
  have hm : va % 4096 < 4096 := Nat.mod_lt _ (by norm_num)
  refine ⟨by omega, by omega, by omega, by omega⟩

theorem copy_arith_len (src len n : Nat) (hs : src + len < 2 ^ 64) (hn : n ≤ len) :
    u64 (src + n) = src + n ∧ sub64 len n = len - n := by
  unfold sub64 u64
  refine ⟨by omega, by omega⟩

theorem min_as_if (len k : Nat) : (if k > len then len else k) = min len k := by
  split_ifs with h
  · exact (min_eq_left (by omega)).symm
  · exact (min_eq_right (by omega)).symm

/-- One pass of the loop of `copyout` on a translated page. -/
theorem copyout_loop_step (L : Layout) (root : Nat) (hMAXVA : L.MAXVA ≤ 2 ^ 39)
    (fuel : Nat) (s : State) (dstva src len : Nat)
    (hd : dstva < 2 ^ 64) (hs : src + len < 2 ^ 64) (hlen : 0 < len)
    (hpa : userPa L s.mem root (PGROUNDDOWN dstva) ≠ 0) :
    copyout_loop L root (fuel + 1) s dstva src len =
      copyout_loop L root fuel
        (s.memmove (userPa L s.mem root (PGROUNDDOWN dstva) + dstva % PGSIZE) src
          (min len (PGSIZE - dstva % PGSIZE)))
        (PGROUNDDOWN dstva + PGSIZE) (src + min len (PGSIZE - dstva % PGSIZE))
        (len - min len (PGSIZE - dstva % PGSIZE)) := by
  obtain ⟨b1, b2, b3⟩ := userPa_bound L s.mem root (PGROUNDDOWN dstva)
  have hva := b3 hpa
  obtain ⟨a1, a2, a3, a4⟩ := copy_arith dstva _ hd b1 b2 (by unfold PGSIZE; omega)
  obtain ⟨a5, a6⟩ := copy_arith_len src len (min len (PGSIZE - dstva % PGSIZE)) hs
    (min_le_left _ _)
  rw [copyout_loop, if_pos hlen]
  simp only [walkaddr_userPa, hpa, if_false, a1, a2, min_as_if, a3, a4, a5, a6]

/-- The loop of `copyout`: the result, the bytes it stored and the memory it
left alone. The bytes of the pages up to the first page without a user
translation are transferred. -/
theorem copyout_loop_effect (L : Layout) (root : Nat) (hMAXVA : L.MAXVA ≤ 2 ^ 39) :
    ∀ (fuel : Nat) (s : State) (dstva src len : Nat),
      dstva < 2 ^ 64 → src + len < 2 ^ 64 →
      (len + dstva % PGSIZE + PGSIZE - 1) / PGSIZE < fuel →
      (∀ i, i < len → Translated L s.mem root (dstva + i) →
        ¬ InPt s.mem root (userCell L s.mem root (dstva + i))) →
      (∀ i, i < len → Translated L s.mem root (dstva + i) →
        ¬ (src ≤ userCell L s.mem root (dstva + i)
            ∧ userCell L s.mem root (dstva + i) < src + len)) →
      (∀ i j, i < len → j < len → Translated L s.mem root (dstva + i) →
        Translated L s.mem root (dstva + j) →
        userCell L s.mem root (dstva + i) = userCell L s.mem root (dstva + j) → i = j) →
      ∃ r s', copyout_loop L root fuel s dstva src len = Outcome.ret r s' ∧
        ((∀ i, i < len → Translated L s.mem root (dstva + i)) → r = 0) ∧
        ((∃ i, i < len ∧ ¬ Translated L s.mem root (dstva + i)) → r = -1) ∧
        (∀ i, i < len → (∀ j, j ≤ i → Translated L s.mem root (dstva + j)) →
          s'.mem (userCell L s.mem root (dstva + i)) = s.mem (src + i)) ∧
        (∀ x, (∀ i, i < len → (∀ j, j ≤ i → Translated L s.mem root (dstva + j)) →
            x ≠ userCell L s.mem root (dstva + i)) → s'.mem x = s.mem x) ∧
        SameVma s s' ∧ s'.kmem = s.kmem ∧ s'.log = s.log := by
  intro fuel
  induction fuel with
  | zero => intro s dstva src len _ _ hf; simp at hf
  | succ k ih =>
      intro s dstva src len hd hs hf H1 H2 H3
      by_cases hlen : 0 < len
      swap
      · have hl0 : len = 0 := by omega
        subst hl0
        refine ⟨0, s, by rw [copyout_loop, if_neg (by omega)], fun _ => rfl, ?_, ?_,
          fun _ _ => rfl, SameVma.refl s, rfl, rfl⟩
        · rintro ⟨i, hi, _⟩; omega
        · intro i hi; omega
      by_cases hpa : userPa L s.mem root (PGROUNDDOWN dstva) = 0
      · have hnt : ¬ Translated L s.mem root (dstva + 0) := by
          unfold Translated
          rw [add_zero]
          exact fun h => h hpa
        refine ⟨-1, s, ?_, ?_, fun _ => rfl, ?_, fun _ _ => rfl, SameVma.refl s, rfl, rfl⟩
        · rw [copyout_loop, if_pos hlen]
          simp only [walkaddr_userPa, hpa, if_true]
        · intro hall
          exact absurd (hall 0 hlen) hnt
        · intro i _ hpre
          exact absurd (hpre 0 (Nat.zero_le _)) hnt
      · obtain ⟨b1, b2, b3⟩ := userPa_bound L s.mem root (PGROUNDDOWN dstva)
        have hvaM := b3 hpa
        obtain ⟨c1, c2, c3, c4⟩ := chunk_pages dstva len hlen
        rw [copyout_loop_step L root hMAXVA k s dstva src len hd hs hlen hpa]
        generalize hn : min len (PGSIZE - dstva % PGSIZE) = n at c1 c2 c3 c4
        generalize hpa0 : userPa L s.mem root (PGROUNDDOWN dstva) = pa0 at hpa b1 b2
        -- the bytes of this pass
        have htr : ∀ i, i < n → Translated L s.mem root (dstva + i) := by
          intro i hi
          unfold Translated
          rw [(c1 i hi).1, hpa0]
          exact hpa
        have hcell : ∀ i, i < n →
            userCell L s.mem root (dstva + i) = pa0 + dstva % PGSIZE + i := by
          intro i hi
          unfold userCell
          rw [(c1 i hi).1, (c1 i hi).2, hpa0]
          omega
        have hm2 : ∀ x, (s.memmove (pa0 + dstva % PGSIZE) src n).mem x =
            if pa0 + dstva % PGSIZE ≤ x ∧ x < pa0 + dstva % PGSIZE + n then
              s.mem (src + (x - (pa0 + dstva % PGSIZE))) else s.mem x := fun x => rfl
        have hsv2 : SameVma s (s.memmove (pa0 + dstva % PGSIZE) src n) :=
          ⟨rfl, rfl, rfl, rfl, rfl⟩
        have hkm2 : (s.memmove (pa0 + dstva % PGSIZE) src n).kmem = s.kmem := rfl
        have hlog2 : (s.memmove (pa0 + dstva % PGSIZE) src n).log = s.log := rfl
        generalize s.memmove (pa0 + dstva % PGSIZE) src n = s2 at hm2 hsv2 hkm2 hlog2
        have hwritten : ∀ x, pa0 + dstva % PGSIZE ≤ x → x < pa0 + dstva % PGSIZE + n →
            x - (pa0 + dstva % PGSIZE) < n ∧
            x = userCell L s.mem root (dstva + (x - (pa0 + dstva % PGSIZE))) := by
          intro x h1 h2
          refine ⟨by omega, ?_⟩
          rw [hcell _ (by omega)]
          omega
        have hout : ∀ x, (∀ i, i < n → x ≠ userCell L s.mem root (dstva + i)) →
            s2.mem x = s.mem x := by
          intro x hx
          rw [hm2]
          split_ifs with hc
          · obtain ⟨q1, q2⟩ := hwritten x hc.1 hc.2
            exact absurd q2 (hx _ q1)
          · rfl
        have hstab : ∀ x, InPt s.mem root x → s2.mem x = s.mem x := by
          intro x hx
          apply hout
          intro i hi heq
          rw [heq] at hx
          exact H1 i (by omega) (htr i hi) hx
        obtain ⟨hpaeq, hinpt⟩ := userPa_stable L s.mem s2.mem root hstab
        have htreq : ∀ va, Translated L s2.mem root va ↔ Translated L s.mem root va := by
          intro va
          unfold Translated
          rw [hpaeq]
        have hceq : ∀ va, userCell L s2.mem root va = userCell L s.mem root va := by
          intro va
          unfold userCell
          rw [hpaeq]
        have hshift : ∀ i, i < len - n →
            PGROUNDDOWN dstva + PGSIZE + i = dstva + (n + i) := by
          intro i hi
          have := c2 (by omega)
          omega
        have hsrc : ∀ i, i < len - n → s2.mem (src + n + i) = s.mem (src + (n + i)) := by
          intro i hi
          rw [hout, Nat.add_assoc]
          intro j hj heq
          exact H2 j (by omega) (htr j hj) (by rw [← heq]; omega)
        have hf' : (len - n + (PGROUNDDOWN dstva + PGSIZE) % PGSIZE + PGSIZE - 1) / PGSIZE < k := by
          have e : (PGROUNDDOWN dstva + PGSIZE) % PGSIZE = 0 := by
            have := PGROUNDDOWN_aligned dstva
            unfold PGSIZE at *
            omega
          rw [e]
          have hmod : dstva % PGSIZE < PGSIZE := Nat.mod_lt _ (by decide)
          have hn' : n = len ∨ n = PGSIZE - dstva % PGSIZE := by
            rw [← hn]
            rcases min_choice len (PGSIZE - dstva % PGSIZE) with h | h
            · exact Or.inl h
            · exact Or.inr h
          unfold PGSIZE at *
          omega
        obtain ⟨r, s', hr, r1, r2, r3, r4, r5, r6, r7⟩ :=
          ih s2 (PGROUNDDOWN dstva + PGSIZE) (src + n) (len - n)
            (by unfold PGSIZE; omega) (by omega) hf'
            (fun i hi ht => by
              rw [hshift i hi] at ht ⊢
              rw [hceq, hinpt]
              exact H1 (n + i) (by omega) ((htreq _).1 ht))
            (fun i hi ht => by
              rw [hshift i hi] at ht ⊢
              rw [hceq]
              have := H2 (n + i) (by omega) ((htreq _).1 ht)
              omega)
            (fun i j hi hj hti htj heq => by
              rw [hshift i hi] at hti heq
              rw [hshift j hj] at htj heq
              rw [hceq, hceq] at heq
              have := H3 (n + i) (n + j) (by omega) (by omega) ((htreq _).1 hti)
                ((htreq _).1 htj) heq
              omega)
        -- a byte index splits into this pass and the rest
        have hpre : ∀ i, i < len - n →
            (∀ j, j ≤ i → Translated L s2.mem root (PGROUNDDOWN dstva + PGSIZE + j)) →
            ∀ j, j ≤ n + i → Translated L s.mem root (dstva + j) := by
          intro i hi hp j hj
          by_cases hjn : j < n
          · exact htr j hjn
          · have := hp (j - n) (by omega)
            rw [hshift (j - n) (by omega), htreq] at this
            have e : n + (j - n) = j := by omega
            rw [e] at this
            exact this
        have hpre' : ∀ i, i < len - n →
            (∀ j, j ≤ n + i → Translated L s.mem root (dstva + j)) →
            ∀ j, j ≤ i → Translated L s2.mem root (PGROUNDDOWN dstva + PGSIZE + j) := by
          intro i hi hp j hj
          rw [hshift j (by omega), htreq]
          exact hp (n + j) (by omega)
        refine ⟨r, s', hr, ?_, ?_, ?_, ?_, hsv2.trans r5, by rw [r6, hkm2], by rw [r7, hlog2]⟩
        · intro hall
          apply r1
          intro i hi
          rw [hshift i hi, htreq]
          exact hall (n + i) (by omega)
        · rintro ⟨i, hi, hnt⟩
          apply r2
          have hin : ¬ i < n := fun h => hnt (htr i h)
          refine ⟨i - n, by omega, ?_⟩
          rw [hshift (i - n) (by omega), htreq]
          have e : n + (i - n) = i := by omega
          rw [e]
          exact hnt
        · intro i hi hp
          by_cases hin : i < n
          · rw [r4, hm2, hcell i hin]
            · rw [if_pos ⟨by omega, by omega⟩]
              congr 1
              omega
            · intro i' hi' hp' heq
              rw [hshift i' hi', hceq] at heq
              have := H3 i (n + i') hi (by omega) (htr i hin)
                (hpre i' hi' hp' (n + i') (le_refl _)) heq
              omega
          · have hi' : i - n < len - n := by omega
            have e : n + (i - n) = i := by omega
            have := r3 (i - n) hi' (hpre' (i - n) hi' (by rw [e]; exact hp))
            rw [hshift (i - n) hi', hceq, e, hsrc (i - n) hi', e] at this
            exact this
        · intro x hx
          rw [r4, hout]
          · intro i hi
            exact hx i (by omega) (fun j hj => htr j (by omega))
          · intro i hi hp
            rw [hshift i hi, hceq]
            exact hx (n + i) (by omega) (hpre i hi hp)

/-- One pass of the loop of `copyin` on a translated page. -/
theorem copyin_loop_step (L : Layout) (root : Nat) (hMAXVA : L.MAXVA ≤ 2 ^ 39)
    (fuel : Nat) (s : State) (dst srcva len : Nat)
    (hd : srcva < 2 ^ 64) (hs : dst + len < 2 ^ 64) (hlen : 0 < len)
    (hpa : userPa L s.mem root (PGROUNDDOWN srcva) ≠ 0) :
    copyin_loop L root (fuel + 1) s dst srcva len =
      copyin_loop L root fuel
        (s.memmove dst (userPa L s.mem root (PGROUNDDOWN srcva) + srcva % PGSIZE)
          (min len (PGSIZE - srcva % PGSIZE)))
        (dst + min len (PGSIZE - srcva % PGSIZE)) (PGROUNDDOWN srcva + PGSIZE)
        (len - min len (PGSIZE - srcva % PGSIZE)) := by
  obtain ⟨b1, b2, b3⟩ := userPa_bound L s.mem root (PGROUNDDOWN srcva)
  have hva := b3 hpa
  obtain ⟨a1, a2, a3, a4⟩ := copy_arith srcva _ hd b1 b2 (by unfold PGSIZE; omega)
  obtain ⟨a5, a6⟩ := copy_arith_len dst len (min len (PGSIZE - srcva % PGSIZE)) hs
    (min_le_left _ _)
  rw [copyin_loop, if_pos hlen]
  simp only [walkaddr_userPa, hpa, if_false, a1, a2, min_as_if, a3, a4, a5, a6]

/-- The loop of `copyin`: the result, the bytes it stored in the kernel buffer
and the memory it left alone. -/
theorem copyin_loop_effect (L : Layout) (root : Nat) (hMAXVA : L.MAXVA ≤ 2 ^ 39) :
    ∀ (fuel : Nat) (s : State) (dst srcva len : Nat),
      srcva < 2 ^ 64 → dst + len < 2 ^ 64 →
      (len + srcva % PGSIZE + PGSIZE - 1) / PGSIZE < fuel →
      (∀ i, i < len → ¬ InPt s.mem root (dst + i)) →
      (∀ i j, i < len → j < len → Translated L s.mem root (srcva + j) →
        dst + i ≠ userCell L s.mem root (srcva + j)) →
      ∃ r s', copyin_loop L root fuel s dst srcva len = Outcome.ret r s' ∧
        ((∀ i, i < len → Translated L s.mem root (srcva + i)) → r = 0) ∧
        ((∃ i, i < len ∧ ¬ Translated L s.mem root (srcva + i)) → r = -1) ∧
        (∀ i, i < len → (∀ j, j ≤ i → Translated L s.mem root (srcva + j)) →
          s'.mem (dst + i) = s.mem (userCell L s.mem root (srcva + i))) ∧
        (∀ x, (∀ i, i < len → (∀ j, j ≤ i → Translated L s.mem root (srcva + j)) →
            x ≠ dst + i) → s'.mem x = s.mem x) ∧
        SameVma s s' ∧ s'.kmem = s.kmem ∧ s'.log = s.log := by
  intro fuel
  induction fuel with
  | zero => intro s dst srcva len _ _ hf; simp at hf
  | succ k ih =>
      intro s dst srcva len hd hs hf K1 K2
      by_cases hlen : 0 < len
      swap
      · have hl0 : len = 0 := by omega
        subst hl0
        refine ⟨0, s, by rw [copyin_loop, if_neg (by omega)], fun _ => rfl, ?_, ?_,
          fun _ _ => rfl, SameVma.refl s, rfl, rfl⟩
        · rintro ⟨i, hi, _⟩; omega
        · intro i hi; omega
      by_cases hpa : userPa L s.mem root (PGROUNDDOWN srcva) = 0
      · have hnt : ¬ Translated L s.mem root (srcva + 0) := by
          unfold Translated
          rw [add_zero]
          exact fun h => h hpa
        refine ⟨-1, s, ?_, ?_, fun _ => rfl, ?_, fun _ _ => rfl, SameVma.refl s, rfl, rfl⟩
        · rw [copyin_loop, if_pos hlen]
          simp only [walkaddr_userPa, hpa, if_true]
        · intro hall
          exact absurd (hall 0 hlen) hnt
        · intro i _ hpre
          exact absurd (hpre 0 (Nat.zero_le _)) hnt
      · obtain ⟨b1, b2, b3⟩ := userPa_bound L s.mem root (PGROUNDDOWN srcva)
        have hvaM := b3 hpa
        obtain ⟨c1, c2, c3, c4⟩ := chunk_pages srcva len hlen
        rw [copyin_loop_step L root hMAXVA k s dst srcva len hd hs hlen hpa]
        generalize hn : min len (PGSIZE - srcva % PGSIZE) = n at c1 c2 c3 c4
        generalize hpa0 : userPa L s.mem root (PGROUNDDOWN srcva) = pa0 at hpa b1 b2
        have htr : ∀ i, i < n → Translated L s.mem root (srcva + i) := by
          intro i hi
          unfold Translated
          rw [(c1 i hi).1, hpa0]
          exact hpa
        have hcell : ∀ i, i < n →
            userCell L s.mem root (srcva + i) = pa0 + srcva % PGSIZE + i := by
          intro i hi
          unfold userCell
          rw [(c1 i hi).1, (c1 i hi).2, hpa0]
          omega
        have hm2 : ∀ x, (s.memmove dst (pa0 + srcva % PGSIZE) n).mem x =
            if dst ≤ x ∧ x < dst + n then
              s.mem (pa0 + srcva % PGSIZE + (x - dst)) else s.mem x := fun x => rfl
        have hsv2 : SameVma s (s.memmove dst (pa0 + srcva % PGSIZE) n) :=
          ⟨rfl, rfl, rfl, rfl, rfl⟩
        have hkm2 : (s.memmove dst (pa0 + srcva % PGSIZE) n).kmem = s.kmem := rfl
        have hlog2 : (s.memmove dst (pa0 + srcva % PGSIZE) n).log = s.log := rfl
        generalize s.memmove dst (pa0 + srcva % PGSIZE) n = s2 at hm2 hsv2 hkm2 hlog2
        have hout : ∀ x, ¬ (dst ≤ x ∧ x < dst + n) → s2.mem x = s.mem x := by
          intro x hx
          rw [hm2, if_neg hx]
        have hstab : ∀ x, InPt s.mem root x → s2.mem x = s.mem x := by
          intro x hx
          apply hout
          intro hc
          have := K1 (x - dst) (by omega)
          have e : dst + (x - dst) = x := by omega
          rw [e] at this
          exact this hx
        obtain ⟨hpaeq, hinpt⟩ := userPa_stable L s.mem s2.mem root hstab
        have htreq : ∀ va, Translated L s2.mem root va ↔ Translated L s.mem root va := by
          intro va
          unfold Translated
          rw [hpaeq]
        have hceq : ∀ va, userCell L s2.mem root va = userCell L s.mem root va := by
          intro va
          unfold userCell
          rw [hpaeq]
        have hshift : ∀ i, i < len - n →
            PGROUNDDOWN srcva + PGSIZE + i = srcva + (n + i) := by
          intro i hi
          have := c2 (by omega)
          omega
        have hsrc : ∀ j, j < len → Translated L s.mem root (srcva + j) →
            s2.mem (userCell L s.mem root (srcva + j)) = s.mem (userCell L s.mem root (srcva + j)) := by
          intro j hj ht
          apply hout
          intro hc
          have := K2 (userCell L s.mem root (srcva + j) - dst) j (by omega) hj ht
          apply this
          omega
        have hf' : (len - n + (PGROUNDDOWN srcva + PGSIZE) % PGSIZE + PGSIZE - 1) / PGSIZE < k := by
          have e : (PGROUNDDOWN srcva + PGSIZE) % PGSIZE = 0 := by
            have := PGROUNDDOWN_aligned srcva
            unfold PGSIZE at *
            omega
          rw [e]
          have hmod : srcva % PGSIZE < PGSIZE := Nat.mod_lt _ (by decide)
          have hn' : n = len ∨ n = PGSIZE - srcva % PGSIZE := by
            rw [← hn]
            rcases min_choice len (PGSIZE - srcva % PGSIZE) with h | h
            · exact Or.inl h
            · exact Or.inr h
          unfold PGSIZE at *
          omega
        obtain ⟨r, s', hr, r1, r2, r3, r4, r5, r6, r7⟩ :=
          ih s2 (dst + n) (PGROUNDDOWN srcva + PGSIZE) (len - n)
            (by unfold PGSIZE; omega) (by omega) hf'
            (fun i hi => by
              rw [hinpt, Nat.add_assoc]
              exact K1 (n + i) (by omega))
            (fun i j hi hj htj => by
              rw [hshift j hj] at htj ⊢
              rw [hceq, Nat.add_assoc]
              exact K2 (n + i) (n + j) (by omega) (by omega) ((htreq _).1 htj))
        have hpre : ∀ i, i < len - n →
            (∀ j, j ≤ i → Translated L s2.mem root (PGROUNDDOWN srcva + PGSIZE + j)) →
            ∀ j, j ≤ n + i → Translated L s.mem root (srcva + j) := by
          intro i hi hp j hj
          by_cases hjn : j < n
          · exact htr j hjn
          · have := hp (j - n) (by omega)
            rw [hshift (j - n) (by omega), htreq] at this
            have e : n + (j - n) = j := by omega
            rw [e] at this
            exact this
        have hpre' : ∀ i, i < len - n →
            (∀ j, j ≤ n + i → Translated L s.mem root (srcva + j)) →
            ∀ j, j ≤ i → Translated L s2.mem root (PGROUNDDOWN srcva + PGSIZE + j) := by
          intro i hi hp j hj
          rw [hshift j (by omega), htreq]
          exact hp (n + j) (by omega)
        refine ⟨r, s', hr, ?_, ?_, ?_, ?_, hsv2.trans r5, by rw [r6, hkm2], by rw [r7, hlog2]⟩
        · intro hall
          apply r1
          intro i hi
          rw [hshift i hi, htreq]
          exact hall (n + i) (by omega)
        · rintro ⟨i, hi, hnt⟩
          apply r2
          have hin : ¬ i < n := fun h => hnt (htr i h)
          refine ⟨i - n, by omega, ?_⟩
          rw [hshift (i - n) (by omega), htreq]
          have e : n + (i - n) = i := by omega
          rw [e]
          exact hnt
        · intro i hi hp
          by_cases hin : i < n
          · rw [r4, hm2, if_pos ⟨by omega, by omega⟩, hcell i hin]
            · congr 1
              omega
            · intro i' hi' _
              omega
          · have hi' : i - n < len - n := by omega
            have e : n + (i - n) = i := by omega
            have := r3 (i - n) hi' (hpre' (i - n) hi' (by rw [e]; exact hp))
            rw [hshift (i - n) hi', hceq, e, hsrc i hi (hp i (le_refl _)), Nat.add_assoc, e]
              at this
            exact this
        · intro x hx
          rw [r4, hout]
          · intro hc
            exact hx (x - dst) (by omega) (fun j hj => htr j (by omega)) (by omega)
          · intro i hi hp
            rw [Nat.add_assoc]
            exact hx (n + i) (by omega) (hpre i hi hp)

/-- C20: let `MAXVA ≤ 2^39`, let the kernel buffer not wrap at `2^64` and the
loop budget cover the pages of the range. (1) `copyout`, when the cells the
translated bytes of `[va, va + len)` map to are neither in a page of the page
table nor in the kernel buffer and differ from byte to byte: it returns, -1
exactly when some byte of the range lies on a page for which `walkaddr`
returns 0 and 0 exactly when none does (so 0 when `len = 0`); every byte `i`
that comes before the first such page has been stored at
`walkaddr(page of va+i) + offset of va+i` (all `len` bytes when it returns 0),
and no other cell has changed. (2) `copyin`, when the kernel buffer is not in
a page of the page table and does not overlap the cells it reads: the same
result, byte `i` of the kernel buffer holding what was at
`walkaddr(page of va+i) + offset of va+i`, and no cell outside the kernel
buffer has changed. (3) The address `userPa` that these statements speak of
is the value `walkaddr` returns, in the state it was called in. -/
theorem copy_translates_bytes :
    (∀ (L : Layout) (s : State) (fuel root dstva src len : Nat),
      L.MAXVA ≤ 2 ^ 39 → dstva < 2 ^ 64 → src + len < 2 ^ 64 →
      (len + dstva % PGSIZE + PGSIZE - 1) / PGSIZE < fuel →
      (∀ i, i < len → Translated L s.mem root (dstva + i) →
        ¬ InPt s.mem root (userCell L s.mem root (dstva + i))) →
      (∀ i, i < len → Translated L s.mem root (dstva + i) →
        ¬ (src ≤ userCell L s.mem root (dstva + i)
            ∧ userCell L s.mem root (dstva + i) < src + len)) →
      (∀ i j, i < len → j < len → Translated L s.mem root (dstva + i) →
        Translated L s.mem root (dstva + j) →
        userCell L s.mem root (dstva + i) = userCell L s.mem root (dstva + j) → i = j) →
      ∃ r s', copyout L fuel s root dstva src len = Outcome.ret r s' ∧
        (r = -1 ↔ ∃ i, i < len ∧ ¬ Translated L s.mem root (dstva + i)) ∧
        (r = 0 ↔ ∀ i, i < len → Translated L s.mem root (dstva + i)) ∧
        (∀ i, i < len → (∀ j, j ≤ i → Translated L s.mem root (dstva + j)) →
          s'.mem (userCell L s.mem root (dstva + i)) = s.mem (src + i)) ∧
        (∀ x, (∀ i, i < len → (∀ j, j ≤ i → Translated L s.mem root (dstva + j)) →
            x ≠ userCell L s.mem root (dstva + i)) → s'.mem x = s.mem x) ∧
        SameVma s s' ∧ s'.kmem = s.kmem ∧ s'.log = s.log) ∧
    (∀ (L : Layout) (s : State) (fuel root dst srcva len : Nat),
      L.MAXVA ≤ 2 ^ 39 → srcva < 2 ^ 64 → dst + len < 2 ^ 64 →
      (len + srcva % PGSIZE + PGSIZE - 1) / PGSIZE < fuel →
      (∀ i, i < len → ¬ InPt s.mem root (dst + i)) →
      (∀ i j, i < len → j < len → Translated L s.mem root (srcva + j) →
        dst + i ≠ userCell L s.mem root (srcva + j)) →
      ∃ r s', copyin L fuel s root dst srcva len = Outcome.ret r s' ∧
        (r = -1 ↔ ∃ i, i < len ∧ ¬ Translated L s.mem root (srcva + i)) ∧
        (r = 0 ↔ ∀ i, i < len → Translated L s.mem root (srcva + i)) ∧
        (∀ i, i < len → (∀ j, j ≤ i → Translated L s.mem root (srcva + j)) →
          s'.mem (dst + i) = s.mem (userCell L s.mem root (srcva + i))) ∧
        (∀ x, (∀ i, i < len → (∀ j, j ≤ i → Translated L s.mem root (srcva + j)) →
            x ≠ dst + i) → s'.mem x = s.mem x) ∧
        SameVma s s' ∧ s'.kmem = s.kmem ∧ s'.log = s.log) ∧
    (∀ (L : Layout) (s : State) (root va : Nat),
      walkaddr L s root va = Outcome.ret (userPa L s.mem root va) s) := by
  refine ⟨?_, ?_, fun L s root va => walkaddr_userPa L s root va⟩
  · intro L s fuel root dstva src len hM hd hs hf H1 H2 H3
    obtain ⟨r, s', hr, r1, r2, r3, r4, r5⟩ :=
      copyout_loop_effect L root hM fuel s dstva src len hd hs hf H1 H2 H3
    refine ⟨r, s', hr, ⟨?_, r2⟩, ⟨?_, r1⟩, r3, r4, r5⟩
    · intro hneg
      by_contra hno
      have hall : ∀ i, i < len → Translated L s.mem root (dstva + i) := by
        intro i hi
        by_contra hc
        exact hno ⟨i, hi, hc⟩
      have := r1 hall
      omega
    · intro h0 i hi
      by_contra hc
      have := r2 ⟨i, hi, hc⟩
      omega
  · intro L s fuel root dst srcva len hM hd hs hf K1 K2
    obtain ⟨r, s', hr, r1, r2, r3, r4, r5⟩ :=
      copyin_loop_effect L root hM fuel s dst srcva len hd hs hf K1 K2
    refine ⟨r, s', hr, ⟨?_, r2⟩, ⟨?_, r1⟩, r3, r4, r5⟩
    · intro hneg
      by_contra hno
      have hall : ∀ i, i < len → Translated L s.mem root (srcva + i) := by
        intro i hi
        by_contra hc
        exact hno ⟨i, hi, hc⟩
      have := r1 hall
      omega
    · intro h0 i hi
      by_contra hc
      have := r2 ⟨i, hi, hc⟩
      omega

theorem dirtyMem_inPt (x : Nat) (h : InPt dirtyMem 0x80000000 x) :
    (0x80000000 ≤ x ∧ x < 0x80001000) ∨ (0x80002000 ≤ x ∧ x < 0x80004000) := by
  unfold InPt PGSIZE at h
  rcases h with h | ⟨i, t, hi, ht, hx⟩ | ⟨i, j, t, hi, hj, ht, hx⟩
  · omega
  · rw [dirtyMem_tab1 i hi] at ht
    split_ifs at ht
    injection ht with ht
    omega
  · rw [dirtyMem_tab0 i j hi hj] at ht
    split_ifs at ht
    injection ht with ht
    omega

theorem dirtyMem_cell (i : Nat) (hi : i < 16) :
    userCell demo dirtyMem 0x80000000 (2 ^ 36 + 5 + i) = 0x80001005 + i := by
  unfold userCell
  have h1 : PGROUNDDOWN (2 ^ 36 + 5 + i) = 2 ^ 36 := by
    unfold PGROUNDDOWN PGSIZE; omega
  have h2 : (2 ^ 36 + 5 + i) % PGSIZE = 5 + i := by
    unfold PGSIZE; omega
  have h3 : userPa demo dirtyMem 0x80000000 (2 ^ 36) = 0x80001000 := by rfl
  rw [h1, h2, h3]
  omega

/-- C20 at concrete inputs: 16 bytes between the kernel buffer at `0x80005000`
and the user address `MMAP + 5` of `dirtyState`, whose page is mapped to the
frame `0x80001000`. -/
theorem copy_translates_bytes_witness :
    (∃ r s', copyout demo 8 dirtyState 0x80000000 (2 ^ 36 + 5) 0x80005000 16
        = Outcome.ret r s' ∧
      (r = -1 ↔ ∃ i, i < 16 ∧ ¬ Translated demo dirtyState.mem 0x80000000 (2 ^ 36 + 5 + i)) ∧
      (r = 0 ↔ ∀ i, i < 16 → Translated demo dirtyState.mem 0x80000000 (2 ^ 36 + 5 + i)) ∧
      (∀ i, i < 16 →
        (∀ j, j ≤ i → Translated demo dirtyState.mem 0x80000000 (2 ^ 36 + 5 + j)) →
        s'.mem (userCell demo dirtyState.mem 0x80000000 (2 ^ 36 + 5 + i))
          = dirtyState.mem (0x80005000 + i)) ∧
      (∀ x, (∀ i, i < 16 →
          (∀ j, j ≤ i → Translated demo dirtyState.mem 0x80000000 (2 ^ 36 + 5 + j)) →
          x ≠ userCell demo dirtyState.mem 0x80000000 (2 ^ 36 + 5 + i)) →
        s'.mem x = dirtyState.mem x) ∧
      SameVma dirtyState s' ∧ s'.kmem = dirtyState.kmem ∧ s'.log = dirtyState.log) ∧
    (∃ r s', copyin demo 8 dirtyState 0x80000000 0x80005000 (2 ^ 36 + 5) 16
        = Outcome.ret r s' ∧
      (r = -1 ↔ ∃ i, i < 16 ∧ ¬ Translated demo dirtyState.mem 0x80000000 (2 ^ 36 + 5 + i)) ∧
      (r = 0 ↔ ∀ i, i < 16 → Translated demo dirtyState.mem 0x80000000 (2 ^ 36 + 5 + i)) ∧
      (∀ i, i < 16 →
        (∀ j, j ≤ i → Translated demo dirtyState.mem 0x80000000 (2 ^ 36 + 5 + j)) →
        s'.mem (0x80005000 + i)
          = dirtyState.mem (userCell demo dirtyState.mem 0x80000000 (2 ^ 36 + 5 + i))) ∧
      (∀ x, (∀ i, i < 16 →
          (∀ j, j ≤ i → Translated demo dirtyState.mem 0x80000000 (2 ^ 36 + 5 + j)) →
          x ≠ 0x80005000 + i) →
        s'.mem x = dirtyState.mem x) ∧
      SameVma dirtyState s' ∧ s'.kmem = dirtyState.kmem ∧ s'.log = dirtyState.log) :=
  ⟨copy_translates_bytes.1 demo dirtyState 8 0x80000000 (2 ^ 36 + 5) 0x80005000 16
      (by decide) (by decide) (by decide) (by decide)
      (fun i hi _ hin => by
        have h := dirtyMem_inPt _ hin
        rw [show dirtyState.mem = dirtyMem from rfl, dirtyMem_cell i hi] at h
        omega)
      (fun i hi _ => by
        rw [show dirtyState.mem = dirtyMem from rfl, dirtyMem_cell i hi]
        omega)
      (fun i j hi hj _ _ heq => by
        rw [show dirtyState.mem = dirtyMem from rfl, dirtyMem_cell i hi, dirtyMem_cell j hj]
          at heq
        omega),
   copy_translates_bytes.2.1 demo dirtyState 8 0x80000000 0x80005000 (2 ^ 36 + 5) 16
      (by decide) (by decide) (by decide) (by decide)
      (fun i hi hin => by
        have h := dirtyMem_inPt _ hin
        omega)
      (fun i j hi hj _ => by
        rw [show dirtyState.mem = dirtyMem from rfl, dirtyMem_cell j hj]
        omega)⟩

/-! ### The page-table engine leaves the VMA pool alone -/

theorem sameVmaLog_refl (s : State) : SameVmaLog s s := ⟨SameVma.refl s, rfl⟩

theorem sameVmaLog_trans {s t u : State} (h1 : SameVmaLog s t) (h2 : SameVmaLog t u) :
    SameVmaLog s u := ⟨h1.1.trans h2.1, by rw [h2.2, h1.2]⟩

theorem walk_level_sameVmaLog (s : State) (pt va : Nat) (alloc : Bool) (level : Nat) :
    SameVmaLog s (walk_level s pt va alloc level).2 := by
  unfold walk_level
  by_cases hv : s.mem (pt + 8 * PX level va) &&& PTE_V ≠ 0
  · rw [if_pos hv]; exact sameVmaLog_refl s
  · rw [if_neg hv]
    cases alloc with
    | false => exact sameVmaLog_refl s
    | true =>
        simp only [Bool.true_eq_false, if_false]
        unfold kalloc
        cases hk : s.kmem with
        | nil => exact ⟨⟨rfl, rfl, rfl, rfl, rfl⟩, rfl⟩
        | cons f r =>
            simp only []
            split_ifs
            · exact ⟨⟨rfl, rfl, rfl, rfl, rfl⟩, rfl⟩
            · exact ⟨⟨rfl, rfl, rfl, rfl, rfl⟩, rfl⟩

theorem walk_ret_sameVmaLog (L : Layout) (s : State) (root va : Nat) (alloc : Bool)
    (pte : Nat) (s' : State) (h : walk L s root va alloc = Outcome.ret pte s') :
    SameVmaLog s s' := by
  unfold walk at h
  split_ifs at h with hge
  have h2 := walk_level_sameVmaLog s root va alloc 2
  cases hw2 : walk_level s root va alloc 2 with
  | mk r2 s1 =>
      rw [hw2] at h h2
      cases r2 with
      | none =>
          simp only [] at h
          injection h with _ hs
          rw [← hs]; exact h2
      | some t1 =>
          simp only [] at h
          have h1 := walk_level_sameVmaLog s1 t1 va alloc 1
          cases hw1 : walk_level s1 t1 va alloc 1 with
          | mk r1 s2 =>
              rw [hw1] at h h1
              cases r1 with
              | none =>
                  simp only [] at h
                  injection h with _ hs
                  rw [← hs]; exact sameVmaLog_trans h2 h1
              | some t0 =>
                  simp only [] at h
                  injection h with _ hs
                  rw [← hs]; exact sameVmaLog_trans h2 h1

theorem kalloc_sameVmaLog (s : State) : SameVmaLog s (kalloc s).2 := by
  unfold kalloc
  cases s.kmem with
  | nil => exact sameVmaLog_refl s
  | cons f r => exact ⟨⟨rfl, rfl, rfl, rfl, rfl⟩, rfl⟩

theorem kfree_sameVmaLog (s : State) (pa : Nat) : SameVmaLog s (kfree s pa) :=
  ⟨⟨rfl, rfl, rfl, rfl, rfl⟩, rfl⟩

theorem store_sameVmaLog (s : State) (a v : Nat) : SameVmaLog s (s.store a v) :=
  ⟨⟨rfl, rfl, rfl, rfl, rfl⟩, rfl⟩

theorem memmove_sameVmaLog (s : State) (d a n : Nat) : SameVmaLog s (s.memmove d a n) :=
  ⟨⟨rfl, rfl, rfl, rfl, rfl⟩, rfl⟩

theorem mappages_loop_ret_sameVmaLog (L : Layout) (root last perm : Nat) :
    ∀ (fuel : Nat) (s : State) (a pa : Nat) (r : Int) (s' : State),
      mappages_loop L root last perm fuel s a pa = Outcome.ret r s' → SameVmaLog s s' := by
  intro fuel
  induction fuel with
  | zero => intro s a pa r s' h; simp [mappages_loop] at h
  | succ n ih =>
      intro s a pa r s' h
      rw [mappages_loop] at h
      cases hw : walk L s root a true with
      | timeout => rw [hw] at h; simp at h
      | panic m s1 => rw [hw] at h; simp at h
      | ret pte s1 =>
          have h1 := walk_ret_sameVmaLog L s root a true pte s1 hw
          rw [hw] at h
          simp only [] at h
          by_cases hp : pte = 0
          · rw [if_pos hp] at h
            injection h with _ hs
            rw [← hs]; exact h1
          · rw [if_neg hp] at h
            by_cases hv : s1.mem pte &&& PTE_V ≠ 0
            · rw [if_pos hv] at h; simp at h
            · rw [if_neg hv] at h
              have hm := store_sameVmaLog s1 pte (PA2PTE pa ||| perm ||| PTE_V)
              by_cases hl : a = last
              · rw [if_pos hl] at h
                injection h with _ hs
                rw [← hs]; exact sameVmaLog_trans h1 hm
              · rw [if_neg hl] at h
                exact sameVmaLog_trans h1 (sameVmaLog_trans hm (ih _ _ _ _ _ h))

theorem mappages_ret_sameVmaLog (L : Layout) (fuel : Nat) (s : State)
    (root va size pa perm : Nat) (r : Int) (s' : State)
    (h : mappages L fuel s root va size pa perm = Outcome.ret r s') : SameVmaLog s s' :=
  mappages_loop_ret_sameVmaLog L root _ perm fuel s _ pa r s' h

theorem uvmunmap_loop_ret_sameVmaLog (L : Layout) (root stop : Nat) (do_free : Bool) :
    ∀ (fuel : Nat) (s : State) (a : Nat) (s' : State),
      uvmunmap_loop L root stop do_free fuel s a = Outcome.ret () s' → SameVmaLog s s' := by
  intro fuel
  induction fuel with
  | zero => intro s a s' h; simp [uvmunmap_loop] at h
  | succ n ih =>
      intro s a s' h
      rw [uvmunmap_loop] at h
      by_cases hlt : a < stop
      · rw [if_pos hlt] at h
        cases hw : walk L s root a false with
        | timeout => rw [hw] at h; simp at h
        | panic m s1 => rw [hw] at h; simp at h
        | ret pte s1 =>
            have h1 := walk_ret_sameVmaLog L s root a false pte s1 hw
            rw [hw] at h
            simp only [] at h
            by_cases hp : pte = 0
            · rw [if_pos hp] at h; simp at h
            · rw [if_neg hp] at h
              by_cases hv : s1.mem pte &&& PTE_V = 0
              · rw [if_pos hv] at h; simp at h
              · rw [if_neg hv] at h
                by_cases hl : PTE_FLAGS (s1.mem pte) = PTE_V
                · rw [if_pos hl] at h; simp at h
                · rw [if_neg hl] at h
                  have h2 := ih _ _ _ h
                  have hm : SameVmaLog s1
                      ((if do_free = true then kfree s1 (PTE2PA (s1.mem pte)) else s1).store
                        pte 0) := by
                    cases do_free
                    · exact store_sameVmaLog s1 pte 0
                    · exact sameVmaLog_trans (kfree_sameVmaLog s1 _) (store_sameVmaLog _ pte 0)
                  exact sameVmaLog_trans h1 (sameVmaLog_trans hm h2)
      · rw [if_neg hlt] at h
        injection h with _ hs
        rw [← hs]; exact sameVmaLog_refl s

theorem uvmcopy_err_ret_sameVmaLog (L : Layout) (fuel : Nat) (s : State) (new start i : Nat)
    (r : Int) (s' : State) (h : uvmcopy_err L fuel s new start i = Outcome.ret r s') :
    SameVmaLog s s' := by
  unfold uvmcopy_err at h
  cases hu : uvmunmap L fuel s new start (i / PGSIZE) true with
  | timeout => rw [hu] at h; simp at h
  | panic m s1 => rw [hu] at h; simp at h
  | ret u s1 =>
      rw [hu] at h
      simp only [] at h
      injection h with _ hs
      rw [← hs]
      unfold uvmunmap at hu
      by_cases hal : start % PGSIZE ≠ 0
      · rw [if_pos hal] at hu; simp at hu
      · rw [if_neg hal] at hu
        exact uvmunmap_loop_ret_sameVmaLog L new _ true fuel s start s1 hu

theorem uvmcopy_loop_ret_sameVmaLog (L : Layout) (old new start stop : Nat) (sparse : Bool) :
    ∀ (fuel : Nat) (s : State) (i : Nat) (r : Int) (s' : State),
      uvmcopy_loop L old new start stop sparse fuel s i = Outcome.ret r s' →
      SameVmaLog s s' := by
  intro fuel
  induction fuel with
  | zero => intro s i r s' h; simp [uvmcopy_loop] at h
  | succ n ih =>
      intro s i r s' h
      rw [uvmcopy_loop] at h
      by_cases hlt : i < stop
      · rw [if_pos hlt] at h
        cases hw : walk L s old i false with
        | timeout => rw [hw] at h; simp at h
        | panic m s1 => rw [hw] at h; simp at h
        | ret pte s1 =>
            have h1 := walk_ret_sameVmaLog L s old i false pte s1 hw
            rw [hw] at h
            simp only [] at h
            by_cases hp : pte = 0
            · rw [if_pos hp] at h
              by_cases hsp : sparse = false
              · rw [if_pos hsp] at h; simp at h
              · rw [if_neg hsp] at h
                exact sameVmaLog_trans h1 (ih _ _ _ _ h)
            · rw [if_neg hp] at h
              by_cases hv : s1.mem pte &&& PTE_V = 0
              · rw [if_pos hv] at h
                by_cases hsp : sparse = false
                · rw [if_pos hsp] at h; simp at h
                · rw [if_neg hsp] at h
                  exact sameVmaLog_trans h1 (ih _ _ _ _ h)
              · rw [if_neg hv] at h
                have hk := kalloc_sameVmaLog s1
                cases hka : kalloc s1 with
                | mk f s2 =>
                    rw [hka] at h hk
                    simp only [] at h hk
                    by_cases hf : f = 0
                    · rw [if_pos hf] at h
                      exact sameVmaLog_trans h1 (sameVmaLog_trans hk (uvmcopy_err_ret_sameVmaLog L n _ new start i r s' h))
                    · rw [if_neg hf] at h
                      have h3 := memmove_sameVmaLog s2 f (PTE2PA (s1.mem pte)) PGSIZE
                      cases hm : mappages L n (s2.memmove f (PTE2PA (s1.mem pte)) PGSIZE) new i
                          PGSIZE f (u32 (PTE_FLAGS (s1.mem pte))) with
                      | timeout => rw [hm] at h; simp at h
                      | panic m s4 => rw [hm] at h; simp at h
                      | ret r4 s4 =>
                          rw [hm] at h
                          simp only [] at h
                          have h4 := mappages_ret_sameVmaLog L n _ new i PGSIZE f _ r4 s4 hm
                          by_cases hr : r4 ≠ 0
                          · rw [if_pos hr] at h
                            exact sameVmaLog_trans h1 (sameVmaLog_trans hk (sameVmaLog_trans h3 (sameVmaLog_trans h4
                              (sameVmaLog_trans (kfree_sameVmaLog s4 f)
                                (uvmcopy_err_ret_sameVmaLog L n _ new start i r s' h)))))
                          · rw [if_neg hr] at h
                            exact sameVmaLog_trans h1 (sameVmaLog_trans hk (sameVmaLog_trans h3 (sameVmaLog_trans h4 (ih _ _ _ _ h))))
      · rw [if_neg hlt] at h
        injection h with _ hs
        rw [← hs]; exact sameVmaLog_refl s

theorem uvmcopy_ret_sameVmaLog (L : Layout) (fuel : Nat) (s : State)
    (old new start stop : Nat) (sparse : Bool) (r : Int) (s' : State)
    (h : uvmcopy L fuel s old new start stop sparse = Outcome.ret r s') :
    SameVmaLog s s' := by
  unfold uvmcopy at h
  split_ifs at h with hal
  exact uvmcopy_loop_ret_sameVmaLog L old new start stop sparse fuel s start r s' h

/-! ### Copy of the VMA list in `fork` -/

theorem copies_refl (v : vmarea) : Copies v v := ⟨rfl, rfl, rfl, rfl, rfl, rfl⟩

theorem copies_trans {u v w : vmarea} (h1 : Copies u v) (h2 : Copies v w) : Copies u w :=
  ⟨h1.1.trans h2.1, h1.2.1.trans h2.2.1, h1.2.2.1.trans h2.2.2.1,
   h1.2.2.2.1.trans h2.2.2.2.1, h1.2.2.2.2.1.trans h2.2.2.2.2.1,
   h1.2.2.2.2.2.trans h2.2.2.2.2.2⟩

theorem chain_congr (c c' : Nat → vmarea) (l : List Nat) (h : Option Nat)
    (hc : ∀ i ∈ l, (c' i).next = (c i).next) : Chain c' h l ↔ Chain c h l := by
  rw [chain_iff_seg, chain_iff_seg]
  exact seg_congr c c' l h none hc

theorem chain_unique (c : Nat → vmarea) : ∀ (l l' : List Nat) (h : Option Nat),
    Chain c h l → Chain c h l' → l = l' := by
  intro l
  induction l with
  | nil =>
      intro l' h h1 h2
      cases l' with
      | nil => rfl
      | cons j l' =>
          simp only [Chain] at h1 h2
          rw [h1] at h2
          exact absurd h2.1 (by simp)
  | cons i l ih =>
      intro l' h h1 h2
      cases l' with
      | nil =>
          simp only [Chain] at h1 h2
          rw [h2] at h1
          exact absurd h1.1 (by simp)
      | cons j l' =>
          simp only [Chain] at h1 h2
          have hij : i = j := by
            have := h1.1.symm.trans h2.1
            exact Option.some.inj this
          subst hij
          rw [ih l' _ h1.2 h2.2]

theorem chain_tail_at (c : Nat → vmarea) : ∀ (l : List Nat) (h : Option Nat) (i : Nat),
    Chain c h l → i ∈ l → ∃ l2, l2.length < l.length ∧ Chain c (c i).next l2 := by
  intro l
  induction l with
  | nil => intro h i _ hi; exact absurd hi (List.not_mem_nil _)
  | cons j l ih =>
      intro h i hc hi
      simp only [Chain] at hc
      rcases List.mem_cons.1 hi with hij | hil
      · subst hij
        exact ⟨l, by simp, hc.2⟩
      · obtain ⟨l2, hlen, h2⟩ := ih _ i hc.2 hil
        exact ⟨l2, by simp; omega, h2⟩

/-- A null-terminated list visits no slot twice. -/
theorem chain_nodup (c : Nat → vmarea) : ∀ (l : List Nat) (h : Option Nat),
    Chain c h l → l.Nodup := by
  intro l
  induction l with
  | nil => intro _ _; exact List.nodup_nil
  | cons i l ih =>
      intro h hc
      simp only [Chain] at hc
      refine List.nodup_cons.2 ⟨?_, ih _ hc.2⟩
      intro hi
      obtain ⟨l2, hlen, h2⟩ := chain_tail_at c l _ i hc.2 hi
      have := chain_unique c l l2 _ hc.2 h2
      rw [this] at hlen
      exact absurd hlen (Nat.lt_irrefl _)

theorem linkNext_other (c : Nat → vmarea) (b t : Option Nat) (j : Nat) (hj : b ≠ some j) :
    linkNext c b t j = c j := by
  cases b with
  | none => rfl
  | some x =>
      have : j ≠ x := fun e => hj (by rw [e])
      simp [linkNext, Function.update_noteq this]

theorem linkNext_copies (c : Nat → vmarea) (b t : Option Nat) (j : Nat) :
    Copies (linkNext c b t j) (c j) := by
  cases b with
  | none => exact copies_refl _
  | some x =>
      by_cases hjx : j = x
      · subst hjx
        simp [linkNext, Copies]
      · simp [linkNext, Function.update_noteq hjx, Copies]

theorem linkNext_congr (c c' : Nat → vmarea) (b : Option Nat) (done : List Nat)
    (hag : ∀ i ∈ done, c' i = c i) (h : Option Nat)
    (hinv : ∀ t, Seg (linkNext c b t) (linkHead h b t) done t) :
    ∀ t, Seg (linkNext c' b t) (linkHead h b t) done t := by
  intro t
  refine (seg_congr (linkNext c b t) (linkNext c' b t) done _ t ?_).2 (hinv t)
  intro i hi
  cases b with
  | none => simp [linkNext, hag i hi]
  | some x =>
      by_cases hix : i = x
      · subst hix
        simp [linkNext]
      · simp [linkNext, Function.update_noteq hix, hag i hi]

theorem link_step (c0 : Nat → vmarea) (h b : Option Nat) (done : List Nat) (x : Nat)
    (hinv : ∀ t, Seg (linkNext c0 b t) (linkHead h b t) done t) (hx : x ∉ done) :
    ∀ t, Seg (linkNext (linkNext c0 b (some x)) (some x) t)
      (linkHead (linkHead h b (some x)) (some x) t) (done ++ [x]) t := by
  intro t
  rw [seg_append]
  refine ⟨some x, ?_, ?_⟩
  · refine (seg_congr (linkNext c0 b (some x)) _ done _ _ ?_).2 (hinv (some x))
    intro i hi
    have hix : i ≠ x := fun e => hx (e ▸ hi)
    simp [linkNext, Function.update_noteq hix]
  · simp [Seg, linkNext]

theorem mcopy_fields_eq (s : State) (a c : Nat) (hac : a ≠ c) :
    mcopy_fields s a c =
      { s with
        vma_cache := Function.update s.vma_cache c
          { s.vma_cache a with next := (s.vma_cache c).next },
        log := s.log ++ dupsOf s.vma_cache [a] } := by
  unfold mcopy_fields State.setVma filedup State.emit dupsOf dupsOf
  simp only [Function.update_noteq hac, Function.update_same, Function.update_idem,
    List.append_nil]
  split_ifs with hf
  · simp only [Function.update_same, Function.update_idem]
  · have hf0 : (s.vma_cache a).file = 0 := by
      by_contra hne
      exact hf hne
    simp only [Function.update_same, Function.update_idem, List.append_nil, hf0]

theorem mcopy_fail_eq (s : State) (np : proc) (b c : Option Nat) :
    mcopy_fail s np b c =
      Outcome.ret (-1, { np with mmap := linkHead np.mmap b c })
        { s with vma_cache := linkNext (linkNext s.vma_cache b c) c none } := by
  cases b <;> cases c <;> rfl

theorem mcopy_loop_done (L : Layout) (n : Nat) (s : State) (np : proc) (b : Option Nat) :
    mcopy_loop L (n + 1) s np none b =
      Outcome.ret (0, np) { s with vma_cache := linkNext s.vma_cache b none } := by
  cases b <;> rfl

theorem mcopy_loop_empty_pool (L : Layout) (n : Nat) (s : State) (np : proc) (a : Nat)
    (b : Option Nat) (hv : s.vma_head = none) :
    mcopy_loop L (n + 1) s np (some a) b =
      Outcome.ret (-1, { np with mmap := linkHead np.mmap b none })
        { s with vma_cache := linkNext s.vma_cache b none } := by
  conv_lhs => rw [mcopy_loop]; simp only [hv]
  rw [mcopy_fail_eq]
  cases b <;> rfl

theorem mcopy_loop_step (L : Layout) (n : Nat) (s : State) (np : proc) (a c : Nat)
    (b : Option Nat) (hv : s.vma_head = some c) (s2 : State)
    (hs2 : s2 = mcopy_fields { s with vma_head := (s.vma_cache c).next } a c) :
    mcopy_loop L (n + 1) s np (some a) b =
      match uvmcopy L n s2 s2.p.pagetable np.pagetable (s2.vma_cache c).start
          (s2.vma_cache c).end_ true with
      | Outcome.ret r s3 =>
          if r ≠ 0 then
            Outcome.ret (-1, { np with mmap := linkHead np.mmap b (some c) })
              { s3 with vma_cache :=
                  linkNext (linkNext s3.vma_cache b (some c)) (some c) none }
          else
            mcopy_loop L n { s3 with vma_cache := linkNext s3.vma_cache b (some c) }
              { np with mmap := linkHead np.mmap b (some c) }
              ((linkNext s3.vma_cache b (some c)) a).next (some c)
      | Outcome.panic m s3 => Outcome.panic m s3
      | Outcome.timeout => Outcome.timeout := by
  rw [mcopy_loop]
  simp only [hv]
  rw [← hs2]
  cases uvmcopy L n s2 s2.p.pagetable np.pagetable (s2.vma_cache c).start
      (s2.vma_cache c).end_ true with
  | timeout => rfl
  | panic m s3 => rfl
  | ret r s3 =>
      simp only []
      by_cases hr : r ≠ 0
      · rw [if_pos hr, if_pos hr, mcopy_fail_eq]
      · rw [if_neg hr, if_neg hr]
        cases b <;> rfl

theorem mcopy_loop_effect (L : Layout) :
    ∀ (la : List Nat) (fuel : Nat) (s : State) (np : proc) (a b : Option Nat)
      (done fl : List Nat) (r : Int) (np' : proc) (s' : State),
      Chain s.vma_cache a la → Chain s.vma_cache s.vma_head fl → (done ++ fl).Nodup →
      (∀ j ∈ la, j ∉ done ++ fl) → (∀ x, b = some x → x ∈ done) →
      (b = none → done = [] ∧ np.mmap = none) →
      (∀ t, Seg (linkNext s.vma_cache b t) (linkHead np.mmap b t) done t) →
      la.length < fuel →
      mcopy_loop L fuel s np a b = Outcome.ret (r, np') s' →
      ∃ k, k ≤ la.length ∧ k ≤ fl.length ∧
        Chain s'.vma_cache np'.mmap (done ++ fl.take k) ∧
        (∀ c x, (c, x) ∈ (List.zip fl la).take k →
          Copies (s'.vma_cache c) (s.vma_cache x)) ∧
        (∀ d ∈ done, Copies (s'.vma_cache d) (s.vma_cache d)) ∧
        (∀ j, j ∉ done ++ fl.take k → s'.vma_cache j = s.vma_cache j) ∧
        s'.log = s.log ++ dupsOf s.vma_cache (la.take k) ∧
        s'.p = s.p ∧ s'.readable = s.readable ∧ s'.writable = s.writable ∧
        Chain s'.vma_cache s'.vma_head (fl.drop k) ∧
        np'.pagetable = np.pagetable ∧
        (r = 0 ∧ k = la.length ∨ r = -1 ∧ (k = fl.length ∧ k < la.length ∨ 0 < k)) := by
  intro la
  induction la with
  | nil =>
      intro fuel s np a b done fl r np' s' ha hfl hnd _ hbd hb0 hinv hf h
      simp only [Chain] at ha
      subst ha
      obtain ⟨n, rfl⟩ : ∃ n, fuel = n + 1 := ⟨fuel - 1, by simp at hf; omega⟩
      rw [mcopy_loop_done] at h
      injection h with hv hs
      injection hv with hr hnp
      subst hr hnp hs
      have hh : linkHead np.mmap b none = np.mmap := by
        cases b with
        | none => exact (hb0 rfl).2.symm
        | some x => rfl
      have hbn : ∀ i ∈ fl, b ≠ some i := by
        intro i hi hb
        exact (List.nodup_append.1 hnd).2.2 (hbd i hb) hi
      refine ⟨0, Nat.le_refl _, Nat.zero_le _, ?_, ?_, ?_, ?_, ?_, rfl, rfl, rfl, ?_, rfl,
        Or.inl ⟨rfl, rfl⟩⟩
      · rw [List.take_zero, List.append_nil, ← hh]
        exact (chain_iff_seg _ _ _).2 (hinv none)
      · intro c x hcx
        simp at hcx
      · intro d _
        exact linkNext_copies _ _ _ _
      · intro j hj
        rw [List.take_zero, List.append_nil] at hj
        exact linkNext_other _ _ _ _ (fun hb => hj (hbd j hb))
      · simp [dupsOf]
      · rw [List.drop_zero]
        refine (chain_congr s.vma_cache _ fl _ ?_).2 hfl
        intro i hi
        show (linkNext s.vma_cache b none i).next = _
        rw [linkNext_other _ _ _ _ (hbn i hi)]
  | cons a0 la ih =>
      intro fuel s np a b done fl r np' s' ha hfl hnd hdis hbd hb0 hinv hf h
      simp only [Chain] at ha
      obtain ⟨ha1, ha2⟩ := ha
      subst ha1
      obtain ⟨n, rfl⟩ : ∃ n, fuel = n + 1 := ⟨fuel - 1, by omega⟩
      have hbn : ∀ i ∈ fl, b ≠ some i := by
        intro i hi hb
        exact (List.nodup_append.1 hnd).2.2 (hbd i hb) hi
      cases hv : s.vma_head with
      | none =>
          rw [mcopy_loop_empty_pool L n s np a0 b hv] at h
          have hfl0 : fl = [] := by
            rw [hv] at hfl
            cases fl with
            | nil => rfl
            | cons c fl' => simp [Chain] at hfl
          subst hfl0
          injection h with hv2 hs
          injection hv2 with hr hnp
          subst hr hnp hs
          refine ⟨0, Nat.zero_le _, Nat.zero_le _, ?_, ?_, ?_, ?_, ?_, rfl, rfl, rfl, ?_, rfl,
            Or.inr ⟨rfl, Or.inl ⟨rfl, by simp⟩⟩⟩
          · rw [List.take_zero, List.append_nil]
            exact (chain_iff_seg _ _ _).2 (hinv none)
          · intro c x hcx
            simp at hcx
          · intro d _
            exact linkNext_copies _ _ _ _
          · intro j hj
            rw [List.take_zero, List.append_nil] at hj
            exact linkNext_other _ _ _ _ (fun hb => hj (hbd j hb))
          · simp [dupsOf]
          · rw [List.drop_zero]
            show Chain _ s.vma_head []
            rw [hv]
            simp [Chain]
      | some c =>
          -- the free list is `c :: fl'`
          obtain ⟨fl', rfl, hfl'⟩ : ∃ fl', fl = c :: fl' ∧ Chain s.vma_cache (s.vma_cache c).next fl' := by
            rw [hv] at hfl
            cases fl with
            | nil => simp [Chain] at hfl
            | cons c1 fl' =>
                simp only [Chain] at hfl
                have hc : c = c1 := Option.some.inj hfl.1
                subst hc
                exact ⟨fl', rfl, hfl.2⟩
          have hnd' := List.nodup_append.1 hnd
          have hcd : c ∉ done := fun hc => hnd'.2.2 hc (List.mem_cons_self _ _)
          have hcf : c ∉ fl' := (List.nodup_cons.1 hnd'.2.1).1
          have hbc : b ≠ some c := hbn c (List.mem_cons_self _ _)
          have hac : a0 ≠ c := by
            intro e
            exact hdis a0 (List.mem_cons_self _ _)
              (List.mem_append_right _ (e ▸ List.mem_cons_self _ _))
          have hba : b ≠ some a0 := fun hb =>
            hdis a0 (List.mem_cons_self _ _) (List.mem_append_left _ (hbd a0 hb))
          have h2 := mcopy_loop_step L n s np a0 c b hv
            { s with
              vma_head := (s.vma_cache c).next,
              vma_cache := Function.update s.vma_cache c
                { s.vma_cache a0 with next := (s.vma_cache c).next },
              log := s.log ++ dupsOf s.vma_cache [a0] }
            (mcopy_fields_eq { s with vma_head := (s.vma_cache c).next } a0 c hac).symm
          rw [h2] at h
          clear h2
          generalize hs2 : ({ s with
              vma_head := (s.vma_cache c).next,
              vma_cache := Function.update s.vma_cache c
                { s.vma_cache a0 with next := (s.vma_cache c).next },
              log := s.log ++ dupsOf s.vma_cache [a0] } : State) = s2 at h
          have e2c : s2.vma_cache = Function.update s.vma_cache c
              { s.vma_cache a0 with next := (s.vma_cache c).next } := by rw [← hs2]
          have e2h : s2.vma_head = (s.vma_cache c).next := by rw [← hs2]
          have e2p : s2.p = s.p := by rw [← hs2]
          have e2r : s2.readable = s.readable := by rw [← hs2]
          have e2w : s2.writable = s.writable := by rw [← hs2]
          have e2l : s2.log = s.log ++ dupsOf s.vma_cache [a0] := by rw [← hs2]
          cases hu : uvmcopy L n s2 s2.p.pagetable np.pagetable (s2.vma_cache c).start
              (s2.vma_cache c).end_ true with
          | timeout => rw [hu] at h; simp at h
          | panic m s3 => rw [hu] at h; simp at h
          | ret ru s3 =>
              rw [hu] at h
              simp only [] at h
              obtain ⟨⟨e3c, e3h, e3p, e3r, e3w⟩, e3l⟩ :=
                uvmcopy_ret_sameVmaLog L n s2 _ _ _ _ true ru s3 hu
              rw [e2c] at e3c
              rw [e2h] at e3h
              rw [e2p] at e3p
              rw [e2r] at e3r
              rw [e2w] at e3w
              rw [e2l] at e3l
              -- the pool after the fields of `c` are set and `c` is linked behind `b`
              have F1 : ∀ j, j ≠ c → b ≠ some j →
                  linkNext s3.vma_cache b (some c) j = s.vma_cache j := by
                intro j hjc hbj
                rw [linkNext_other _ _ _ _ hbj, e3c, Function.update_noteq hjc]
              have F2 : ∀ j, j ≠ c →
                  Copies (linkNext s3.vma_cache b (some c) j) (s.vma_cache j) := by
                intro j hjc
                have := linkNext_copies s3.vma_cache b (some c) j
                rw [e3c, Function.update_noteq hjc] at this
                rw [e3c]
                exact this
              have F4 : Copies (linkNext s3.vma_cache b (some c) c) (s.vma_cache a0) := by
                rw [linkNext_other _ _ _ _ hbc, e3c, Function.update_same]
                exact ⟨rfl, rfl, rfl, rfl, rfl, rfl⟩
              have hinv3 : ∀ t, Seg (linkNext s3.vma_cache b t) (linkHead np.mmap b t) done t := by
                refine linkNext_congr s.vma_cache s3.vma_cache b done ?_ np.mmap hinv
                intro i hi
                have hic : i ≠ c := fun e => hcd (e ▸ hi)
                rw [e3c, Function.update_noteq hic]
              have hstep := link_step s3.vma_cache np.mmap b done c hinv3 hcd
              by_cases hr : ru ≠ 0
              · rw [if_pos hr] at h
                injection h with hv2 hs
                injection hv2 with hr2 hnp
                subst hr2 hnp hs
                refine ⟨1, by simp, by simp, ?_, ?_, ?_, ?_, ?_, e3p, e3r, e3w, ?_, rfl,
                  Or.inr ⟨rfl, Or.inr (by decide)⟩⟩
                · show Chain _ _ (done ++ List.take 1 (c :: fl'))
                  rw [List.take_succ_cons, List.take_zero]
                  exact (chain_iff_seg _ _ _).2 (hstep none)
                · intro c1 x hcx
                  simp only [List.zip_cons_cons, List.take_succ_cons, List.take_zero,
                    List.mem_singleton, Prod.mk.injEq] at hcx
                  obtain ⟨rfl, rfl⟩ := hcx
                  exact copies_trans (linkNext_copies _ _ _ _) F4
                · intro d hd
                  have hdc : d ≠ c := fun e => hcd (e ▸ hd)
                  exact copies_trans (linkNext_copies _ _ _ _) (F2 d hdc)
                · intro j hj
                  rw [List.take_succ_cons, List.take_zero] at hj
                  have hjc : j ≠ c := fun e => hj (by simp [e])
                  have hjd : j ∉ done := fun hd => hj (List.mem_append_left _ hd)
                  show linkNext (linkNext s3.vma_cache b (some c)) (some c) none j = _
                  rw [linkNext_other _ _ _ _ (fun e => hjc (Option.some.inj e).symm)]
                  exact F1 j hjc (fun hb => hjd (hbd j hb))
                · show s3.log = _
                  rw [e3l, List.take_succ_cons, List.take_zero]
                · show Chain _ s3.vma_head _
                  rw [e3h, List.drop_succ_cons, List.drop_zero]
                  refine (chain_congr s.vma_cache _ fl' _ ?_).2 hfl'
                  intro i hi
                  have hic : i ≠ c := fun e => hcf (e ▸ hi)
                  show (linkNext (linkNext s3.vma_cache b (some c)) (some c) none i).next = _
                  rw [linkNext_other _ _ _ _ (fun e => hic (Option.some.inj e).symm),
                    F1 i hic (hbn i (List.mem_cons_of_mem _ hi))]
              · rw [if_neg hr] at h
                have hla : ∀ i ∈ la, linkNext s3.vma_cache b (some c) i = s.vma_cache i := by
                  intro i hi
                  have hnot := hdis i (List.mem_cons_of_mem _ hi)
                  have hic : i ≠ c := fun e =>
                    hnot (List.mem_append_right _ (e ▸ List.mem_cons_self _ _))
                  exact F1 i hic (fun hb => hnot (List.mem_append_left _ (hbd i hb)))
                have hnext : (linkNext s3.vma_cache b (some c) a0).next = (s.vma_cache a0).next := by
                  rw [F1 a0 hac hba]
                obtain ⟨k, hk1, hk2, hch, hzip, hdone, hun, hlog, hp, hrd, hwr, hfree, hpt, hres⟩ :=
                  ih n { s3 with vma_cache := linkNext s3.vma_cache b (some c) }
                    { np with mmap := linkHead np.mmap b (some c) }
                    ((linkNext s3.vma_cache b (some c)) a0).next (some c) (done ++ [c]) fl'
                    r np' s'
                    (by
                      show Chain (linkNext s3.vma_cache b (some c)) _ la
                      rw [hnext]
                      exact (chain_congr s.vma_cache _ la _
                        (fun i hi => by rw [hla i hi])).2 ha2)
                    (by
                      show Chain (linkNext s3.vma_cache b (some c)) s3.vma_head fl'
                      rw [e3h]
                      refine (chain_congr s.vma_cache _ fl' _ ?_).2 hfl'
                      intro i hi
                      have hic : i ≠ c := fun e => hcf (e ▸ hi)
                      rw [F1 i hic (hbn i (List.mem_cons_of_mem _ hi))])
                    (by simpa using hnd)
                    (by
                      intro j hj
                      have := hdis j (List.mem_cons_of_mem _ hj)
                      simpa using this)
                    (by
                      intro x hx
                      have : c = x := Option.some.inj hx
                      simp [this])
                    (by intro hcontra; cases hcontra)
                    hstep
                    (by simp at hf; omega)
                    h
                refine ⟨k + 1, by simp; omega, by simp; omega, ?_, ?_, ?_, ?_, ?_,
                  hp.trans e3p, hrd.trans e3r, hwr.trans e3w, ?_, hpt, ?_⟩
                · rw [List.take_succ_cons]
                  simpa using hch
                · intro c1 x hcx
                  rw [List.zip_cons_cons, List.take_succ_cons] at hcx
                  rcases List.mem_cons.1 hcx with he | hm
                  · obtain ⟨rfl, rfl⟩ := Prod.mk.injEq _ _ _ _ ▸ he
                    exact copies_trans (hdone c1 (by simp)) F4
                  · have hx : x ∈ la := (List.of_mem_zip (List.mem_of_mem_take hm)).2
                    have := hzip c1 x hm
                    rw [show ({ s3 with vma_cache := linkNext s3.vma_cache b (some c) } :
                      State).vma_cache x = s.vma_cache x from hla x hx] at this
                    exact this
                · intro d hd
                  have hdc : d ≠ c := fun e => hcd (e ▸ hd)
                  exact copies_trans (hdone d (List.mem_append_left _ hd)) (F2 d hdc)
                · intro j hj
                  rw [List.take_succ_cons] at hj
                  have hjc : j ≠ c := fun e => hj (by simp [e])
                  have hjd : j ∉ done := fun hd => hj (List.mem_append_left _ hd)
                  rw [hun j (by simpa using hj)]
                  exact F1 j hjc (fun hb => hjd (hbd j hb))
                · rw [hlog]
                  show s3.log ++ _ = _
                  rw [e3l, List.take_succ_cons]
                  have hd : dupsOf (linkNext s3.vma_cache b (some c)) (List.take k la)
                      = dupsOf s.vma_cache (List.take k la) := by
                    have : ∀ (l : List Nat), (∀ i ∈ l, i ∈ la) →
                        dupsOf (linkNext s3.vma_cache b (some c)) l = dupsOf s.vma_cache l := by
                      intro l
                      induction l with
                      | nil => intro _; rfl
                      | cons i l ihl =>
                          intro hm
                          simp only [dupsOf]
                          rw [hla i (hm i (List.mem_cons_self _ _)),
                            ihl (fun j hj => hm j (List.mem_cons_of_mem _ hj))]
                    exact this _ (fun i hi => List.mem_of_mem_take hi)
                  show _ ++ dupsOf (linkNext s3.vma_cache b (some c)) (List.take k la) = _
                  rw [hd]
                  simp [dupsOf, List.append_assoc]
                · rw [List.drop_succ_cons]
                  exact hfree
                · rcases hres with ⟨h0, hk⟩ | ⟨h1, hk⟩
                  · exact Or.inl ⟨h0, by simp [hk]⟩
                  · refine Or.inr ⟨h1, ?_⟩
                    rcases hk with ⟨hk3, hk4⟩ | hk5
                    · exact Or.inl ⟨by simp [hk3], by simp; omega⟩
                    · exact Or.inr (Nat.succ_pos _)

/-- The list `mcopy` builds. For a parent whose list visits the slots `l` and
ends with a null pointer, a free list `fl` of the pool that shares no slot
with it, and a child whose list is empty: whenever `mcopy` returns, the list
of the child is
the null-terminated list of the first `k` slots of the free list, whose
regions copy field for field, in order, the first `k` regions of the parent
(`filedup` is called once for each of them that has a file, in order); every
other slot of the pool, the list of the parent and `myproc()` are as before,
the free list has lost those `k` slots, and the page-table pointer of the
child is untouched. With result 0, `k` is the length of the parent list. With
result -1 either the pool ran out (`k` is the length of the free list, below
that of the parent list) or `k ≥ 1` and the list ends with the region whose
pages `uvmcopy` reported it could not duplicate (this may be the whole parent
list). An empty parent list gives 0 at once, and an empty pool with a
non-empty parent list gives -1 at once with an empty child list. -/
theorem mcopy_copies_leading_regions (L : Layout) (fuel : Nat) (s : State) (np : proc)
    (l fl : List Nat) (hnp : np.mmap = none)
    (hl : Chain s.vma_cache s.p.mmap l) (hfl : Chain s.vma_cache s.vma_head fl)
    (hdis : ∀ j ∈ l, j ∉ fl) (hf : l.length < fuel) :
    (∀ r np' s', mcopy L fuel s np = Outcome.ret (r, np') s' →
      ∃ k, k ≤ l.length ∧ k ≤ fl.length ∧
        Chain s'.vma_cache np'.mmap (fl.take k) ∧
        (∀ c x, (c, x) ∈ (List.zip fl l).take k →
          Copies (s'.vma_cache c) (s.vma_cache x)) ∧
        s'.log = s.log ++ dupsOf s.vma_cache (l.take k) ∧
        (∀ j, j ∉ fl.take k → s'.vma_cache j = s.vma_cache j) ∧
        s'.p = s.p ∧ Chain s'.vma_cache s'.p.mmap l ∧
        Chain s'.vma_cache s'.vma_head (fl.drop k) ∧
        np'.pagetable = np.pagetable ∧
        (r = 0 ∧ k = l.length ∨ r = -1 ∧ (k = fl.length ∧ k < l.length ∨ 0 < k))) ∧
    (s.p.mmap = none → mcopy L fuel s np = Outcome.ret (0, np) s) ∧
    (s.vma_head = none → s.p.mmap ≠ none → mcopy L fuel s np = Outcome.ret (-1, np) s) := by
  obtain ⟨n, rfl⟩ : ∃ n, fuel = n + 1 := ⟨fuel - 1, by omega⟩
  refine ⟨?_, ?_, ?_⟩
  · intro r np' s' h
    obtain ⟨k, hk1, hk2, hch, hzip, _, hun, hlog, hp, _, _, hfree, hpt, hres⟩ :=
      mcopy_loop_effect L l (n + 1) s np s.p.mmap none [] fl r np' s' hl hfl
        (by simpa using chain_nodup s.vma_cache fl _ hfl)
        (by simpa using hdis)
        (by intro x hx; cases hx)
        (fun _ => ⟨rfl, hnp⟩)
        (by intro t; simp [Seg, linkHead])
        hf h
    refine ⟨k, hk1, hk2, by simpa using hch, hzip, hlog, ?_, hp, ?_, hfree, hpt, hres⟩
    · intro j hj
      exact hun j (by simpa using hj)
    · rw [hp]
      refine (chain_congr s.vma_cache _ l _ ?_).2 hl
      intro i hi
      rw [hun i (by
        simp only [List.nil_append]
        exact fun hm => hdis i hi (List.mem_of_mem_take hm))]
  · intro hm
    unfold mcopy
    rw [hm, mcopy_loop_done]
    rfl
  · intro hv hm
    unfold mcopy
    obtain ⟨a, ha⟩ := Option.ne_none_iff_exists.1 hm
    rw [← ha, mcopy_loop_empty_pool L n s np a none hv]
    show Outcome.ret (-1, ({ np with mmap := none } : proc)) s = _
    rw [← hnp]

/-- The list `mcopy` builds, at two concrete inputs. (1) The parent has the
regions `A` (slot 3) and `B` (slot 2), the slots 1 and 0 are free and four
frames are
free: `mcopy` returns 0 and the list of the child is `[1, 0]`, the copy of
both regions. (2) The parent has three untouched regions (slots 3, 2, 1) and
only the slot 0 is free: `mcopy` copies the first region, finds the pool empty
and returns -1 with the list `[0]` linked onto the child. -/
theorem mcopy_copies_leading_regions_witness :
    ((mcopy demo 8 fourFramesState childProc).value? = some (0, ⟨0x90000000, some 1⟩) ∧
     ∃ k, k = 2 ∧
      Chain ((mcopy demo 8 fourFramesState childProc).stateD boot).vma_cache (some 1)
        (List.take k [1, 0]) ∧
      (∀ c x, (c, x) ∈ (List.zip [1, 0] [3, 2]).take k →
        Copies (((mcopy demo 8 fourFramesState childProc).stateD boot).vma_cache c)
          (fourFramesState.vma_cache x))) ∧
    ((mcopy demo 8 threeRegionsState childProc).value? = some (-1, ⟨0x90000000, some 0⟩) ∧
     ∃ k, k = 1 ∧
      Chain ((mcopy demo 8 threeRegionsState childProc).stateD boot).vma_cache (some 0)
        (List.take k [0]) ∧
      (∀ c x, (c, x) ∈ (List.zip [0] [3, 2, 1]).take k →
        Copies (((mcopy demo 8 threeRegionsState childProc).stateD boot).vma_cache c)
          (threeRegionsState.vma_cache x))) := by
  refine ⟨⟨by rfl, ?_⟩, ⟨by rfl, ?_⟩⟩
  · obtain ⟨k, _, _, hch, hzip, _, _, _, _, _, _, hres⟩ :=
      (mcopy_copies_leading_regions demo 8 fourFramesState childProc [3, 2] [1, 0] rfl
        (by decide) (by decide) (by decide) (by decide)).1 0 ⟨0x90000000, some 1⟩
        ((mcopy demo 8 fourFramesState childProc).stateD boot) (by rfl)
    refine ⟨k, ?_, hch, hzip⟩
    rcases hres with ⟨_, hk⟩ | ⟨h1, _⟩
    · exact hk
    · exact absurd h1 (by decide)
  · obtain ⟨k, _, hk2, hch, hzip, _, _, _, _, _, _, hres⟩ :=
      (mcopy_copies_leading_regions demo 8 threeRegionsState childProc [3, 2, 1] [0] rfl
        (by decide) (by decide) (by decide) (by decide)).1 (-1) ⟨0x90000000, some 0⟩
        ((mcopy demo 8 threeRegionsState childProc).stateD boot) (by rfl)
    refine ⟨k, ?_, hch, hzip⟩
    rcases hres with ⟨h0, _⟩ | ⟨_, ⟨hk, _⟩ | hk⟩
    · exact absurd h0 (by decide)
    · exact hk
    · simp only [List.length_singleton] at hk2
      omega

/-! ### The range of `munmap` -/

/-- C22, evaluated on the code: the region is `[MMAP, MMAP + 12288)` with its
middle page touched. `munmap(MMAP, 4096)` returns 0 and leaves
`[MMAP + 4096, MMAP + 12288)`; `munmap(MMAP, 100)`, whose length rounds up to
4096, ends in `panic("_mfree: not aligned")`, and so does `munmap(MMAP, 4097)`,
whose length rounds up to 8192 (a call that returns 0). The end of the range,
`eddr = addr + length`, is computed on line 589 from the length as passed; the
rounding on line 594 comes after it and its result is not read. -/
theorem munmap_ignores_rounding :
    threePageState.regions 8 = [(2 ^ 36, 2 ^ 36 + 12288)] ∧
    PGROUNDUP32 100 = 4096 ∧ PGROUNDUP32 4097 = 8192 ∧
    (munmap demo 8 threePageState (2 ^ 36) 4096).value? = some 0 ∧
    (munmap demo 8 threePageState (2 ^ 36) 4096).state?.map (fun s => s.regions 8)
      = some [(2 ^ 36 + 4096, 2 ^ 36 + 12288)] ∧
    (munmap demo 8 threePageState (2 ^ 36) 100).panic? = some "_mfree: not aligned" ∧
    (munmap demo 8 threePageState (2 ^ 36) 8192).value? = some 0 ∧
    (munmap demo 8 threePageState (2 ^ 36) 4097).panic? = some "_mfree: not aligned" := by
  refine ⟨by rfl, by rfl, by rfl, by rfl, by rfl, by rfl, by rfl, by rfl⟩

/-! ### The file offset of the right remainder -/

/-- C23, counterexample: the region `[MMAP, MMAP + 12288)` has file offset 0
and `munmap(MMAP + 4096, 4096)` removes its middle page. The right remainder
`[MMAP + 8192, MMAP + 12288)` gets the file offset 8192, the distance of its
start from the start of the original region, not 0 + 4096, the old offset
plus the length of the removed range. -/
theorem munmap_straddle_offset_not_length :
    (threePageState.vma_cache 3).start = 2 ^ 36 ∧
    (threePageState.vma_cache 3).end_ = 2 ^ 36 + 12288 ∧
    (threePageState.vma_cache 3).pgoff = 0 ∧
    (munmap demo 8 threePageState (2 ^ 36 + 4096) 4096).value? = some 0 ∧
    (munmap demo 8 threePageState (2 ^ 36 + 4096) 4096).state?.map
        (fun s => (chainOf s.vma_cache 8 s.p.mmap, (s.vma_cache 2).start,
          (s.vma_cache 2).end_, (s.vma_cache 2).pgoff))
      = some ([3, 2], 2 ^ 36 + 8192, 2 ^ 36 + 12288, 8192) ∧
    (8192 : Nat) ≠ 0 + ((2 ^ 36 + 4096 + 4096) - (2 ^ 36 + 4096)) := by
  refine ⟨by rfl, by rfl, by rfl, by rfl, by rfl, by decide⟩

theorem straddle_offset_arith (o st addr length : Nat) (ho : o < 2 ^ 64)
    (hs : st < addr) (he : addr + length < 2 ^ 64) :
    sub64 (u64 (o + (addr + length))) st = u64 (o + (addr + length - st)) ∧
    (o + (addr + length - st) < 2 ^ 64 →
      sub64 (u64 (o + (addr + length))) st ≠ o + length) := by
  unfold sub64 u64
  constructor
  · omega
  · intro h
    omega

/-- C23 (amended): when the loop of `munmap` is at a region `[s, e)` (slot `i`,
file offset `o`) that strictly contains the request `[addr, addr + length)`,
`_mfree` returns and the pool has a head `c` other than `i`, the pass through
the "middle area" branch goes on at `c` in the state `munmap_split` builds, in
which `c` holds the right remainder `[addr + length, e)` with the file offset
`o + ((addr + length) - s)` (modulo `2^64`): the old offset plus the distance
from the start of the original region to the start of the remainder. Unless
that sum wraps it differs from `o + length`. -/
theorem munmap_straddle_offset (L : Layout) (s s1 : State) (fuel addr length i c : Nat)
    (b : Option Nat)
    (hin : (s.vma_cache i).start < addr ∧ addr + length < (s.vma_cache i).end_)
    (hend : (s.vma_cache i).end_ < 2 ^ 64) (hoff : (s.vma_cache i).pgoff < 2 ^ 64)
    (hhead : s.vma_head = some c) (hci : c ≠ i)
    (hm : _mfree L fuel s i addr (addr + length) true = Outcome.ret () s1) :
    munmap_loop L addr (addr + length) (fuel + 1) s (some i) b =
      munmap_loop L addr (addr + length) fuel (munmap_split s1 i c addr (addr + length))
        (some c) (some i) ∧
    ((munmap_split s1 i c addr (addr + length)).vma_cache c).start = addr + length ∧
    ((munmap_split s1 i c addr (addr + length)).vma_cache c).end_ = (s.vma_cache i).end_ ∧
    ((munmap_split s1 i c addr (addr + length)).vma_cache c).pgoff
      = u64 ((s.vma_cache i).pgoff + (addr + length - (s.vma_cache i).start)) ∧
    ((s.vma_cache i).pgoff + (addr + length - (s.vma_cache i).start) < 2 ^ 64 →
      ((munmap_split s1 i c addr (addr + length)).vma_cache c).pgoff
        ≠ (s.vma_cache i).pgoff + length) := by
  have hsame := _mfree_sameVma L fuel s i addr (addr + length) true s1 hm
  obtain ⟨_, _, hT3, hT4, _⟩ := munmap_split_post s s1 i c addr (addr + length) hsame hci
  obtain ⟨ar1, ar2⟩ := straddle_offset_arith (s.vma_cache i).pgoff (s.vma_cache i).start addr
    length hoff hin.1 (by omega)
  refine ⟨?_, by rw [hT4], by rw [hT4], by rw [hT4]; exact ar1, ?_⟩
  · have h1 : ¬ (addr + length ≤ (s.vma_cache i).start ∨ addr ≥ (s.vma_cache i).end_) := by
      omega
    have h2 : ¬ (addr ≤ (s.vma_cache i).start ∧ addr + length ≥ (s.vma_cache i).end_) := by
      omega
    have h3 : addr > (s.vma_cache i).start ∧ addr + length < (s.vma_cache i).end_ := by omega
    conv_lhs => unfold munmap_loop
    simp only [h1, h2, h3, if_false, if_true, and_self, hm, hsame.2.1, hhead]
    rw [hT3]
  · intro h
    rw [hT4]
    exact ar2 h

/-- C23 (amended) at a concrete input: `munmap(MMAP + 4096, 4096)` on the
region `[MMAP, MMAP + 12288)` of slot 3, the head of the list, with file
offset 0 and pool head 2. The right remainder gets the file offset 8192. -/
theorem munmap_straddle_offset_witness :
    munmap demo 8 threePageState (2 ^ 36 + 4096) 4096 =
      munmap_loop demo (2 ^ 36 + 4096) (2 ^ 36 + 4096 + 4096) (7 + 1) threePageState
        (some 3) none ∧
    munmap_loop demo (2 ^ 36 + 4096) (2 ^ 36 + 4096 + 4096) (7 + 1) threePageState
        (some 3) none =
      munmap_loop demo (2 ^ 36 + 4096) (2 ^ 36 + 4096 + 4096) 7
        (munmap_split ((_mfree demo 7 threePageState 3 (2 ^ 36 + 4096)
          (2 ^ 36 + 4096 + 4096) true).stateD boot) 3 2 (2 ^ 36 + 4096)
          (2 ^ 36 + 4096 + 4096)) (some 2) (some 3) ∧
    ((munmap_split ((_mfree demo 7 threePageState 3 (2 ^ 36 + 4096)
          (2 ^ 36 + 4096 + 4096) true).stateD boot) 3 2 (2 ^ 36 + 4096)
          (2 ^ 36 + 4096 + 4096)).vma_cache 2).pgoff
      = u64 ((threePageState.vma_cache 3).pgoff
          + (2 ^ 36 + 4096 + 4096 - (threePageState.vma_cache 3).start)) ∧
    u64 ((threePageState.vma_cache 3).pgoff
          + (2 ^ 36 + 4096 + 4096 - (threePageState.vma_cache 3).start)) = 8192 :=
  ⟨by rfl,
   (munmap_straddle_offset demo threePageState
      ((_mfree demo 7 threePageState 3 (2 ^ 36 + 4096) (2 ^ 36 + 4096 + 4096) true).stateD boot)
      7 (2 ^ 36 + 4096) 4096 3 2 none
      (by decide) (by decide) (by decide) (by rfl) (by decide) (by rfl)).1,
   (munmap_straddle_offset demo threePageState
      ((_mfree demo 7 threePageState 3 (2 ^ 36 + 4096) (2 ^ 36 + 4096 + 4096) true).stateD boot)
      7 (2 ^ 36 + 4096) 4096 3 2 none
      (by decide) (by decide) (by decide) (by rfl) (by decide) (by rfl)).2.2.2.1,
   by rfl⟩

/-! ### Front and tail overlap -/

/-- C24, evaluated on the code. (1) The region `[MMAP, MMAP + 8192)` was never
touched and no page-table page exists for it: `munmap(MMAP, 4096)` overlaps its
front and `munmap(MMAP + 4096, 8192)` its tail, and both end in
`panic("_mfree: walk")` instead of shrinking the region. (2) With
`A = [MMAP, MMAP + 4096)` (touched) in front of `B = [MMAP + 4096, MMAP + 12288)`,
`munmap(MMAP, 8192)` covers `A` and the front page of `B`: it returns 0 and
`B` still starts at `MMAP + 4096`, not at `MMAP + 8192`; after `A` is unlinked
and pushed onto the pool the loop follows the free list and never visits
`B`. (3) Where the page-table page exists and no region is unlinked before,
the two branches do what is expected of them: on `[MMAP, MMAP + 12288)` with
file offset 0, `munmap(MMAP, 8192)` leaves the same slot with
`[MMAP + 8192, MMAP + 12288)` and file offset 8192 and has unmapped the middle
page, and `munmap(MMAP + 8192, 8192)` leaves it with `[MMAP, MMAP + 8192)`,
file offset 0 and the middle page still mapped; the pool is as before. -/
theorem munmap_edge_overlap_not_applied :
    twoPagesUntouchedState.regions 8 = [(2 ^ 36, 2 ^ 36 + 8192)] ∧
    (munmap demo 8 twoPagesUntouchedState (2 ^ 36) 4096).panic? = some "_mfree: walk" ∧
    (munmap demo 8 twoPagesUntouchedState (2 ^ 36 + 4096) 8192).panic?
      = some "_mfree: walk" ∧
    oneThenTwoState.regions 8 = [(2 ^ 36, 2 ^ 36 + 4096), (2 ^ 36 + 4096, 2 ^ 36 + 12288)] ∧
    (munmap demo 8 oneThenTwoState (2 ^ 36) 8192).value? = some 0 ∧
    (munmap demo 8 oneThenTwoState (2 ^ 36) 8192).state?.map (fun s => s.regions 8)
      = some [(2 ^ 36 + 4096, 2 ^ 36 + 12288)] ∧
    threePageState.vma_cache 3 = ⟨2 ^ 36, 2 ^ 36 + 12288, 22, 0, 0, 0, none⟩ ∧
    (munmap demo 8 threePageState (2 ^ 36) 8192).state?.map
        (fun s => (chainOf s.vma_cache 8 s.p.mmap, s.vma_cache 3,
          chainOf s.vma_cache 8 s.vma_head, (translation demo s (2 ^ 36 + 4096)).isSome))
      = some ([3], ⟨2 ^ 36 + 8192, 2 ^ 36 + 12288, 22, 0, 8192, 0, none⟩, [2, 1, 0], false) ∧
    (munmap demo 8 threePageState (2 ^ 36 + 8192) 8192).state?.map
        (fun s => (chainOf s.vma_cache 8 s.p.mmap, s.vma_cache 3,
          chainOf s.vma_cache 8 s.vma_head, (translation demo s (2 ^ 36 + 4096)).isSome))
      = some ([3], ⟨2 ^ 36, 2 ^ 36 + 8192, 22, 0, 0, 0, none⟩, [2, 1, 0], true) := by
  refine ⟨by rfl, by rfl, by rfl, by rfl, by rfl, by rfl, by rfl, by rfl, by rfl⟩

/-! ### `copyinstr` -/

/-- The inner loop of `copyinstr` on `n` source bytes that lie apart from the
`n` cells of the buffer: what it stores, and how it ends. -/
theorem copyinstr_bytes_effect : ∀ (n : Nat) (s : State) (p d m : Nat),
    n ≤ m → m < 2 ^ 64 → p + n ≤ 2 ^ 64 → d + n < 2 ^ 64 →
    (∀ i j, i < n → j < n → d + i ≠ p + j) →
    ∃ s' g m' d', copyinstr_bytes n s p d m = (s', g, m', d') ∧
      SameVma s s' ∧ s'.kmem = s.kmem ∧ s'.log = s.log ∧
      (∀ x, ¬ (d ≤ x ∧ x < d + n) → s'.mem x = s.mem x) ∧
      (∀ k, k < n → byteAt s.mem (p + k) = 0 → (∀ j, j < k → byteAt s.mem (p + j) ≠ 0) →
        g = true ∧ (∀ i, i ≤ k → s'.mem (d + i) = byteAt s.mem (p + i)) ∧
        (∀ x, ¬ (d ≤ x ∧ x ≤ d + k) → s'.mem x = s.mem x)) ∧
      ((∀ k, k < n → byteAt s.mem (p + k) ≠ 0) →
        g = false ∧ m' = m - n ∧ d' = d + n ∧
        (∀ i, i < n → s'.mem (d + i) = byteAt s.mem (p + i))) := by
  intro n
  induction n with
  | zero =>
      intro s p d m _ _ _ _ _
      refine ⟨s, false, m, d, rfl, SameVma.refl s, rfl, rfl, fun _ _ => rfl, ?_, ?_⟩
      · intro k hk
        omega
      · intro _
        refine ⟨rfl, rfl, rfl, ?_⟩
        intro i hi
        omega
  | succ n ih =>
      intro s p d m hnm hm hp hd hdis
      by_cases hz : byteAt s.mem p = 0
      · refine ⟨s.storeByte d 0, true, m, d, by rw [copyinstr_bytes, if_pos hz],
          ⟨rfl, rfl, rfl, rfl, rfl⟩, rfl, rfl, ?_, ?_, ?_⟩
        · intro x hx
          have hxd : x ≠ d := by omega
          exact Function.update_noteq hxd _ _
        · intro k _ _ hbefore
          have hk0 : k = 0 := by
            by_contra hne
            exact hbefore 0 (by omega) hz
          subst hk0
          refine ⟨rfl, ?_, ?_⟩
          · intro i hi
            have hi0 : i = 0 := by omega
            subst hi0
            show Function.update s.mem d 0 (d + 0) = _
            rw [Nat.add_zero, Function.update_same, Nat.add_zero, hz]
          · intro x hx
            have hxd : x ≠ d := by omega
            exact Function.update_noteq hxd _ _
        · intro hall
          exact absurd hz (hall 0 (by omega))
      · have hd1 : u64 (d + 1) = d + 1 := u64_of_lt (by omega)
        have hm1 : sub64 m 1 = m - 1 := by
          unfold sub64
          omega
        have hp1 : u64 (p + 1) + n ≤ 2 ^ 64 ∧ (0 < n → u64 (p + 1) = p + 1) := by
          unfold u64
          constructor
          · rcases Nat.eq_zero_or_pos n with h0 | hpos
            · subst h0
              have := Nat.mod_lt (p + 1) (by norm_num : 0 < 2 ^ 64)
              omega
            · have e : (p + 1) % 2 ^ 64 = p + 1 := Nat.mod_eq_of_lt (by omega)
              omega
          · intro hpos
            exact Nat.mod_eq_of_lt (by omega)
        have hs1 : ∀ x, (s.storeByte d (byteAt s.mem p)).mem x =
            if x = d then byteAt s.mem p else s.mem x := by
          intro x
          show Function.update s.mem d (byteAt s.mem p) x = _
          by_cases hxd : x = d
          · rw [if_pos hxd, hxd, Function.update_same]
          · rw [if_neg hxd, Function.update_noteq hxd]
        have hsv1 : SameVma s (s.storeByte d (byteAt s.mem p)) := ⟨rfl, rfl, rfl, rfl, rfl⟩
        have hk1 : (s.storeByte d (byteAt s.mem p)).kmem = s.kmem := rfl
        have hl1 : (s.storeByte d (byteAt s.mem p)).log = s.log := rfl
        obtain ⟨s', g, m', d', hres, q1, q2, q3, q4, q5, q6⟩ :=
          ih (s.storeByte d (byteAt s.mem p)) (u64 (p + 1)) (d + 1) (m - 1)
            (by omega) (by omega) hp1.1 (by omega)
            (fun i j hi hj => by
              rw [hp1.2 (by omega)]
              have := hdis (i + 1) (j + 1) (by omega) (by omega)
              omega)
        have hrun : copyinstr_bytes (n + 1) s p d m = (s', g, m', d') := by
          rw [copyinstr_bytes, if_neg hz, hd1, hm1]
          exact hres
        clear hres
        generalize s.storeByte d (byteAt s.mem p) = s1 at q1 q2 q3 q4 q5 q6 hs1 hsv1 hk1 hl1
        -- the source bytes behind the first are untouched by the first store
        have hsrc : ∀ k, k < n → byteAt s1.mem (u64 (p + 1) + k) = byteAt s.mem (p + (k + 1)) := by
          intro k hk
          rw [hp1.2 (by omega)]
          unfold byteAt
          have e : p + 1 + k = p + (k + 1) := by omega
          have hne : p + (k + 1) ≠ d := by
            have := hdis 0 (k + 1) (by omega) (by omega)
            omega
          rw [e, hs1, if_neg hne]
        refine ⟨s', g, m', d', hrun,
          hsv1.trans q1, by rw [q2, hk1], by rw [q3, hl1], ?_, ?_, ?_⟩
        · intro x hx
          rw [q4 x (by omega), hs1, if_neg (by omega)]
        · intro k hk hzero hbefore
          have hkpos : 0 < k := by
            by_contra hne
            have hk0 : k = 0 := by omega
            subst hk0
            exact hz hzero
          obtain ⟨g1, g2, g3⟩ := q5 (k - 1) (by omega)
            (by
              rw [hsrc (k - 1) (by omega)]
              have e : k - 1 + 1 = k := by omega
              rw [e]
              exact hzero)
            (by
              intro j hj
              rw [hsrc j (by omega)]
              exact hbefore (j + 1) (by omega))
          refine ⟨g1, ?_, ?_⟩
          · intro i hi
            rcases Nat.eq_zero_or_pos i with h0 | hpos
            · subst h0
              rw [Nat.add_zero, g3 d (by omega), hs1, if_pos rfl, Nat.add_zero]
            · have := g2 (i - 1) (by omega)
              rw [hsrc (i - 1) (by omega)] at this
              have e1 : d + 1 + (i - 1) = d + i := by omega
              have e2 : i - 1 + 1 = i := by omega
              rw [e1, e2] at this
              exact this
          · intro x hx
            rw [g3 x (by omega), hs1, if_neg (by omega)]
        · intro hall
          obtain ⟨g1, g2, g3, g4⟩ := q6 (by
            intro k hk
            rw [hsrc k hk]
            exact hall (k + 1) (by omega))
          refine ⟨g1, by omega, by omega, ?_⟩
          intro i hi
          rcases Nat.eq_zero_or_pos i with h0 | hpos
          · subst h0
            rw [Nat.add_zero, q4 d (by omega), hs1, if_pos rfl, Nat.add_zero]
          · have := g4 (i - 1) (by omega)
            rw [hsrc (i - 1) (by omega)] at this
            have e1 : d + 1 + (i - 1) = d + i := by omega
            have e2 : i - 1 + 1 = i := by omega
            rw [e1, e2] at this
            exact this

/-- One pass of the outer loop of `copyinstr` on a translated page. -/
theorem copyinstr_loop_step (L : Layout) (root : Nat) (hMAXVA : L.MAXVA ≤ 2 ^ 39)
    (fuel : Nat) (s : State) (dst srcva max : Nat)
    (hd : srcva < 2 ^ 64) (hmax : 0 < max)
    (hpa : userPa L s.mem root (PGROUNDDOWN srcva) ≠ 0) :
    copyinstr_loop L root (fuel + 1) s dst srcva max =
      match copyinstr_bytes (min max (PGSIZE - srcva % PGSIZE)) s
          (userPa L s.mem root (PGROUNDDOWN srcva) + srcva % PGSIZE) dst max with
      | (s2, true, _, _) => Outcome.ret 0 s2
      | (s2, false, max', dst') =>
          copyinstr_loop L root fuel s2 dst' (PGROUNDDOWN srcva + PGSIZE) max' := by
  obtain ⟨b1, b2, b3⟩ := userPa_bound L s.mem root (PGROUNDDOWN srcva)
  have hva := b3 hpa
  obtain ⟨a1, a2, a3, a4⟩ := copy_arith srcva _ hd b1 b2 (by unfold PGSIZE; omega)
  rw [copyinstr_loop, if_pos hmax]
  simp only [walkaddr_userPa, hpa, if_false, a1, a2, min_as_if, a3, a4]

theorem terminatorAt_unique (L : Layout) (m : Nat → Nat) (root srcva max k k' : Nat)
    (h : TerminatorAt L m root srcva max k) (h' : TerminatorAt L m root srcva max k') :
    k = k' := by
  rcases Nat.lt_trichotomy k k' with hlt | heq | hgt
  · exact absurd h.2.1 (h'.2.2.1 k hlt)
  · exact heq
  · exact absurd h'.2.1 (h.2.2.1 k' hgt)

/-- The outer loop of `copyinstr`: the result and the bytes it stored in the
kernel buffer. -/
theorem copyinstr_loop_effect (L : Layout) (root : Nat) (hMAXVA : L.MAXVA ≤ 2 ^ 39) :
    ∀ (fuel : Nat) (s : State) (dst srcva max : Nat),
      srcva < 2 ^ 64 → dst + max < 2 ^ 64 →
      (max + srcva % PGSIZE + PGSIZE - 1) / PGSIZE < fuel →
      (∀ i, i < max → ¬ InPt s.mem root (dst + i)) →
      (∀ i j, i < max → j < max → Translated L s.mem root (srcva + j) →
        dst + i ≠ userCell L s.mem root (srcva + j)) →
      ∃ r s', copyinstr_loop L root fuel s dst srcva max = Outcome.ret r s' ∧
        ((∃ k, TerminatorAt L s.mem root srcva max k) → r = 0) ∧
        ((¬ ∃ k, TerminatorAt L s.mem root srcva max k) → r = -1) ∧
        (∀ k, TerminatorAt L s.mem root srcva max k →
          (∀ i, i ≤ k → s'.mem (dst + i) = byteAt s.mem (userCell L s.mem root (srcva + i))) ∧
          (∀ x, ¬ (dst ≤ x ∧ x ≤ dst + k) → s'.mem x = s.mem x)) ∧
        (∀ x, ¬ (dst ≤ x ∧ x < dst + max) → s'.mem x = s.mem x) ∧
        SameVma s s' ∧ s'.kmem = s.kmem ∧ s'.log = s.log := by
  intro fuel
  induction fuel with
  | zero => intro s dst srcva max _ _ hf; simp at hf
  | succ f ih =>
      intro s dst srcva max hd hs hf K1 K2
      by_cases hmax : 0 < max
      swap
      · have hm0 : max = 0 := by omega
        subst hm0
        refine ⟨-1, s, by rw [copyinstr_loop, if_neg (by omega)], ?_, fun _ => rfl, ?_,
          fun _ _ => rfl, SameVma.refl s, rfl, rfl⟩
        · rintro ⟨k, hk, _⟩
          omega
        · rintro k ⟨hk, _⟩
          omega
      by_cases hpa : userPa L s.mem root (PGROUNDDOWN srcva) = 0
      · have hnt : ¬ Translated L s.mem root (srcva + 0) := by
          unfold Translated
          rw [add_zero]
          exact fun h => h hpa
        refine ⟨-1, s, ?_, ?_, fun _ => rfl, ?_, fun _ _ => rfl, SameVma.refl s, rfl, rfl⟩
        · rw [copyinstr_loop, if_pos hmax]
          simp only [walkaddr_userPa, hpa, if_true]
        · rintro ⟨k, _, _, _, htr⟩
          exact absurd (htr 0 (Nat.zero_le _)) hnt
        · rintro k ⟨_, _, _, htr⟩
          exact absurd (htr 0 (Nat.zero_le _)) hnt
      · obtain ⟨b1, b2, b3⟩ := userPa_bound L s.mem root (PGROUNDDOWN srcva)
        have hvaM := b3 hpa
        obtain ⟨c1, c2, c3, c4⟩ := chunk_pages srcva max hmax
        rw [copyinstr_loop_step L root hMAXVA f s dst srcva max hd hmax hpa]
        have hnle : min max (PGSIZE - srcva % PGSIZE) ≤ PGSIZE - srcva % PGSIZE :=
          min_le_right _ _
        generalize hn : min max (PGSIZE - srcva % PGSIZE) = n at c1 c2 c3 c4 hnle
        generalize hpa0 : userPa L s.mem root (PGROUNDDOWN srcva) = pa0 at hpa b1 b2
        have hmod : srcva % PGSIZE < PGSIZE := Nat.mod_lt _ (by decide)
        have htr : ∀ i, i < n → Translated L s.mem root (srcva + i) := by
          intro i hi
          unfold Translated
          rw [(c1 i hi).1, hpa0]
          exact hpa
        have hcell : ∀ i, i < n →
            userCell L s.mem root (srcva + i) = pa0 + srcva % PGSIZE + i := by
          intro i hi
          unfold userCell
          rw [(c1 i hi).1, (c1 i hi).2, hpa0]
          omega
        have hpn : pa0 + srcva % PGSIZE + n ≤ 2 ^ 64 := by
          unfold PGSIZE at *
          omega
        obtain ⟨s2, g, m', d', hres, q1, q2, q3, q4, q5, q6⟩ :=
          copyinstr_bytes_effect n s (pa0 + srcva % PGSIZE) dst max c4 (by omega) hpn
            (by omega)
            (fun i j hi hj => by
              rw [← hcell j hj]
              exact K2 i j (by omega) (by omega) (htr j hj))
        rw [hres]
        by_cases hex : ∃ k, k < n ∧ byteAt s.mem (pa0 + srcva % PGSIZE + k) = 0
        · -- the terminator lies on this page
          classical
          have hk0 := Nat.find_spec hex
          have hmin : ∀ j, j < Nat.find hex → byteAt s.mem (pa0 + srcva % PGSIZE + j) ≠ 0 := by
            intro j hj hz
            exact Nat.find_min hex hj ⟨by omega, hz⟩
          generalize Nat.find hex = k0 at hk0 hmin
          obtain ⟨g1, g2, g3⟩ := q5 k0 hk0.1 hk0.2 hmin
          subst g1
          have hT0 : TerminatorAt L s.mem root srcva max k0 := by
            refine ⟨by omega, ?_, ?_, ?_⟩
            · rw [hcell k0 hk0.1]
              exact hk0.2
            · intro j hj
              rw [hcell j (by omega)]
              exact hmin j hj
            · intro j hj
              exact htr j (by omega)
          refine ⟨0, s2, rfl, fun _ => rfl, ?_, ?_, ?_, q1, q2, q3⟩
          · intro hno
            exact absurd ⟨k0, hT0⟩ hno
          · intro k hT
            have hkk := terminatorAt_unique L s.mem root srcva max k k0 hT hT0
            subst hkk
            refine ⟨?_, g3⟩
            intro i hi
            rw [g2 i hi, hcell i (by omega)]
          · intro x hx
            exact q4 x (by omega)
        · -- no terminator on this page
          have hall : ∀ k, k < n → byteAt s.mem (pa0 + srcva % PGSIZE + k) ≠ 0 := by
            intro k hk hz
            exact hex ⟨k, hk, hz⟩
          obtain ⟨g1, g2, g3, g4⟩ := q6 hall
          subst g1 g2 g3
          simp only []
          have hstab : ∀ x, InPt s.mem root x → s2.mem x = s.mem x := by
            intro x hx
            apply q4
            intro hc
            have := K1 (x - dst) (by omega)
            have e : dst + (x - dst) = x := by omega
            rw [e] at this
            exact this hx
          obtain ⟨hpaeq, hinpt⟩ := userPa_stable L s.mem s2.mem root hstab
          have htreq : ∀ va, Translated L s2.mem root va ↔ Translated L s.mem root va := by
            intro va
            unfold Translated
            rw [hpaeq]
          have hceq : ∀ va, userCell L s2.mem root va = userCell L s.mem root va := by
            intro va
            unfold userCell
            rw [hpaeq]
          have hshift : ∀ i, i < max - n →
              PGROUNDDOWN srcva + PGSIZE + i = srcva + (n + i) := by
            intro i hi
            have := c2 (by omega)
            omega
          have hsrc : ∀ j, j < max → Translated L s.mem root (srcva + j) →
              byteAt s2.mem (userCell L s.mem root (srcva + j))
                = byteAt s.mem (userCell L s.mem root (srcva + j)) := by
            intro j hj ht
            unfold byteAt
            rw [q4]
            intro hc
            have := K2 (userCell L s.mem root (srcva + j) - dst) j (by omega) hj ht
            apply this
            omega
          have hf' : (max - n + (PGROUNDDOWN srcva + PGSIZE) % PGSIZE + PGSIZE - 1) / PGSIZE
              < f := by
            have e : (PGROUNDDOWN srcva + PGSIZE) % PGSIZE = 0 := by
              have := PGROUNDDOWN_aligned srcva
              unfold PGSIZE at *
              omega
            rw [e]
            have hn' : n = max ∨ n = PGSIZE - srcva % PGSIZE := by
              rw [← hn]
              rcases min_choice max (PGSIZE - srcva % PGSIZE) with h | h
              · exact Or.inl h
              · exact Or.inr h
            unfold PGSIZE at *
            omega
          obtain ⟨r, s', hr, r1, r2, r3, r4, r5, r6, r7⟩ :=
            ih s2 (dst + n) (PGROUNDDOWN srcva + PGSIZE) (max - n)
              (by unfold PGSIZE; omega) (by omega) hf'
              (fun i hi => by
                rw [hinpt, Nat.add_assoc]
                exact K1 (n + i) (by omega))
              (fun i j hi hj htj => by
                rw [hshift j hj] at htj ⊢
                rw [hceq, Nat.add_assoc]
                exact K2 (n + i) (n + j) (by omega) (by omega) ((htreq _).1 htj))
          -- the byte `j` of the rest is the byte `n + j` of the whole
          have hbyte2 : ∀ j, j < max - n → Translated L s.mem root (srcva + (n + j)) →
              byteAt s2.mem (userCell L s2.mem root (PGROUNDDOWN srcva + PGSIZE + j))
                = byteAt s.mem (userCell L s.mem root (srcva + (n + j))) := by
            intro j hj ht
            rw [hshift j hj, hceq]
            exact hsrc (n + j) (by omega) ht
          have hdown : ∀ k, TerminatorAt L s.mem root srcva max k →
              n ≤ k ∧ TerminatorAt L s2.mem root (PGROUNDDOWN srcva + PGSIZE) (max - n)
                (k - n) := by
            rintro k ⟨t1, t2, t3, t4⟩
            have hnk : n ≤ k := by
              by_contra hlt
              have hk : k < n := by omega
              rw [hcell k hk] at t2
              exact hall k hk t2
            have e : n + (k - n) = k := by omega
            refine ⟨hnk, by omega, ?_, ?_, ?_⟩
            · rw [hbyte2 (k - n) (by omega) (by rw [e]; exact t4 k (le_refl _)), e]
              exact t2
            · intro j hj
              rw [hbyte2 j (by omega) (t4 (n + j) (by omega))]
              exact t3 (n + j) (by omega)
            · intro j hj
              rw [hshift j (by omega), htreq]
              exact t4 (n + j) (by omega)
          have hup : ∀ k', TerminatorAt L s2.mem root (PGROUNDDOWN srcva + PGSIZE) (max - n) k' →
              TerminatorAt L s.mem root srcva max (n + k') := by
            rintro k' ⟨t1, t2, t3, t4⟩
            have htr' : ∀ j, j ≤ n + k' → Translated L s.mem root (srcva + j) := by
              intro j hj
              by_cases hjn : j < n
              · exact htr j hjn
              · have := t4 (j - n) (by omega)
                rw [hshift (j - n) (by omega), htreq] at this
                have e : n + (j - n) = j := by omega
                rw [e] at this
                exact this
            refine ⟨by omega, ?_, ?_, htr'⟩
            · rw [← hbyte2 k' t1 (htr' _ (le_refl _))]
              exact t2
            · intro j hj
              by_cases hjn : j < n
              · rw [hcell j hjn]
                exact hall j hjn
              · have := t3 (j - n) (by omega)
                have e : n + (j - n) = j := by omega
                rw [hbyte2 (j - n) (by omega) (by rw [e]; exact htr' j (by omega)), e] at this
                exact this
          refine ⟨r, s', hr, ?_, ?_, ?_, ?_, q1.trans r5, by rw [r6, q2], by rw [r7, q3]⟩
          · rintro ⟨k, hT⟩
            exact r1 ⟨k - n, (hdown k hT).2⟩
          · intro hno
            apply r2
            rintro ⟨k', hT'⟩
            exact hno ⟨n + k', hup k' hT'⟩
          · intro k hT
            obtain ⟨hnk, hT2⟩ := hdown k hT
            obtain ⟨w1, w2⟩ := r3 (k - n) hT2
            have hkmax : k < max := hT.1
            refine ⟨?_, ?_⟩
            · intro i hi
              by_cases hin : i < n
              · rw [w2 (dst + i) (by omega), g4 i hin, hcell i hin]
              · have := w1 (i - n) (by omega)
                have e : n + (i - n) = i := by omega
                rw [hbyte2 (i - n) (by omega) (by rw [e]; exact hT.2.2.2 i hi), e,
                  Nat.add_assoc, e] at this
                exact this
            · intro x hx
              rw [w2 x (by omega), q4 x (by omega)]
          · intro x hx
            rw [r4 x (by omega), q4 x (by omega)]

/-- C21: let `MAXVA ≤ 2^39`, let the kernel buffer `[dst, dst + max)` not wrap
at `2^64`, lie in no page of the page table and share no cell with the
translated bytes of `[srcva, srcva + max)`, and let the loop budget cover the
pages of the range. Then `copyinstr` returns, 0 or -1. It returns 0 exactly
when there is an index `k < max` such that the user byte at `srcva + k` is 0,
the bytes before it are not 0 and every page of `srcva .. srcva + k` has a
user translation (`TerminatorAt`); then `dst[0..k]` holds those `k + 1` bytes
and no cell outside `dst[0..k]` has changed. It returns -1 in every other
case: when `max` bytes hold no 0 (so when `max = 0`), and when a page without
translation comes before any 0. No cell outside the buffer changes in any
case. The address these statements read a user byte from is the one
`walkaddr` returns for its page, plus the offset in the page. -/
theorem copyinstr_copies_string (L : Layout) (s : State) (fuel root dst srcva max : Nat)
    (hMAXVA : L.MAXVA ≤ 2 ^ 39) (hsv : srcva < 2 ^ 64) (hd : dst + max < 2 ^ 64)
    (hfuel : (max + srcva % PGSIZE + PGSIZE - 1) / PGSIZE < fuel)
    (K1 : ∀ i, i < max → ¬ InPt s.mem root (dst + i))
    (K2 : ∀ i j, i < max → j < max → Translated L s.mem root (srcva + j) →
      dst + i ≠ userCell L s.mem root (srcva + j)) :
    (∃ r s', copyinstr L fuel s root dst srcva max = Outcome.ret r s' ∧
      (r = 0 ↔ ∃ k, TerminatorAt L s.mem root srcva max k) ∧
      (r = -1 ↔ ¬ ∃ k, TerminatorAt L s.mem root srcva max k) ∧
      (∀ k, TerminatorAt L s.mem root srcva max k →
        (∀ i, i ≤ k → s'.mem (dst + i) = byteAt s.mem (userCell L s.mem root (srcva + i))) ∧
        (∀ x, ¬ (dst ≤ x ∧ x ≤ dst + k) → s'.mem x = s.mem x)) ∧
      ((∀ j, j < max → byteAt s.mem (userCell L s.mem root (srcva + j)) ≠ 0) → r = -1) ∧
      (∀ j, j < max → ¬ Translated L s.mem root (srcva + j) →
        (∀ i, i < j → byteAt s.mem (userCell L s.mem root (srcva + i)) ≠ 0) → r = -1) ∧
      (∀ x, ¬ (dst ≤ x ∧ x < dst + max) → s'.mem x = s.mem x) ∧
      SameVma s s' ∧ s'.kmem = s.kmem ∧ s'.log = s.log) ∧
    (∀ va, walkaddr L s root (PGROUNDDOWN va)
        = Outcome.ret (userPa L s.mem root (PGROUNDDOWN va)) s ∧
      userCell L s.mem root va = userPa L s.mem root (PGROUNDDOWN va) + va % PGSIZE ∧
      (Translated L s.mem root va ↔ userPa L s.mem root (PGROUNDDOWN va) ≠ 0)) := by
  refine ⟨?_, fun va => ⟨walkaddr_userPa L s root _, rfl, Iff.rfl⟩⟩
  obtain ⟨r, s', hr, r1, r2, r3, r4, r5, r6, r7⟩ :=
    copyinstr_loop_effect L root hMAXVA fuel s dst srcva max hsv hd hfuel K1 K2
  have hiff0 : r = 0 ↔ ∃ k, TerminatorAt L s.mem root srcva max k := by
    constructor
    · intro h0
      by_contra hno
      have := r2 hno
      omega
    · exact r1
  have hiff1 : r = -1 ↔ ¬ ∃ k, TerminatorAt L s.mem root srcva max k := by
    constructor
    · intro h1 hex
      have := r1 hex
      omega
    · exact r2
  refine ⟨r, s', hr, hiff0, hiff1, r3, ?_, ?_, r4, r5, r6, r7⟩
  · intro hall
    apply r2
    rintro ⟨k, hk, hz, _, _⟩
    exact hall k hk hz
  · intro j hj hnt hbefore
    apply r2
    rintro ⟨k, hk, hz, _, htr⟩
    by_cases hkj : k < j
    · exact hbefore k hkj hz
    · exact hnt (htr j (by omega))

theorem stringMem_stable (x : Nat) (h : InPt dirtyMem 0x80000000 x) :
    stringMem x = dirtyMem x := by
  have := dirtyMem_inPt x h
  unfold stringMem
  rw [if_neg (by omega), if_neg (by omega)]

theorem stringMem_inPt (x : Nat) (h : InPt stringMem 0x80000000 x) :
    (0x80000000 ≤ x ∧ x < 0x80001000) ∨ (0x80002000 ≤ x ∧ x < 0x80004000) :=
  dirtyMem_inPt x (((userPa_stable demo dirtyMem stringMem 0x80000000 stringMem_stable).2 x).1 h)

theorem stringMem_cell (i : Nat) (hi : i < 16) :
    userCell demo stringMem 0x80000000 (2 ^ 36 + 5 + i) = 0x80001005 + i := by
  have h := dirtyMem_cell i hi
  unfold userCell at h ⊢
  rw [(userPa_stable demo dirtyMem stringMem 0x80000000 stringMem_stable).1]
  exact h

/-- C21 at a concrete input: the string "hi" at the user address `MMAP + 5` of
`stringState`, copied with `max = 16` to the kernel buffer at `0x80005000`.
`copyinstr` returns 0 and the buffer holds 104, 105, 0; the cell behind the
terminator is as before. -/
theorem copyinstr_copies_string_witness :
    (copyinstr demo 8 stringState 0x80000000 0x80005000 (2 ^ 36 + 5) 16).value? = some 0 ∧
    (copyinstr demo 8 stringState 0x80000000 0x80005000 (2 ^ 36 + 5) 16).state?.map
        (fun s => (s.mem 0x80005000, s.mem 0x80005001, s.mem 0x80005002, s.mem 0x80005003))
      = some (104, 105, 0, 0) ∧
    ∃ r s', copyinstr demo 8 stringState 0x80000000 0x80005000 (2 ^ 36 + 5) 16
        = Outcome.ret r s' ∧
      (r = 0 ↔ ∃ k, TerminatorAt demo stringState.mem 0x80000000 (2 ^ 36 + 5) 16 k) ∧
      (∀ k, TerminatorAt demo stringState.mem 0x80000000 (2 ^ 36 + 5) 16 k →
        (∀ i, i ≤ k → s'.mem (0x80005000 + i)
          = byteAt stringState.mem (userCell demo stringState.mem 0x80000000 (2 ^ 36 + 5 + i))) ∧
        (∀ x, ¬ (0x80005000 ≤ x ∧ x ≤ 0x80005000 + k) → s'.mem x = stringState.mem x)) := by
  refine ⟨by rfl, by rfl, ?_⟩
  obtain ⟨r, s', hr, h0, _, h3, _⟩ :=
    (copyinstr_copies_string demo stringState 8 0x80000000 0x80005000 (2 ^ 36 + 5) 16
      (by decide) (by decide) (by decide) (by decide)
      (fun i hi hin => by
        have h := stringMem_inPt _ hin
        omega)
      (fun i j hi hj _ => by
        rw [show stringState.mem = stringMem from rfl, stringMem_cell j hj]
        omega)).1
  exact ⟨r, s', hr, h0, h3⟩

/-! ### File positions of the write-back from `2^31` on -/

/-- C10, evaluated on the code: the region `[MMAP, MMAP + 8192)` is shared and
backed by the writable file 7 at file offset `0x7ffff000`; its second page is
mapped and dirty, so it is to be written back at the file position
`0x7ffff000 + 4096 = 2^31`, the position the fault read it from.
`munmap(MMAP + 4096, 4096)` returns 0 and writes the page back, but seeks to
`2^64 - 2^31`: `_mfree` keeps `a->pgoff + start - a->start` in its local
`int offset`, where `2^31` becomes negative, and the sum `offset + addr -
start` extends the sign. `_mfree` over the whole region, whose `offset` is
`0x7ffff000`, seeks to `2^31` for the same page. -/
theorem mfree_offset_sign_extends :
    highOffsetState.vma_cache 3 = ⟨2 ^ 36, 2 ^ 36 + 8192, 22, 1, 0x7ffff000, 7, none⟩ ∧
    highOffsetState.log
      = [FileOp.dup 7, FileOp.lseek 7 (2 ^ 31), FileOp.read 7 (2 ^ 36 + 4096) 4096] ∧
    writesBack demo highOffsetState 3 (2 ^ 36 + 4096) = true ∧
    (highOffsetState.vma_cache 3).pgoff + ((2 ^ 36 + 4096) - (highOffsetState.vma_cache 3).start)
      = 2 ^ 31 ∧
    (munmap demo 8 highOffsetState (2 ^ 36 + 4096) 4096).value? = some 0 ∧
    (munmap demo 8 highOffsetState (2 ^ 36 + 4096) 4096).state?.map
        (fun s => s.log.drop 3)
      = some [FileOp.lseek 7 (2 ^ 64 - 2 ^ 31), FileOp.write 7 (2 ^ 36 + 4096) 4096] ∧
    (_mfree demo 8 highOffsetState 3 (2 ^ 36 + 4096) (2 ^ 36 + 8192) true).state?.map
        (fun s => s.log.drop 3)
      = some [FileOp.lseek 7 (2 ^ 64 - 2 ^ 31), FileOp.write 7 (2 ^ 36 + 4096) 4096] ∧
    (_mfree demo 8 highOffsetState 3 (2 ^ 36) (2 ^ 36 + 8192) true).state?.map
        (fun s => s.log.drop 3)
      = some [FileOp.lseek 7 (2 ^ 31), FileOp.write 7 (2 ^ 36 + 4096) 4096] := by
  refine ⟨by rfl, by rfl, by rfl, by rfl, by rfl, by rfl, by rfl, by rfl⟩

end Vm
